import Mathlib

/-!
# Verification of the A* path-finding engine (`src/path-finding.js`)

Shallow embedding of the `astar.js` portion of the source: the `Graph` /
`GridNode` grid structure, the lazy-score binary heap, and `astar.search`,
together with the heuristics library.  JS numbers are modelled as exact
rationals (`ℚ`); the numeric literals of the source (`1.41421` in
`GridNode.prototype.getCost`, and the IEEE-754 double produced by
`Math.sqrt(2)` in `astar.heuristics.diagonal`) are carried over exactly.
The in-place mutation of node fields is modelled by threading a state
function `Pos → NodeState` through the search loop.
-/

set_option maxHeartbeats 4000000
set_option maxRecDepth 2000

namespace PathFinding

/-- Grid coordinates `(x, y)`: a `GridNode`'s identity.  In the source, node
objects are created once per cell and never reallocated, so JS object
identity coincides with coordinate identity. -/
abbrev Pos := Nat × Nat

/-- JS numbers, modelled as exact rationals. -/
abbrev W := ℚ

/-- The transient search fields of a `GridNode` (`f`, `g`, `h`, `visited`,
`closed`, `parent`), mutated in place by `astar.search`. -/
structure NodeState where
  f : W
  g : W
  h : W
  visited : Bool
  closed : Bool
  parent : Option Pos
deriving DecidableEq, Repr

/-- `astar.cleanNode` (lines 142-149): all transient fields zeroed. -/
def cleanNode : NodeState := ⟨0, 0, 0, false, false, none⟩

/-- The static data of a `Graph`: the weight of each cell (indexed
`grid[x][y]` exactly as in the source, where `x` is the index into the outer
array), and the `diagonal` option flag. -/
structure Graph where
  grid : List (List W)
  diagonal : Bool
deriving DecidableEq

namespace Graph

/-- The weight stored at `p`, if the cell exists (`grid[x]` and `grid[x][y]`
both defined). -/
def weightOpt (G : Graph) (p : Pos) : Option W :=
  (G.grid.get? p.1).bind fun row => row.get? p.2

/-- JS truthiness of `grid[x] && grid[x][y]`: the node object exists. -/
def hasNode (G : Graph) (p : Pos) : Bool := (G.weightOpt p).isSome

/-- The weight of cell `p` (0 for a nonexistent cell, which is then a wall
and in particular never traversed). -/
def weight (G : Graph) (p : Pos) : W := (G.weightOpt p).getD 0

/-- `GridNode.prototype.isWall` (lines 276-278): `weight === 0`. -/
def isWall (G : Graph) (p : Pos) : Prop := G.weight p = 0

instance (G : Graph) (p : Pos) : Decidable (G.isWall p) :=
  inferInstanceAs (Decidable (_ = _))

/-- The literal `1.41421` of `GridNode.prototype.getCost` (line 271). -/
def diagonalFactor : W := 141421 / 100000

/-- `GridNode.prototype.getCost` (lines 268-274): cost of entering cell
`self` moving from the adjacent cell `fromNeighbor`; `weight * 1.41421` when
both coordinates differ (a diagonal move), `weight` otherwise. -/
def getCost (G : Graph) (self fromNeighbor : Pos) : W :=
  if fromNeighbor.1 ≠ self.1 ∧ fromNeighbor.2 ≠ self.2 then
    G.weight self * diagonalFactor
  else G.weight self

/-- `Graph.prototype.neighbors` (lines 193-242): west, east, south, north,
then (if `diagonal`) southwest, southeast, northwest, northeast; skipping
cells outside the grid. -/
def neighbors (G : Graph) (p : Pos) : List Pos :=
  let x := p.1
  let y := p.2
  (match x with
   | 0 => []
   | x' + 1 => if G.hasNode (x', y) then [(x', y)] else []) ++
  (if G.hasNode (x + 1, y) then [(x + 1, y)] else []) ++
  (match y with
   | 0 => []
   | y' + 1 => if G.hasNode (x, y') then [(x, y')] else []) ++
  (if G.hasNode (x, y + 1) then [(x, y + 1)] else []) ++
  (if G.diagonal then
     (match x, y with
      | x' + 1, y' + 1 => if G.hasNode (x', y') then [(x', y')] else []
      | _, _ => []) ++
     (match y with
      | 0 => []
      | y' + 1 => if G.hasNode (x + 1, y') then [(x + 1, y')] else []) ++
     (match x with
      | 0 => []
      | x' + 1 => if G.hasNode (x', y + 1) then [(x', y + 1)] else []) ++
     (if G.hasNode (x + 1, y + 1) then [(x + 1, y + 1)] else [])
   else [])

/-- All cell coordinates of the grid (row-major). -/
def allPos (G : Graph) : List Pos :=
  (G.grid.enum).flatMap fun xr => (xr.2.enum).map fun yw => (xr.1, yw.1)

/-- Total number of cells. -/
def size (G : Graph) : Nat := (G.grid.map List.length).sum

end Graph

/-- `astar.heuristics.manhattan` (lines 129-133). -/
def manhattan (pos0 pos1 : Pos) : W :=
  let d1 := |((pos1.1 : W) - (pos0.1 : W))|
  let d2 := |((pos1.2 : W) - (pos0.2 : W))|
  d1 + d2

/-- The IEEE-754 double returned by `Math.sqrt(2)`: the closest double to
`√2`, namely `6369051672525773 × 2⁻⁵²` (slightly above the real `√2`, and
strictly above the literal `1.41421` used by `getCost`). -/
def sqrtTwoDouble : W := 6369051672525773 / 2 ^ 52

/-- `astar.heuristics.diagonal` (lines 134-140), with `D = 1` and
`D2 = Math.sqrt(2)`. -/
def diagonalHeur (pos0 pos1 : Pos) : W :=
  let D : W := 1
  let D2 : W := sqrtTwoDouble
  let d1 := |((pos1.1 : W) - (pos0.1 : W))|
  let d2 := |((pos1.2 : W) - (pos0.2 : W))|
  D * (d1 + d2) + (D2 - 2 * D) * min d1 d2

/-! ## The binary heap (lines 280-398)

The heap stores node references; the score of an element is its *current*
`f` field, read lazily through the score function.  Indices are exactly the
JS array indices. -/

/-- The score function handed to the heap by `getHeap` (lines 31-35):
a node's current `f`. -/
def score (nodes : Pos → NodeState) (p : Pos) : W := (nodes p).f

/-- Default element for (never-taken) out-of-range list reads. -/
def posDefault : Pos := (0, 0)

/-- `BinaryHeap.prototype.sinkDown` (lines 329-351): repeatedly swap the
element at `n` with its parent `((n+1) >> 1) - 1` while its score is
smaller. -/
def sinkDown (sc : Pos → W) (l : List Pos) (n : Nat) : List Pos :=
  if hn : n = 0 then l
  else
    let parentN := (n + 1) / 2 - 1
    let element := l.getD n posDefault
    let parentE := l.getD parentN posDefault
    if sc element < sc parentE then
      sinkDown sc ((l.set parentN element).set n parentE) parentN
    else l
termination_by n
decreasing_by
  omega

/-- Swap entries `n` and `m` (the `content[n] = content[swap];
content[swap] = element` step of `bubbleUp`). -/
def swapAt (l : List Pos) (n m : Nat) : List Pos :=
  (l.set n (l.getD m posDefault)).set m (l.getD n posDefault)

set_option linter.unusedVariables false in
/-- `BinaryHeap.prototype.bubbleUp` (lines 352-397): sift the element at `n`
down, swapping with the smaller of the (at most two) children while that
child's score is smaller. -/
def bubbleUp (sc : Pos → W) (l : List Pos) (n : Nat) : List Pos :=
  let element := l.getD n posDefault
  let child1N := 2 * n + 1
  let child2N := 2 * n + 2
  if h1 : child1N < l.length then
    if h2 : child2N < l.length then
      if sc (l.getD child1N posDefault) < sc element then
        if sc (l.getD child2N posDefault) < sc (l.getD child1N posDefault) then
          bubbleUp sc (swapAt l n child2N) child2N
        else
          bubbleUp sc (swapAt l n child1N) child1N
      else
        if sc (l.getD child2N posDefault) < sc element then
          bubbleUp sc (swapAt l n child2N) child2N
        else l
    else
      if sc (l.getD child1N posDefault) < sc element then
        bubbleUp sc (swapAt l n child1N) child1N
      else l
  else l
termination_by l.length - n
decreasing_by
  all_goals simp only [swapAt, List.length_set]; omega

/-- `BinaryHeap.prototype.push` (lines 286-292): append, then sink the last
element up towards the root. -/
def heapPush (sc : Pos → W) (l : List Pos) (e : Pos) : List Pos :=
  sinkDown sc (l ++ [e]) l.length

/-- `BinaryHeap.prototype.pop` (lines 293-305): return the root; move the
last element to the root and let it bubble down. -/
def heapPop (sc : Pos → W) : List Pos → Pos × List Pos
  | [] => (posDefault, [])
  | r :: rest =>
    if rest = [] then (r, [])
    else (r, bubbleUp sc (rest.getLastD r :: rest.dropLast) 0)

/-- `BinaryHeap.prototype.rescoreElement` (lines 326-328): sink the element
up from its current index (`indexOf`; when the element is absent, JS calls
`sinkDown(-1)`, whose `while (n > 0)` loop exits immediately, a no-op). -/
def heapRescore (sc : Pos → W) (l : List Pos) (e : Pos) : List Pos :=
  match List.findIdx? (fun q => q == e) l with
  | none => l
  | some i => sinkDown sc l i

/-! ## `astar.search` (lines 49-126) -/

/-- `pathTo` (lines 21-29): walk `parent` links back from `node`,
accumulating the nodes whose `parent` is set (the start, whose parent is
null, is excluded).  The JS loop would diverge on a cyclic parent chain;
the embedding takes fuel, always called with more fuel than any acyclic
chain can be long. -/
def pathTo (nodes : Pos → NodeState) : Nat → Pos → List Pos
  | 0, _ => []
  | fuel + 1, curr =>
    match (nodes curr).parent with
    | none => []
    | some p => pathTo nodes fuel p ++ [curr]

/-- The `options` argument of `astar.search`. -/
structure SearchOptions where
  heuristic : Option (Pos → Pos → W) := none
  closest : Bool := false

/-- Point update of the node-state function (one in-place field mutation). -/
def updateNode (nodes : Pos → NodeState) (p : Pos) (v : NodeState) :
    Pos → NodeState :=
  fun q => if q = p then v else nodes q

/-- `Graph.prototype.cleanDirty` (lines 182-187): reset every recorded
dirty node via `astar.cleanNode`. -/
def cleanDirty (nodes : Pos → NodeState) (dirty : List Pos) :
    Pos → NodeState :=
  dirty.foldl (fun ns p => updateNode ns p cleanNode) nodes

/-- The mutable state threaded through the neighbor loop of one iteration:
node fields, the graph's `dirtyNodes`, the heap's `content`, and the
`closestNode` variable. -/
structure Step where
  nodes : Pos → NodeState
  dirty : List Pos
  heap : List Pos
  closestNode : Pos

/-- The body of the `for` loop over `neighbors` (lines 79-117), for a single
neighbor. -/
def processNeighbor (G : Graph) (heur : Pos → Pos → W) (endP : Pos)
    (closest : Bool) (currentNode : Pos) (acc : Step) (neighbor : Pos) :
    Step :=
  let ns := acc.nodes neighbor
  if ns.closed = true ∨ G.isWall neighbor then acc
  else
    let gScore := (acc.nodes currentNode).g + G.getCost neighbor currentNode
    let beenVisited := ns.visited
    if beenVisited = false ∨ gScore < ns.g then
      -- `neighbor.h = neighbor.h || heuristic(neighbor, end)`: 0 is falsy
      let hval := if ns.h = 0 then heur neighbor endP else ns.h
      let ns' : NodeState :=
        { f := gScore + hval, g := gScore, h := hval, visited := true,
          closed := ns.closed, parent := some currentNode }
      let nodes' := updateNode acc.nodes neighbor ns'
      let dirty' := acc.dirty ++ [neighbor]
      let closestNode' :=
        if closest then
          let cn := nodes' acc.closestNode
          if hval < cn.h ∨ (hval = cn.h ∧ gScore < cn.g) then neighbor
          else acc.closestNode
        else acc.closestNode
      let heap' :=
        if beenVisited = false then heapPush (score nodes') acc.heap neighbor
        else heapRescore (score nodes') acc.heap neighbor
      ⟨nodes', dirty', heap', closestNode'⟩
    else acc

/-- Fuel for `pathTo` calls: longer than any acyclic parent chain. -/
def Graph.pathFuel (G : Graph) : Nat := G.size + 1

/-- The `while (openHeap.size() > 0)` loop of `astar.search` (lines
63-118), plus the post-loop returns (lines 120-125).  Returns the result
path together with the final node states and dirty list (the state left in
the mutated graph); `none` only on fuel exhaustion, which is proved
unreachable for the fuel used by `astarSearch`. -/
def searchLoop (G : Graph) (heur : Pos → Pos → W) (endP : Pos)
    (closest : Bool) :
    Nat → (Pos → NodeState) → List Pos → List Pos → Pos →
    Option (List Pos × (Pos → NodeState) × List Pos)
  | 0, _, _, _, _ => none
  | fuel + 1, nodes, dirty, heap, closestNode =>
    match heap with
    | [] =>
      if closest then
        some (pathTo nodes G.pathFuel closestNode, nodes, dirty)
      else some ([], nodes, dirty)
    | h₀ :: t₀ =>
      let pr := heapPop (score nodes) (h₀ :: t₀)
      let currentNode := pr.1
      let heap₁ := pr.2
      if currentNode = endP then
        some (pathTo nodes G.pathFuel currentNode, nodes, dirty)
      else
        let nodes₁ :=
          updateNode nodes currentNode
            { nodes currentNode with closed := true }
        let st :=
          (G.neighbors currentNode).foldl
            (processNeighbor G heur endP closest currentNode)
            ⟨nodes₁, dirty, heap₁, closestNode⟩
        searchLoop G heur endP closest fuel st.nodes st.dirty st.heap
          st.closestNode

/-- The node states at the loop entry of `astar.search`: everything
recorded dirty is cleaned, then the start node's `h` is set (line 62,
`start.h = heuristic(start, end)`). -/
def searchInit (G : Graph) (heur : Pos → Pos → W) (start endP : Pos)
    (nodes₀ : Pos → NodeState) (dirty₀ : List Pos) : Pos → NodeState :=
  let nodes₁ := cleanDirty nodes₀ dirty₀
  updateNode nodes₁ start { nodes₁ start with h := heur start endP }

/-- The result of `astar.search`: the returned path plus the state left
behind in the graph's nodes and dirty list. -/
structure SearchResult where
  path : List Pos
  nodes : Pos → NodeState
  dirty : List Pos

/-- `astar.search` (lines 49-126).  `nodes₀`/`dirty₀` are the graph's
current mutable state (all-clean with empty dirty list for a freshly
constructed graph). -/
def astarSearch (G : Graph) (start endP : Pos) (options : SearchOptions)
    (nodes₀ : Pos → NodeState) (dirty₀ : List Pos) : SearchResult :=
  let nodes₁ := cleanDirty nodes₀ dirty₀
  let heur := options.heuristic.getD manhattan
  let closest := options.closest
  let nodes₂ :=
    updateNode nodes₁ start { nodes₁ start with h := heur start endP }
  let dirty₁ : List Pos := [start]
  let heap₀ := heapPush (score nodes₂) [] start
  match searchLoop G heur endP closest (G.size + 2) nodes₂ dirty₁ heap₀
      start with
  | some (p, ns, d) => ⟨p, ns, d⟩
  | none => ⟨[], nodes₂, dirty₁⟩

/-! ## The `Graph` constructor (lines 158-180) -/

/-- A `GridNode` as allocated by the constructor: coordinates and weight. -/
structure GridNode where
  x : Nat
  y : Nat
  weight : W
deriving DecidableEq, Repr

/-- The flat `this.nodes` list built by the `Graph` constructor (lines
163-171): one `GridNode` per entry of the input weight matrix, row by row,
with whatever weight the input holds; no validation of any kind is
performed. -/
def buildNodes (gridIn : List (List W)) : List GridNode :=
  (gridIn.enum).flatMap fun xr => (xr.2.enum).map fun yw => ⟨xr.1, yw.1, yw.2⟩

/-- The `Graph` constructor (lines 158-173): records the weights and the
`diagonal` flag; `init` then zeroes all transient state (our `Graph` only
carries the static data, and a fresh graph's node-state function is
`fun _ => cleanNode` with an empty dirty list). -/
def Graph.construct (gridIn : List (List W)) (diagonal : Bool) : Graph :=
  ⟨gridIn, diagonal⟩

/-! ## `BinaryHeap.prototype.remove` (lines 306-322) -/

/-- JS `content[i] = v` where `i` may equal the current length (in which
case JS appends). -/
def jsArraySet (l : List Pos) (i : Nat) (v : Pos) : List Pos :=
  if i = l.length then l ++ [v] else l.set i v

/-- `BinaryHeap.prototype.remove` (lines 306-322), modelled faithfully
including its behaviour when `node` is absent (JS `indexOf` yields `-1`):
the last element is still popped unconditionally; the guard
`i !== content.length - 1` (read after the pop) only fails when the array
became empty; the write `content[-1] = end` creates an invisible
string-keyed property, after which `sinkDown(-1)` exits its `while (n > 0)`
loop immediately, and `bubbleUp(-1)`'s first iteration can only swap with
index 0 (its "first child" index is `-1` itself, never strictly smaller in
score), placing the popped last element at the root and sifting it down
from there. -/
def heapRemove (sc : Pos → W) (l : List Pos) (node : Pos) : List Pos :=
  match List.findIdx? (fun q => q == node) l with
  | some i =>
    match l with
    | [] => []
    | r :: rest =>
      let endE := rest.getLastD r
      let l₁ := (r :: rest).dropLast
      if (i : Int) ≠ (l₁.length : Int) - 1 then
        let l₂ := jsArraySet l₁ i endE
        if sc endE < sc node then sinkDown sc l₂ i else bubbleUp sc l₂ i
      else l₁
  | none =>
    match l with
    | [] => []
    | r :: rest =>
      let endE := rest.getLastD r
      let l₁ := (r :: rest).dropLast
      if (-1 : Int) ≠ (l₁.length : Int) - 1 then
        if sc endE < sc node then l₁
        else
          match l₁ with
          | [] => []
          | h₁ :: t₁ =>
            if sc h₁ < sc endE then bubbleUp sc (endE :: t₁) 0 else l₁
      else l₁

/-- The JS parent index `((n + 1) >> 1) - 1` used by the heap. -/
def parentIdx (n : Nat) : Nat := (n + 1) / 2 - 1

/-- The binary min-heap ordering property of the `content` array: every
entry's score dominates its parent's. -/
def HeapProp (sc : Pos → W) (l : List Pos) : Prop :=
  ∀ i, 0 < i → i < l.length →
    sc (l.getD (parentIdx i) posDefault) ≤ sc (l.getD i posDefault)

/-- Almost-heap for sifting towards the root (`sinkDown`): every parent
edge holds except possibly the one into `n`, and the children of `n` are
known to dominate `n`'s parent. -/
def AHU (sc : Pos → W) (l : List Pos) (n : Nat) : Prop :=
  (∀ i, 0 < i → i < l.length → i ≠ n →
    sc (l.getD (parentIdx i) posDefault) ≤ sc (l.getD i posDefault)) ∧
  (∀ j, j < l.length → parentIdx j = n → j ≠ n →
    sc (l.getD (parentIdx n) posDefault) ≤ sc (l.getD j posDefault))

/-- Almost-heap for sifting away from the root (`bubbleUp`): every parent
edge holds except possibly those out of `n`, and the children of `n` are
known to dominate `n`'s parent. -/
def AHD (sc : Pos → W) (l : List Pos) (n : Nat) : Prop :=
  (∀ i, 0 < i → i < l.length → parentIdx i ≠ n →
    sc (l.getD (parentIdx i) posDefault) ≤ sc (l.getD i posDefault)) ∧
  (0 < n → ∀ j, j < l.length → parentIdx j = n →
    sc (l.getD (parentIdx n) posDefault) ≤ sc (l.getD j posDefault))

/-! ## Specification-side notions: paths, costs, heuristic properties -/

/-- A valid path from `s` through the successive cells of `l`, ending at
`e`: each step enters an adjacent (per `Graph.neighbors`) non-wall cell,
`s` itself excluded, and the last cell of `l` is `e` (`l = []` requires
`s = e`). -/
def ValidPath (G : Graph) : Pos → List Pos → Pos → Prop
  | s, [], e => s = e
  | s, q :: t, e => (q ∈ G.neighbors s ∧ ¬G.isWall q) ∧ ValidPath G q t e

@[instance] def decValidPath (G : Graph) (e : Pos) :
    (s : Pos) → (l : List Pos) → Decidable (ValidPath G s l e)
  | s, [] => inferInstanceAs (Decidable (s = e))
  | s, q :: t =>
    haveI : Decidable (ValidPath G q t e) := decValidPath G e q t
    inferInstanceAs (Decidable (_ ∧ _))

/-- Total cost of a path starting at `s`: the sum of `getCost` of each
entered cell from its predecessor. -/
def pathCost (G : Graph) : Pos → List Pos → W
  | _, [] => 0
  | s, q :: t => G.getCost q s + pathCost G q t

/-- `p` can be reached from `s` by some valid path. -/
def Reachable (G : Graph) (s p : Pos) : Prop := ∃ l, ValidPath G s l p

/-- All weights of the grid are non-negative (the documented input
contract of the `Graph` constructor). -/
def NonnegWeights (G : Graph) : Prop := ∀ p, 0 ≤ G.weight p

/-- The heuristic never overestimates the true remaining cost to `endP`
under `getCost` step costs. -/
def Admissible (G : Graph) (heur : Pos → Pos → W) (endP : Pos) : Prop :=
  ∀ p l, ValidPath G p l endP → heur p endP ≤ pathCost G p l

/-- The heuristic is consistent (monotone): across every traversable edge
it decreases by at most the step cost. -/
def Consistent (G : Graph) (heur : Pos → Pos → W) (endP : Pos) : Prop :=
  ∀ p q, q ∈ G.neighbors p → ¬G.isWall q →
    heur p endP ≤ G.getCost q p + heur q endP

/-- Graph states producible through the public interface (a freshly
constructed graph, or the state left by searches): every node whose
transient state is not clean is recorded in the dirty list. -/
def WellFormed (nodes : Pos → NodeState) (dirty : List Pos) : Prop :=
  ∀ p, nodes p ≠ cleanNode → p ∈ dirty

/-- The step-cost function the *diagonal heuristic* is consistent with:
identical to `Graph.getCost` except that a diagonal step is charged the
heuristic's own constant `Math.sqrt(2)` instead of `getCost`'s literal
`1.41421`.  Used only to state the amended form of the admissibility
claim. -/
def Graph.getCostSqrt (G : Graph) (self fromNeighbor : Pos) : W :=
  if fromNeighbor.1 ≠ self.1 ∧ fromNeighbor.2 ≠ self.2 then
    G.weight self * sqrtTwoDouble
  else G.weight self

/-- Path cost under `Graph.getCostSqrt`. -/
def pathCostSqrt (G : Graph) : Pos → List Pos → W
  | _, [] => 0
  | s, q :: t => G.getCostSqrt q s + pathCostSqrt G q t

/-- `p` has been reached by the search: its `visited` flag is set, or it is
the start node (which the code pushes without ever setting `visited`). -/
def ReachedN (nodes : Pos → NodeState) (start p : Pos) : Prop :=
  (nodes p).visited = true ∨ p = start

/-- The search-loop invariant, maintained at every loop head of
`astar.search` (and at its return points).  It ties together the heap
contents, the transient node fields, the dirty list and the `closestNode`
variable. -/
structure InvL (G : Graph) (heur : Pos → Pos → W) (endP start : Pos)
    (closest : Bool) (nodes : Pos → NodeState) (dirty : List Pos)
    (heap : List Pos) (closestNode : Pos) : Prop where
  hmem : ∀ p, p ∈ heap ↔ (ReachedN nodes start p ∧ (nodes p).closed = false)
  hnodup : heap.Nodup
  hbound : ∀ p, ReachedN nodes start p → G.hasNode p = true
  wall_unvisited : ∀ p, G.isWall p → (nodes p).visited = false
  unreached_clean : ∀ p, ¬ReachedN nodes start p → nodes p = cleanNode
  start_fresh : (nodes start).closed = false →
    heap = [start] ∧ ∀ p, (nodes p).visited = false
  start_g : (nodes start).g = 0
  start_parent : (nodes start).parent = none
  start_unvisited : (nodes start).visited = false
  start_dirty : start ∈ dirty
  hcached : ∀ p, ReachedN nodes start p → (nodes p).h = heur p endP
  f_eq : ∀ p, (nodes p).visited = true →
    (nodes p).f = (nodes p).g + (nodes p).h
  dirty_covers : ∀ p, nodes p ≠ cleanNode → p ∈ dirty
  dirty_bound : ∀ p ∈ dirty, G.hasNode p = true
  parent_inv : ∀ p q, (nodes p).parent = some q →
    p ∈ G.neighbors q ∧ ¬G.isWall p ∧ (nodes q).closed = true ∧
    (nodes p).g = (nodes q).g + G.getCost p q ∧ (nodes p).visited = true
  parent_none : ∀ p, ReachedN nodes start p → (nodes p).parent = none →
    p = start
  closed_reached : ∀ p, (nodes p).closed = true → ReachedN nodes start p
  end_open : (nodes endP).closed = false
  gpath : ∀ p, ReachedN nodes start p →
    ∃ l, ValidPath G start l p ∧ pathCost G start l = (nodes p).g
  frontier : ∀ u, (nodes u).closed = true → ∀ y ∈ G.neighbors u,
    ¬G.isWall y → ReachedN nodes start y ∧
      ((nodes y).closed = true ∨
        (nodes y).g ≤ (nodes u).g + G.getCost y u)
  hprop : HeapProp (score nodes) heap
  cl_reached : closest = true → ReachedN nodes start closestNode
  cl_min : closest = true → ∀ p, ReachedN nodes start p →
    (nodes closestNode).h < (nodes p).h ∨
      ((nodes closestNode).h = (nodes p).h ∧
        (nodes closestNode).g ≤ (nodes p).g)

/-- The optimality part of the invariant (needs a consistent heuristic to
be preserved): every closed node's `g` is no larger than the cost of any
valid path to it. -/
def ClosedG (G : Graph) (start : Pos) (nodes : Pos → NodeState) : Prop :=
  ∀ p, (nodes p).closed = true → ∀ l, ValidPath G start l p →
    (nodes p).g ≤ pathCost G start l

/-- The invariant holding *inside* one loop iteration, after the popped
node `u` has been closed and the neighbors in `processed` have been
handled.  Identical to `InvL` except that the `frontier` property for `u`
itself is only established for `processed`, and the start node is known to
be closed (the first pop necessarily pops `start`). -/
structure MidInv (G : Graph) (heur : Pos → Pos → W) (endP start : Pos)
    (closest : Bool) (u : Pos) (processed : List Pos)
    (nodes : Pos → NodeState) (dirty : List Pos)
    (heap : List Pos) (closestNode : Pos) : Prop where
  hmem : ∀ p, p ∈ heap ↔ (ReachedN nodes start p ∧ (nodes p).closed = false)
  hnodup : heap.Nodup
  hbound : ∀ p, ReachedN nodes start p → G.hasNode p = true
  wall_unvisited : ∀ p, G.isWall p → (nodes p).visited = false
  unreached_clean : ∀ p, ¬ReachedN nodes start p → nodes p = cleanNode
  start_closed : (nodes start).closed = true
  start_g : (nodes start).g = 0
  start_parent : (nodes start).parent = none
  start_unvisited : (nodes start).visited = false
  start_dirty : start ∈ dirty
  hcached : ∀ p, ReachedN nodes start p → (nodes p).h = heur p endP
  f_eq : ∀ p, (nodes p).visited = true →
    (nodes p).f = (nodes p).g + (nodes p).h
  dirty_covers : ∀ p, nodes p ≠ cleanNode → p ∈ dirty
  dirty_bound : ∀ p ∈ dirty, G.hasNode p = true
  parent_inv : ∀ p q, (nodes p).parent = some q →
    p ∈ G.neighbors q ∧ ¬G.isWall p ∧ (nodes q).closed = true ∧
    (nodes p).g = (nodes q).g + G.getCost p q ∧ (nodes p).visited = true
  parent_none : ∀ p, ReachedN nodes start p → (nodes p).parent = none →
    p = start
  closed_reached : ∀ p, (nodes p).closed = true → ReachedN nodes start p
  end_open : (nodes endP).closed = false
  gpath : ∀ p, ReachedN nodes start p →
    ∃ l, ValidPath G start l p ∧ pathCost G start l = (nodes p).g
  u_closed : (nodes u).closed = true
  frontierA : ∀ v, (nodes v).closed = true → v ≠ u → ∀ y ∈ G.neighbors v,
    ¬G.isWall y → ReachedN nodes start y ∧
      ((nodes y).closed = true ∨
        (nodes y).g ≤ (nodes v).g + G.getCost y v)
  frontierU : ∀ y ∈ processed, ¬G.isWall y → ReachedN nodes start y ∧
      ((nodes y).closed = true ∨
        (nodes y).g ≤ (nodes u).g + G.getCost y u)
  hprop : HeapProp (score nodes) heap
  cl_reached : closest = true → ReachedN nodes start closestNode
  cl_min : closest = true → ∀ p, ReachedN nodes start p →
    (nodes closestNode).h < (nodes p).h ∨
      ((nodes closestNode).h = (nodes p).h ∧
        (nodes closestNode).g ≤ (nodes p).g)

/-- The value of `processNeighbor` in the relaxation case, with all
`let`-bindings spelled out (used to reason about one neighbor step). -/
def relaxedState (G : Graph) (heur : Pos → Pos → W) (endP : Pos)
    (closest : Bool) (u : Pos) (acc : Step) (nb : Pos) : Step :=
  let ns := acc.nodes nb
  let gScore := (acc.nodes u).g + G.getCost nb u
  let hval := if ns.h = 0 then heur nb endP else ns.h
  let ns' : NodeState :=
    { f := gScore + hval, g := gScore, h := hval, visited := true,
      closed := ns.closed, parent := some u }
  let nodes' := updateNode acc.nodes nb ns'
  ⟨nodes', acc.dirty ++ [nb],
   if ns.visited = false then heapPush (score nodes') acc.heap nb
   else heapRescore (score nodes') acc.heap nb,
   if closest then
     if hval < (nodes' acc.closestNode).h ∨
         (hval = (nodes' acc.closestNode).h ∧
           gScore < (nodes' acc.closestNode).g) then nb
     else acc.closestNode
   else acc.closestNode⟩

/-- Number of grid cells not yet visited (part of the loop termination
measure). -/
def unvisitedCount (G : Graph) (nodes : Pos → NodeState) : Nat :=
  (G.allPos.filter (fun p => !(nodes p).visited)).length

/-- Number of cells with strictly smaller `g`: a well-founded gauge for
walking `parent` chains (along which `g` strictly decreases). -/
def gGauge (G : Graph) (nodes : Pos → NodeState) (p : Pos) : Nat :=
  (G.allPos.toFinset.filter (fun q => (nodes q).g < (nodes p).g)).card

/-! ## Concrete instances used by counterexamples and witnesses -/

/-- The all-clean node state of a freshly constructed graph. -/
def freshNodes : Pos → NodeState := fun _ => cleanNode

/-- C1 counterexample grid (3 rows × 2 columns, orthogonal movement):
weights `S=(0,0)↦1, a=(0,1)↦2, b=(1,0)↦3/2, u=(1,1)↦1, z=(2,0)↦wall,
G=(2,1)↦1`. -/
def ceGrid : Graph := ⟨[[1, 2], [3/2, 1], [0, 1]], false⟩

/-- C1 counterexample heuristic: admissible for `ceGrid` towards `(2,1)`
but not consistent (`2` at `b=(1,0)`, `0` elsewhere). -/
def ceHeur : Pos → Pos → W := fun p _ => if p = (1, 0) then 2 else 0

/-- C8 counterexample grid: 2×2 orthogonal movement; the cell `(0,1)` is
expensive, so the route through it is relaxed first only because the
heuristic `c8Heur` delays the cheap route. -/
def c8Grid : Graph := ⟨[[1, 4], [1, 1]], false⟩

/-- C8 counterexample heuristic: inflates `(1,0)` and `(1,1)` so that the
expensive route through `(0,1)` relaxes `(1,1)` first and the cheap route
through `(1,0)` relaxes it a second time before it is popped. -/
def c8Heur : Pos → Pos → W :=
  fun p _ => if p = (1, 0) then 10 else if p = (1, 1) then 20 else 0

/-- The constant-zero heuristic (a legitimate `options.heuristic`). -/
def zeroHeur : Pos → Pos → W := fun _ _ => 0

/-- C5 counterexample grid: start `(0,0)` is isolated by walls and the end
`(1,1)` is unreachable. -/
def c5Grid : Graph := ⟨[[1, 0], [0, 1]], false⟩

/-- All-ones 2×2 grid with diagonal movement (C4 counterexample). -/
def c4Grid : Graph := ⟨[[1, 1], [1, 1]], true⟩

/-- Open 2×2 orthogonal grid (witness instances). -/
def openGrid2 : Graph := ⟨[[1, 1], [1, 1]], false⟩

/-! # Theorems -/

/-! ## Basic heap lemmas -/

theorem swapAt_length (l : List Pos) (n m : Nat) :
    (swapAt l n m).length = l.length := by
  simp [swapAt]

theorem sinkDown_length (sc : Pos → W) (l : List Pos) (n : Nat) :
    (sinkDown sc l n).length = l.length := by
  induction l, n using sinkDown.induct sc with
  | case1 l => rw [sinkDown]; simp
  | case2 l n hn pN el pE hlt ih =>
    rw [sinkDown]
    simp only [dif_neg hn, if_pos hlt]
    rw [ih]
    simp
  | case3 l n hn pN el pE hlt =>
    rw [sinkDown]
    simp only [dif_neg hn, if_neg hlt]

theorem bubbleUp_length (sc : Pos → W) (l : List Pos) (n : Nat) :
    (bubbleUp sc l n).length = l.length := by
  induction l, n using bubbleUp.induct sc with
  | case1 l n el c1 c2 h1 h2 ha hb ih =>
    rw [bubbleUp]
    simp only [dif_pos h1, dif_pos h2, if_pos ha, if_pos hb]
    rw [ih, swapAt_length]
  | case2 l n el c1 c2 h1 h2 ha hb ih =>
    rw [bubbleUp]
    simp only [dif_pos h1, dif_pos h2, if_pos ha, if_neg hb]
    rw [ih, swapAt_length]
  | case3 l n el c1 c2 h1 h2 ha hb ih =>
    rw [bubbleUp]
    simp only [dif_pos h1, dif_pos h2, if_neg ha, if_pos hb]
    rw [ih, swapAt_length]
  | case4 l n el c1 c2 h1 h2 ha hb =>
    rw [bubbleUp]
    simp only [dif_pos h1, dif_pos h2, if_neg ha, if_neg hb]
  | case5 l n el c1 c2 h1 h2 ha ih =>
    rw [bubbleUp]
    simp only [dif_pos h1, dif_neg h2, if_pos ha]
    rw [ih, swapAt_length]
  | case6 l n el c1 c2 h1 h2 ha =>
    rw [bubbleUp]
    simp only [dif_pos h1, dif_neg h2, if_neg ha]
  | case7 l n c1 h1 =>
    rw [bubbleUp]
    simp only [dif_neg h1]

theorem getD_set_self (l : List Pos) (i : Nat) (v : Pos) (h : i < l.length) :
    (l.set i v).getD i posDefault = v := by
  rw [List.getD_eq_getElem _ _ (by simpa using h)]
  simp [List.getElem_set]

theorem getD_set_other (l : List Pos) {i j : Nat} (v : Pos) (h : i ≠ j) :
    (l.set i v).getD j posDefault = l.getD j posDefault := by
  by_cases hj : j < l.length
  · rw [List.getD_eq_getElem _ _ (by simpa using hj),
      List.getD_eq_getElem _ _ hj]
    exact List.getElem_set_ne h _
  · rw [List.getD_eq_default _ _ (by simp; omega),
      List.getD_eq_default _ _ (by omega)]

theorem getD_mem (l : List Pos) {i : Nat} (h : i < l.length) :
    l.getD i posDefault ∈ l := by
  rw [List.getD_eq_getElem _ _ h]
  exact List.getElem_mem h

theorem set_perm_cons : ∀ (t : List Pos) (m : Nat), m < t.length → ∀ a,
    (t.getD m posDefault :: t.set m a).Perm (a :: t) := by
  intro t
  induction t with
  | nil =>
    intro m hm
    exact absurd hm (by simp)
  | cons b t' ih =>
    intro m hm a
    cases m with
    | zero => exact List.Perm.swap a b t'
    | succ m' =>
      have hm' : m' < t'.length := by simpa using hm
      show (t'.getD m' posDefault :: b :: t'.set m' a).Perm (a :: b :: t')
      exact (List.Perm.swap _ _ _).trans
        (((ih m' hm' a).cons b).trans (List.Perm.swap _ _ _))

theorem swapAt_perm : ∀ (l : List Pos) (i j : Nat), i < l.length →
    j < l.length → (swapAt l i j).Perm l := by
  intro l
  induction l with
  | nil =>
    intro i j hi _
    exact absurd hi (by simp)
  | cons a t ih =>
    intro i j hi hj
    cases i with
    | zero =>
      cases j with
      | zero => exact List.Perm.refl _
      | succ m =>
        have hm : m < t.length := by simpa using hj
        exact set_perm_cons t m hm a
    | succ k =>
      cases j with
      | zero =>
        have hk : k < t.length := by simpa using hi
        exact set_perm_cons t k hk a
      | succ m =>
        have hk : k < t.length := by simpa using hi
        have hm : m < t.length := by simpa using hj
        show (a :: swapAt t k m).Perm (a :: t)
        exact (ih k m hk hm).cons a

theorem sinkDown_perm (sc : Pos → W) :
    ∀ (l : List Pos) (n : Nat), n < l.length →
      (sinkDown sc l n).Perm l := by
  intro l n
  induction l, n using sinkDown.induct sc with
  | case1 l =>
    intro hlen
    rw [sinkDown]
    simp
  | case2 l n hn pN el pE hlt ih =>
    intro hlen
    rw [sinkDown]
    simp only [dif_neg hn, if_pos hlt]
    have hpN : pN = (n + 1) / 2 - 1 := rfl
    have h1 : pN < n := by omega
    refine (ih ?_).trans ?_
    · simp only [List.length_set]
      omega
    · exact swapAt_perm l pN n (by omega) hlen
  | case3 l n hn pN el pE hlt =>
    intro hlen
    rw [sinkDown]
    simp only [dif_neg hn, if_neg hlt]
    exact List.Perm.refl _

theorem bubbleUp_perm (sc : Pos → W) :
    ∀ (l : List Pos) (n : Nat), (bubbleUp sc l n).Perm l := by
  intro l n
  induction l, n using bubbleUp.induct sc with
  | case1 l n el c1 c2 h1 h2 ha hb ih =>
    rw [bubbleUp]
    simp only [dif_pos h1, dif_pos h2, if_pos ha, if_pos hb]
    exact ih.trans (swapAt_perm l n (2 * n + 2) (by omega) h2)
  | case2 l n el c1 c2 h1 h2 ha hb ih =>
    rw [bubbleUp]
    simp only [dif_pos h1, dif_pos h2, if_pos ha, if_neg hb]
    exact ih.trans (swapAt_perm l n (2 * n + 1) (by omega) h1)
  | case3 l n el c1 c2 h1 h2 ha hb ih =>
    rw [bubbleUp]
    simp only [dif_pos h1, dif_pos h2, if_neg ha, if_pos hb]
    exact ih.trans (swapAt_perm l n (2 * n + 2) (by omega) h2)
  | case4 l n el c1 c2 h1 h2 ha hb =>
    rw [bubbleUp]
    simp only [dif_pos h1, dif_pos h2, if_neg ha, if_neg hb]
    exact List.Perm.refl _
  | case5 l n el c1 c2 h1 h2 ha ih =>
    rw [bubbleUp]
    simp only [dif_pos h1, dif_neg h2, if_pos ha]
    exact ih.trans (swapAt_perm l n (2 * n + 1) (by omega) h1)
  | case6 l n el c1 c2 h1 h2 ha =>
    rw [bubbleUp]
    simp only [dif_pos h1, dif_neg h2, if_neg ha]
    exact List.Perm.refl _
  | case7 l n c1 h1 =>
    rw [bubbleUp]
    simp only [dif_neg h1]
    exact List.Perm.refl _

theorem heapPush_perm (sc : Pos → W) (l : List Pos) (e : Pos) :
    (heapPush sc l e).Perm (e :: l) := by
  unfold heapPush
  refine (sinkDown_perm sc (l ++ [e]) l.length (by simp)).trans ?_
  exact List.perm_append_singleton e l

theorem heapPop_fst (sc : Pos → W) (h : Pos) (t : List Pos) :
    (heapPop sc (h :: t)).1 = h := by
  rw [heapPop]
  split <;> rfl

theorem heapPop_snd_perm (sc : Pos → W) (h : Pos) (t : List Pos) :
    (heapPop sc (h :: t)).2.Perm t := by
  rw [heapPop]
  split
  · rename_i ht
    subst ht
    exact List.Perm.refl _
  · rename_i ht
    simp only
    have h1 : t.getLastD h = t.getLast ht := by
      rw [List.getLastD_eq_getLast?, List.getLast?_eq_getLast t ht]
      rfl
    rw [h1]
    refine ((bubbleUp_perm sc _ 0).trans
      ((List.perm_append_singleton _ _).symm)).trans ?_
    rw [List.dropLast_append_getLast ht]

theorem heapRescore_perm (sc : Pos → W) (l : List Pos) (e : Pos) :
    (heapRescore sc l e).Perm l := by
  unfold heapRescore
  split
  · exact List.Perm.refl _
  · rename_i i hi
    have h1 := (List.findIdx?_eq_some_iff_findIdx_eq.mp hi).1
    exact sinkDown_perm sc l i h1

theorem HeapProp_congr {sc sc' : Pos → W} {l : List Pos}
    (h : ∀ q ∈ l, sc' q = sc q) (hp : HeapProp sc l) : HeapProp sc' l := by
  intro i hi hil
  have hpl : parentIdx i < l.length := by
    have : parentIdx i ≤ i := by simp [parentIdx]; omega
    omega
  rw [h _ (getD_mem l hil), h _ (getD_mem l hpl)]
  exact hp i hi hil

theorem heapProp_head_le {sc : Pos → W} {l : List Pos} (hp : HeapProp sc l) :
    ∀ i, i < l.length →
      sc (l.getD 0 posDefault) ≤ sc (l.getD i posDefault) := by
  intro i
  induction i using Nat.strong_induction_on with
  | _ i ih =>
    intro hil
    rcases Nat.eq_zero_or_pos i with rfl | hi
    · exact le_refl _
    · have h1 : parentIdx i < i := by simp [parentIdx]; omega
      exact (ih (parentIdx i) h1 (by omega)).trans (hp i hi hil)

theorem heapProp_head_le_mem {sc : Pos → W} {h : Pos} {t : List Pos}
    (hp : HeapProp sc (h :: t)) : ∀ x ∈ h :: t, sc h ≤ sc x := by
  intro x hx
  obtain ⟨i, hil, rfl⟩ := List.mem_iff_getElem.mp hx
  have h1 := heapProp_head_le hp i hil
  rwa [List.getD_eq_getElem _ _ hil] at h1

theorem AHU_sinkDown (sc : Pos → W) :
    ∀ (l : List Pos) (n : Nat), n < l.length → AHU sc l n →
      HeapProp sc (sinkDown sc l n) := by
  intro l n
  induction l, n using sinkDown.induct sc with
  | case1 l =>
    intro _ hA
    rw [sinkDown]
    simp only [dif_pos rfl]
    intro i hi hil
    exact hA.1 i hi hil (by omega)
  | case2 l n hn pN el pE hlt ih =>
    intro hlen hA
    rw [sinkDown]
    simp only [dif_neg hn, if_pos hlt]
    have hpN : pN = (n + 1) / 2 - 1 := rfl
    have hel : el = l.getD n posDefault := rfl
    have hpE : pE = l.getD pN posDefault := rfl
    have hpP : parentIdx n = pN := by simp [parentIdx, hpN]
    have hpNn : pN < n := by omega
    have hpNl : pN < l.length := by omega
    have hlen2 : ((l.set pN el).set n pE).length = l.length := by simp
    have g1 : ((l.set pN el).set n pE).getD n posDefault = pE :=
      getD_set_self _ n pE (by simpa using hlen)
    have g2 : ((l.set pN el).set n pE).getD pN posDefault = el := by
      rw [getD_set_other _ pE (by omega : n ≠ pN),
        getD_set_self l pN el hpNl]
    have g3 : ∀ j, j ≠ n → j ≠ pN →
        ((l.set pN el).set n pE).getD j posDefault =
          l.getD j posDefault := by
      intro j hj1 hj2
      rw [getD_set_other _ pE (fun hc => hj1 hc.symm),
        getD_set_other l el (fun hc => hj2 hc.symm)]
    refine ih (by rw [hlen2]; omega) ⟨?_, ?_⟩
    · intro i hi hil hipN
      rw [hlen2] at hil
      by_cases hin : i = n
      · subst hin
        rw [hpP, g1, g2]
        exact le_of_lt hlt
      · by_cases hip : parentIdx i = pN
        · rw [hip, g2, g3 i hin hipN]
          refine (le_of_lt hlt).trans ?_
          have h5 := hA.1 i hi hil hin
          rwa [hip, ← hpE] at h5
        · by_cases hipn : parentIdx i = n
          · rw [hipn, g1, g3 i hin hipN]
            have h5 := hA.2 i hil hipn hin
            rwa [hpP, ← hpE] at h5
          · rw [g3 (parentIdx i) hipn hip, g3 i hin hipN]
            exact hA.1 i hi hil hin
    · intro j hjl hpj hjpN
      rw [hlen2] at hjl
      have hj0 : 0 < j := by
        rcases Nat.eq_zero_or_pos j with rfl | h
        · exfalso
          apply hjpN
          simp [parentIdx] at hpj
          omega
        · exact h
      by_cases hjn : j = n
      · subst hjn
        rw [g1]
        rcases Nat.eq_zero_or_pos pN with hpN0 | hpN0
        · have he : parentIdx pN = pN := by simp [parentIdx, hpN0]
          rw [he, g2]
          exact le_of_lt hlt
        · have h6 : parentIdx pN < pN := by simp [parentIdx]; omega
          rw [g3 (parentIdx pN) (by omega) (by omega)]
          have h5 := hA.1 pN hpN0 hpNl (by omega)
          rwa [← hpE] at h5
      · rw [g3 j hjn hjpN]
        have h7 := hA.1 j hj0 hjl hjn
        rw [hpj, ← hpE] at h7
        rcases Nat.eq_zero_or_pos pN with hpN0 | hpN0
        · have he : parentIdx pN = pN := by simp [parentIdx, hpN0]
          rw [he, g2]
          exact (le_of_lt hlt).trans h7
        · have h6 : parentIdx pN < pN := by simp [parentIdx]; omega
          rw [g3 (parentIdx pN) (by omega) (by omega)]
          have h5 := hA.1 pN hpN0 hpNl (by omega)
          rw [← hpE] at h5
          exact h5.trans h7
  | case3 l n hn pN el pE hlt =>
    intro hlen hA
    rw [sinkDown]
    simp only [dif_neg hn, if_neg hlt]
    intro i hi hil
    by_cases hin : i = n
    · subst hin
      rw [show parentIdx i = pN from rfl]
      exact le_of_not_lt hlt
    · exact hA.1 i hi hil hin

theorem heapPush_prop {sc : Pos → W} {l : List Pos} (hp : HeapProp sc l)
    (e : Pos) : HeapProp sc (heapPush sc l e) := by
  unfold heapPush
  apply AHU_sinkDown sc (l ++ [e]) l.length (by simp)
  constructor
  · intro i hi hil hin
    have hil2 : i < l.length := by
      simp only [List.length_append, List.length_singleton] at hil
      omega
    have hpl : parentIdx i < l.length := by
      have : parentIdx i ≤ i := by simp [parentIdx]; omega
      omega
    have e1 : (l ++ [e]).getD i posDefault = l.getD i posDefault := by
      rw [List.getD_eq_getElem _ _ (by simp; omega),
        List.getD_eq_getElem _ _ hil2]
      exact List.getElem_append_left hil2
    have e2 : (l ++ [e]).getD (parentIdx i) posDefault =
        l.getD (parentIdx i) posDefault := by
      rw [List.getD_eq_getElem _ _ (by simp; omega),
        List.getD_eq_getElem _ _ hpl]
      exact List.getElem_append_left hpl
    rw [e1, e2]
    exact hp i hi hil2
  · intro j hjl hpj _
    exfalso
    simp only [List.length_append, List.length_singleton] at hjl
    simp [parentIdx] at hpj
    omega

theorem swapAt_getD_fst (l : List Pos) (n m : Nat) (hn : n < l.length)
    (hnm : n ≠ m) :
    (swapAt l n m).getD n posDefault = l.getD m posDefault := by
  rw [swapAt, getD_set_other _ _ (fun hc => hnm hc.symm),
    getD_set_self l n _ hn]

theorem swapAt_getD_snd (l : List Pos) (n m : Nat) (hm : m < l.length) :
    (swapAt l n m).getD m posDefault = l.getD n posDefault := by
  rw [swapAt, getD_set_self _ m _ (by simpa using hm)]

theorem swapAt_getD_other (l : List Pos) (n m j : Nat) (h1 : j ≠ n)
    (h2 : j ≠ m) :
    (swapAt l n m).getD j posDefault = l.getD j posDefault := by
  rw [swapAt, getD_set_other _ _ (fun hc => h2 hc.symm),
    getD_set_other _ _ (fun hc => h1 hc.symm)]

theorem AHD_swap (sc : Pos → W) (l : List Pos) (n m : Nat)
    (hm : m < l.length) (hmn : m = 2 * n + 1 ∨ m = 2 * n + 2)
    (hswap : sc (l.getD m posDefault) < sc (l.getD n posDefault))
    (hsib : ∀ o, 0 < o → o < l.length → parentIdx o = n → o ≠ m →
      sc (l.getD m posDefault) ≤ sc (l.getD o posDefault))
    (hA : AHD sc l n) : AHD sc (swapAt l n m) m := by
  have hnm : n < m := by omega
  have hnl : n < l.length := by omega
  have hpm : parentIdx m = n := by simp [parentIdx]; omega
  have hlen : (swapAt l n m).length = l.length := swapAt_length l n m
  have s1 : (swapAt l n m).getD n posDefault = l.getD m posDefault :=
    swapAt_getD_fst l n m hnl (by omega)
  have s2 : (swapAt l n m).getD m posDefault = l.getD n posDefault :=
    swapAt_getD_snd l n m hm
  constructor
  · intro i hi hil hpim
    rw [hlen] at hil
    by_cases him : i = m
    · subst him
      rw [hpm, s1, s2]
      exact le_of_lt hswap
    · by_cases hin : i = n
      · subst hin
        have hpn : parentIdx i < i := by simp [parentIdx]; omega
        rw [swapAt_getD_other l i m (parentIdx i) (by omega) (by omega), s1]
        exact hA.2 hi m hm hpm
      · by_cases hpin : parentIdx i = n
        · rw [hpin, s1, swapAt_getD_other l n m i hin him]
          exact hsib i hi hil hpin him
        · rw [swapAt_getD_other l n m (parentIdx i) hpin hpim,
            swapAt_getD_other l n m i hin him]
          exact hA.1 i hi hil hpin
  · intro _ j hjl hpj
    rw [hlen] at hjl
    have hjm : m < j := by simp [parentIdx] at hpj; omega
    rw [hpm, s1, swapAt_getD_other l n m j (by omega) (by omega)]
    have h9 := hA.1 j (by omega) hjl (by omega)
    rwa [hpj] at h9

theorem AHD_bubbleUp (sc : Pos → W) :
    ∀ (l : List Pos) (n : Nat), AHD sc l n →
      HeapProp sc (bubbleUp sc l n) := by
  intro l n
  induction l, n using bubbleUp.induct sc with
  | case1 l n el c1 c2 h1 h2 ha hb ih =>
    intro hA
    rw [bubbleUp]
    simp only [dif_pos h1, dif_pos h2, if_pos ha, if_pos hb]
    refine ih (AHD_swap sc l n (2 * n + 2) h2 (Or.inr rfl) ?_ ?_ hA)
    · exact lt_trans hb ha
    · intro o ho hol hpo hom
      have : o = 2 * n + 1 := by simp [parentIdx] at hpo; omega
      subst this
      exact le_of_lt hb
  | case2 l n el c1 c2 h1 h2 ha hb ih =>
    intro hA
    rw [bubbleUp]
    simp only [dif_pos h1, dif_pos h2, if_pos ha, if_neg hb]
    refine ih (AHD_swap sc l n (2 * n + 1) h1 (Or.inl rfl) ?_ ?_ hA)
    · exact ha
    · intro o ho hol hpo hom
      have : o = 2 * n + 2 := by simp [parentIdx] at hpo; omega
      subst this
      exact le_of_not_lt hb
  | case3 l n el c1 c2 h1 h2 ha hb ih =>
    intro hA
    rw [bubbleUp]
    simp only [dif_pos h1, dif_pos h2, if_neg ha, if_pos hb]
    refine ih (AHD_swap sc l n (2 * n + 2) h2 (Or.inr rfl) ?_ ?_ hA)
    · exact hb
    · intro o ho hol hpo hom
      have : o = 2 * n + 1 := by simp [parentIdx] at hpo; omega
      subst this
      exact (le_of_lt hb).trans (le_of_not_lt ha)
  | case4 l n el c1 c2 h1 h2 ha hb =>
    intro hA
    rw [bubbleUp]
    simp only [dif_pos h1, dif_pos h2, if_neg ha, if_neg hb]
    intro i hi hil
    by_cases hpi : parentIdx i = n
    · have hi2 : i = 2 * n + 1 ∨ i = 2 * n + 2 := by
        simp [parentIdx] at hpi
        omega
      rcases hi2 with rfl | rfl
      · rw [hpi]
        exact le_of_not_lt ha
      · rw [hpi]
        exact le_of_not_lt hb
    · exact hA.1 i hi hil hpi
  | case5 l n el c1 c2 h1 h2 ha ih =>
    intro hA
    rw [bubbleUp]
    simp only [dif_pos h1, dif_neg h2, if_pos ha]
    refine ih (AHD_swap sc l n (2 * n + 1) h1 (Or.inl rfl) ?_ ?_ hA)
    · exact ha
    · intro o ho hol hpo hom
      exfalso
      simp [parentIdx] at hpo
      omega
  | case6 l n el c1 c2 h1 h2 ha =>
    intro hA
    rw [bubbleUp]
    simp only [dif_pos h1, dif_neg h2, if_neg ha]
    intro i hi hil
    by_cases hpi : parentIdx i = n
    · have hi2 : i = 2 * n + 1 := by
        simp [parentIdx] at hpi
        omega
      subst hi2
      rw [hpi]
      exact le_of_not_lt ha
    · exact hA.1 i hi hil hpi
  | case7 l n c1 h1 =>
    intro hA
    rw [bubbleUp]
    simp only [dif_neg h1]
    intro i hi hil
    by_cases hpi : parentIdx i = n
    · exfalso
      simp [parentIdx] at hpi
      omega
    · exact hA.1 i hi hil hpi

theorem heapPop_prop {sc : Pos → W} {h : Pos} {t : List Pos}
    (hp : HeapProp sc (h :: t)) : HeapProp sc (heapPop sc (h :: t)).2 := by
  rw [heapPop]
  split
  · intro i _ hil
    simp at hil
  · rename_i ht
    simp only
    apply AHD_bubbleUp
    have hlen : (t.getLastD h :: t.dropLast).length = t.length := by
      simp [List.length_dropLast]
      have := List.length_pos.mpr ht
      omega
    have hval : ∀ k, 0 < k → k < t.length →
        (t.getLastD h :: t.dropLast).getD k posDefault =
          (h :: t).getD k posDefault := by
      intro k hk hkl
      match k, hk with
      | k' + 1, _ =>
        show t.dropLast.getD k' posDefault = t.getD k' posDefault
        have hk' : k' < t.length - 1 := by omega
        rw [List.getD_eq_getElem _ _ (by simp [List.length_dropLast]; omega),
          List.getD_eq_getElem _ _ (by omega)]
        exact List.getElem_dropLast t k' _
    constructor
    · intro i hi hil hpi
      rw [hlen] at hil
      have hp0 : 0 < parentIdx i := Nat.pos_of_ne_zero (by
        intro hc
        exact hpi hc)
      have hpl : parentIdx i < i := by simp [parentIdx]; omega
      rw [hval i hi hil, hval (parentIdx i) hp0 (by omega)]
      exact hp i hi (by simp; omega)
    · intro hc _ _ _
      exact absurd hc (by omega)

theorem heapRescore_prop {sc sc' : Pos → W} {l : List Pos} {e : Pos}
    (hnd : l.Nodup) (hp : HeapProp sc l)
    (hch : ∀ q, q ≠ e → sc' q = sc q) (hde : sc' e ≤ sc e) :
    HeapProp sc' (heapRescore sc' l e) := by
  unfold heapRescore
  split
  · rename_i hnone
    refine HeapProp_congr ?_ hp
    intro q hq
    apply hch
    rintro rfl
    rw [List.findIdx?_eq_none_iff] at hnone
    have := hnone q hq
    simp at this
  · rename_i i hi
    obtain ⟨hilen, hidx⟩ := List.findIdx?_eq_some_iff_findIdx_eq.mp hi
    have hie : l.getD i posDefault = e := by
      rw [List.getD_eq_getElem _ _ hilen]
      have hwx : l.findIdx (fun q => q == e) < l.length := by
        rw [hidx]
        exact hilen
      have h5 := List.findIdx_getElem (p := fun q => q == e) (w := hwx)
      simp only [hidx] at h5
      simpa using h5
    have hne : ∀ k, k < l.length → k ≠ i →
        l.getD k posDefault ≠ e := by
      intro k hkl hki hc
      apply hki
      have e1 : l[k] = l.getD k posDefault :=
        (List.getD_eq_getElem _ _ hkl).symm
      have e2 : l[i] = l.getD i posDefault :=
        (List.getD_eq_getElem _ _ hilen).symm
      have h1 : l[k] = l[i] := by rw [e1, e2, hc, hie]
      exact (List.Nodup.getElem_inj_iff hnd).mp h1
    apply AHU_sinkDown sc' l i hilen
    constructor
    · intro k hk hkl hki
      by_cases hpk : parentIdx k = i
      · rw [hpk, hie]
        have h2 := hp k hk hkl
        rw [hpk, hie] at h2
        rw [hch _ (hne k hkl hki)]
        exact hde.trans h2
      · have hkp : parentIdx k < l.length := by
          have : parentIdx k ≤ k := by simp [parentIdx]; omega
          omega
        rw [hch _ (hne k hkl hki), hch _ (hne (parentIdx k) hkp hpk)]
        exact hp k hk hkl
    · intro j hjl hpj hji
      have hj0 : 0 < j := by
        rcases Nat.eq_zero_or_pos j with rfl | hh
        · exfalso
          apply hji
          simp [parentIdx] at hpj
          omega
        · exact hh
      have h3 := hp j hj0 hjl
      rw [hpj, hie] at h3
      rw [hch _ (hne j hjl hji)]
      rcases Nat.eq_zero_or_pos i with rfl | hi0
      · have he : parentIdx 0 = 0 := by simp [parentIdx]
        rw [he, hie]
        exact hde.trans h3
      · have h6 : parentIdx i < i := by simp [parentIdx]; omega
        have h4 := hp i hi0 hilen
        rw [hie] at h4
        rw [hch _ (hne (parentIdx i) (by omega) (by omega))]
        exact h4.trans h3

/-! ## C9: the `Graph` constructor performs no validation -/

/-- C9 counterexample: the malformed matrix `[[1], [2, -3]]` (ragged rows
and a negative weight) is accepted by the `Graph` constructor, which
happily builds one node per entry — including the node of weight `-3` —
instead of failing with a descriptive error. -/
theorem C9_counterexample :
    buildNodes [[1], [2, -3]] =
      [⟨0, 0, 1⟩, ⟨1, 0, 2⟩, ⟨1, 1, -3⟩] ∧
    (Graph.construct [[1], [2, -3]] false).grid = [[1], [2, -3]] ∧
    ([(1 : W)].length ≠ [(2 : W), -3].length) ∧
    (⟨1, 1, -3⟩ : GridNode).weight < 0 := by
  refine ⟨rfl, rfl, by norm_num, by norm_num⟩

/-- C9 amended: `Graph` construction never fails and performs no
validation: the weights (ragged rows, negative entries and all) are stored
exactly as given, with one `GridNode` per entry of the input matrix; any
defect therefore surfaces only during later use. -/
theorem C9_construct_no_validation (gridIn : List (List W))
    (diagonal : Bool) :
    (Graph.construct gridIn diagonal).grid = gridIn ∧
    (Graph.construct gridIn diagonal).diagonal = diagonal ∧
    (buildNodes gridIn).length = (Graph.construct gridIn diagonal).size := by
  refine ⟨rfl, rfl, ?_⟩
  simp only [buildNodes, Graph.size, Graph.construct, List.length_flatMap]
  congr 1
  have h2 : (List.length ∘ fun xr : Nat × List W =>
      (xr.2.enum.map fun yw : Nat × W =>
        (⟨xr.1, yw.1, yw.2⟩ : GridNode))) =
      List.length ∘ (Prod.snd : Nat × List W → List W) := by
    funext xr
    simp [List.enum_length]
  rw [h2, ← List.map_map, List.enum_map_snd]

/-! ## C3: `getCost` -/

/-- C3 counterexample: for the diagonal move into cell `(1,1)` (weight 1)
from `(0,0)`, `getCost` returns the literal `1.41421`, which is *not*
`weight × √2` (its square is `1.9999899241`, not `2`). -/
theorem C3_counterexample :
    c4Grid.getCost (1, 1) (0, 0) = 141421 / 100000 ∧
    ((c4Grid.getCost (1, 1) (0, 0) : ℚ) : ℝ) ≠
      ((c4Grid.weight (1, 1) : ℚ) : ℝ) * Real.sqrt 2 := by
  have h1 : c4Grid.getCost (1, 1) (0, 0) = 141421 / 100000 := by
    norm_num [Graph.getCost, Graph.weight, Graph.weightOpt, c4Grid,
      Graph.diagonalFactor]
  have hw : c4Grid.weight (1, 1) = 1 := by
    norm_num [Graph.weight, Graph.weightOpt, c4Grid]
  refine ⟨h1, ?_⟩
  rw [h1, hw]
  intro h
  have h2 : (((141421 : ℚ) / 100000 : ℚ) : ℝ) ^ 2 = 2 := by
    rw [h]
    rw [Rat.cast_one, one_mul, Real.sq_sqrt (by norm_num : (0:ℝ) ≤ 2)]
  rw [show (((141421 : ℚ) / 100000 : ℚ) : ℝ) = (141421 : ℝ) / 100000 by
    push_cast; ring] at h2
  norm_num at h2

/-- C3 amended: `getCost(fromNeighbor)` equals the cell's `weight` for an
orthogonal move (shared `x` or `y` coordinate) and `weight × 1.41421` (the
literal constant of line 271, an approximation of `√2` but not equal to
it) for a diagonal move. -/
theorem C3_getCost_values (G : Graph) (self fromN : Pos) :
    (fromN.1 = self.1 ∨ fromN.2 = self.2 →
      G.getCost self fromN = G.weight self) ∧
    (fromN.1 ≠ self.1 ∧ fromN.2 ≠ self.2 →
      G.getCost self fromN = G.weight self * (141421 / 100000)) := by
  constructor
  · intro h
    unfold Graph.getCost
    rw [if_neg]
    rintro ⟨h1, h2⟩
    rcases h with h | h
    · exact h1 h
    · exact h2 h
  · intro h
    unfold Graph.getCost
    rw [if_pos h]
    rfl

/-- Witness for `C3_getCost_values` at a concrete input: entering `(0,1)`
of the all-ones grid from `(0,0)` orthogonally costs its weight `1`. -/
theorem C3_getCost_values_witness :
    c4Grid.getCost (0, 1) (0, 0) = c4Grid.weight (0, 1) :=
  (C3_getCost_values c4Grid (0, 1) (0, 0)).1 (Or.inl rfl)

/-! ## C7: `BinaryHeap.remove` of an absent item -/

/-- C7 counterexample: removing an item that is *not* in the heap from the
one-element heap `[(0,0)]` empties the heap — `remove` is not a no-op on
absent items (it pops the last element unconditionally). -/
theorem C7_counterexample :
    ((1, 1) : Pos) ∉ [((0, 0) : Pos)] ∧
    heapRemove (fun _ => 0) [(0, 0)] (1, 1) = [] ∧
    heapRemove (fun _ => 0) [(0, 0)] (1, 1) ≠ [(0, 0)] := by
  refine ⟨by simp, rfl, ?_⟩
  rw [show heapRemove (fun _ => 0) [((0 : Nat), (0 : Nat))] (1, 1) = []
    from rfl]
  simp

/-- C7 amended: when the item is absent, `remove` is a no-op only on the
empty heap; on a non-empty heap it always discards exactly one element
(the popped last element, or — if that is bubbled into the root — the
displaced old root), shrinking the heap by one. -/
theorem C7_remove_absent (sc : Pos → W) (l : List Pos) (node : Pos)
    (h : node ∉ l) :
    (l = [] → heapRemove sc l node = []) ∧
    (l ≠ [] → (heapRemove sc l node).length + 1 = l.length) := by
  have hf : List.findIdx? (fun q => q == node) l = none := by
    rw [List.findIdx?_eq_none_iff]
    intro x hx
    simp only [beq_eq_false_iff_ne, ne_eq]
    rintro rfl
    exact h hx
  constructor
  · rintro rfl
    simp [heapRemove]
  · intro hne
    match l, hne with
    | r :: rest, _ =>
      simp only [heapRemove, hf]
      have hl₁ : (r :: rest).dropLast.length = rest.length := by
        simp [List.length_dropLast]
      rcases eq_or_ne rest [] with hr | hr
      · subst hr
        norm_num
      · have hrl : 0 < rest.length := List.length_pos.mpr hr
        rw [if_pos (by rw [hl₁]; omega)]
        rw [List.length_cons]
        split
        · rw [hl₁]
        · split
          · rename_i heq
            exfalso
            have h0 := congrArg List.length heq
            rw [hl₁] at h0
            simp only [List.length_nil] at h0
            omega
          · rename_i h₁ t₁ heq
            have h0 := congrArg List.length heq
            rw [hl₁] at h0
            simp only [List.length_cons] at h0
            split
            · rw [bubbleUp_length]
              simp only [List.length_cons]
              omega
            · rw [hl₁]

/-- Witness for `C7_remove_absent` on a concrete two-element heap. -/
theorem C7_remove_absent_witness :
    ((9, 9) : Pos) ∉ [((0, 0) : Pos), (2, 3)] ∧
    (heapRemove (fun _ => 0) [(0, 0), (2, 3)] (9, 9)).length + 1 = 2 :=
  ⟨by simp, (C7_remove_absent (fun _ => 0) [(0, 0), (2, 3)] (9, 9)
      (by simp)).2 (by simp)⟩

/-! ## Geometry of `Graph.neighbors` -/

/-- Every member of `neighbors p` is an existing cell at one of the eight
surrounding coordinates; both coordinates differ only when `diagonal` is
enabled. -/
theorem mem_neighbors {G : Graph} {p q : Pos} (hq : q ∈ G.neighbors p) :
    G.hasNode q = true ∧
    (q.1 = p.1 ∨ q.1 + 1 = p.1 ∨ q.1 = p.1 + 1) ∧
    (q.2 = p.2 ∨ q.2 + 1 = p.2 ∨ q.2 = p.2 + 1) ∧
    ¬(q.1 = p.1 ∧ q.2 = p.2) ∧
    (q.1 ≠ p.1 ∧ q.2 ≠ p.2 → G.diagonal = true) := by
  obtain ⟨x, y⟩ := p
  cases hd : G.diagonal <;>
    rcases x with _ | x' <;> rcases y with _ | y' <;>
    simp [Graph.neighbors, hd, -Prod.mk_one_one, -Prod.mk_zero_zero] at hq
  all_goals casesm* _ ∨ _, _ ∧ _
  all_goals subst_vars
  all_goals refine ⟨by assumption, by omega, by omega, by omega,
    fun hcc => ?_⟩
  all_goals first
    | rfl
    | assumption
    | (exfalso; omega)

/-! ## C4: the diagonal heuristic -/

/-- `|t - 1|` differs from `|t|` by exactly one, for integer `t`. -/
theorem abs_pred_rel (t : ℤ) : |t - 1| = |t| + 1 ∨ |t - 1| + 1 = |t| := by
  rcases le_or_lt t 0 with h | h
  · left
    rw [abs_of_nonpos h, abs_of_nonpos (by omega)]
    ring
  · right
    rw [abs_of_pos h, abs_of_nonneg (by omega)]
    ring

/-- Octile distance decreases by at most 1 across a step that changes one
coordinate (the other held fixed), for any diagonal constant `1 ≤ c ≤ 2`. -/
theorem octile_orth (c A B B2 : W) (hc1 : 1 ≤ c) (hc2 : c ≤ 2)
    (hA : 0 ≤ A) (hB : 0 ≤ B) (hB2 : 0 ≤ B2)
    (hrel : B = B2 ∨ B = B2 + 1 ∨ B + 1 = B2) :
    (A + B) + (c - 2) * min A B ≤ 1 + ((A + B2) + (c - 2) * min A B2) := by
  rcases hrel with h | h | h <;>
    rcases min_cases A B with ⟨hm1, ho1⟩ | ⟨hm1, ho1⟩ <;>
    rcases min_cases A B2 with ⟨hm2, ho2⟩ | ⟨hm2, ho2⟩ <;>
    rw [hm1, hm2] <;>
    nlinarith [ho1, ho2, h, hc1, hc2, hA, hB, hB2]

/-- Octile distance decreases by at most `c` across a diagonal step (both
coordinates change by one), for any diagonal constant `1 ≤ c ≤ 2`. -/
theorem octile_diag (c A B A2 B2 : W) (hc1 : 1 ≤ c) (hc2 : c ≤ 2)
    (hA : 0 ≤ A) (hB : 0 ≤ B) (hA2 : 0 ≤ A2) (hB2 : 0 ≤ B2)
    (hrelA : A = A2 + 1 ∨ A + 1 = A2) (hrelB : B = B2 + 1 ∨ B + 1 = B2) :
    (A + B) + (c - 2) * min A B ≤ c + ((A2 + B2) + (c - 2) * min A2 B2) := by
  rcases hrelA with h1 | h1 <;> rcases hrelB with h2 | h2 <;>
    rcases min_cases A B with ⟨hm1, ho1⟩ | ⟨hm1, ho1⟩ <;>
    rcases min_cases A2 B2 with ⟨hm2, ho2⟩ | ⟨hm2, ho2⟩ <;>
    rw [hm1, hm2] <;>
    nlinarith [ho1, ho2, h1, h2, hc1, hc2, hA, hB, hA2, hB2]

/-- The ℚ-absolute difference of two Nat coordinates is the cast of the
ℤ-absolute difference. -/
theorem abs_natCast_sub (a b : Nat) :
    |((a : W)) - (b : W)| = ((|(a : ℤ) - (b : ℤ)| : ℤ) : W) := by
  rw [Int.cast_abs]
  push_cast
  ring_nf

/-- Moving one coordinate by one changes the ℤ-absolute distance to a fixed
target by exactly one. -/
theorem abs_adj_rel {a b e : ℤ} (h : a = b + 1 ∨ b = a + 1) :
    |e - a| = |e - b| + 1 ∨ |e - a| + 1 = |e - b| := by
  rcases h with rfl | rfl
  · have h1 := abs_pred_rel (e - b)
    rw [show e - (b + 1) = e - b - 1 by ring]
    exact h1
  · have h1 := abs_pred_rel (e - a)
    rw [show e - (a + 1) = e - a - 1 by ring]
    rcases h1 with h1 | h1
    · exact Or.inr h1.symm
    · exact Or.inl h1.symm

/-- One step of the octile-distance consistency argument: on an all-ones
grid, the diagonal heuristic decreases by at most the `getCostSqrt` step
cost across every `neighbors` edge. -/
theorem diagonalHeur_step {G : Graph}
    (hOne : ∀ r : Pos, G.hasNode r = true → G.weight r = 1)
    {p q : Pos} (hq : q ∈ G.neighbors p) (e : Pos) :
    diagonalHeur p e ≤ G.getCostSqrt q p + diagonalHeur q e := by
  obtain ⟨hn, hx, hy, hne, hdg⟩ := mem_neighbors hq
  have hw : G.weight q = 1 := hOne q hn
  have hsq1 : (1 : W) ≤ sqrtTwoDouble := by norm_num [sqrtTwoDouble]
  have hsq2 : sqrtTwoDouble ≤ 2 := by norm_num [sqrtTwoDouble]
  have habs : ∀ a b : Nat, |((a : W)) - (b : W)| =
      ((|(a : ℤ) - (b : ℤ)| : ℤ) : W) := abs_natCast_sub
  simp only [diagonalHeur, Graph.getCostSqrt, hw, one_mul]
  rw [habs e.1 p.1, habs e.2 p.2, habs e.1 q.1, habs e.2 q.2]
  set A := ((|(e.1 : ℤ) - (p.1 : ℤ)| : ℤ) : W) with hA
  set B := ((|(e.2 : ℤ) - (p.2 : ℤ)| : ℤ) : W) with hB
  set A2 := ((|(e.1 : ℤ) - (q.1 : ℤ)| : ℤ) : W) with hA2
  set B2 := ((|(e.2 : ℤ) - (q.2 : ℤ)| : ℤ) : W) with hB2
  have hA0 : 0 ≤ A := by rw [hA]; exact_mod_cast abs_nonneg _
  have hB0 : 0 ≤ B := by rw [hB]; exact_mod_cast abs_nonneg _
  have hA20 : 0 ≤ A2 := by rw [hA2]; exact_mod_cast abs_nonneg _
  have hB20 : 0 ≤ B2 := by rw [hB2]; exact_mod_cast abs_nonneg _
  split_ifs with hd
  · -- diagonal step: both coordinates differ by one
    have hxe : (p.1 : ℤ) = (q.1 : ℤ) + 1 ∨ (q.1 : ℤ) = (p.1 : ℤ) + 1 := by
      rcases hx with h | h | h
      · exact absurd h.symm hd.1
      · left; exact_mod_cast congrArg (Nat.cast (R := ℤ)) h.symm
      · right; exact_mod_cast congrArg (Nat.cast (R := ℤ)) h
    have hye : (p.2 : ℤ) = (q.2 : ℤ) + 1 ∨ (q.2 : ℤ) = (p.2 : ℤ) + 1 := by
      rcases hy with h | h | h
      · exact absurd h.symm hd.2
      · left; exact_mod_cast congrArg (Nat.cast (R := ℤ)) h.symm
      · right; exact_mod_cast congrArg (Nat.cast (R := ℤ)) h
    have hrelA : A = A2 + 1 ∨ A + 1 = A2 := by
      rcases abs_adj_rel (e := (e.1 : ℤ)) hxe with h | h
      · left; rw [hA, hA2]; exact_mod_cast congrArg (Int.cast (R := W)) h
      · right; rw [hA, hA2]; exact_mod_cast congrArg (Int.cast (R := W)) h
    have hrelB : B = B2 + 1 ∨ B + 1 = B2 := by
      rcases abs_adj_rel (e := (e.2 : ℤ)) hye with h | h
      · left; rw [hB, hB2]; exact_mod_cast congrArg (Int.cast (R := W)) h
      · right; rw [hB, hB2]; exact_mod_cast congrArg (Int.cast (R := W)) h
    have h0 := octile_diag sqrtTwoDouble A B A2 B2 hsq1 hsq2 hA0 hB0 hA20
      hB20 hrelA hrelB
    linarith [h0]
  · -- orthogonal step: one coordinate is shared
    rcases not_and_or.mp hd with hd1 | hd1
    · have hpq : p.1 = q.1 := of_not_not hd1
      have hAe : A = A2 := by rw [hA, hA2, hpq]
      have hrelB : B = B2 ∨ B = B2 + 1 ∨ B + 1 = B2 := by
        rcases hy with h | h | h
        · left; rw [hB, hB2, h]
        · have hye : (p.2 : ℤ) = (q.2 : ℤ) + 1 := by exact_mod_cast h.symm
          rcases abs_adj_rel (e := (e.2 : ℤ)) (Or.inl hye) with h2 | h2
          · right; left
            rw [hB, hB2]
            exact_mod_cast congrArg (Int.cast (R := W)) h2
          · right; right
            rw [hB, hB2]
            exact_mod_cast congrArg (Int.cast (R := W)) h2
        · have hye : (q.2 : ℤ) = (p.2 : ℤ) + 1 := by exact_mod_cast h
          rcases abs_adj_rel (e := (e.2 : ℤ)) (Or.inr hye) with h2 | h2
          · right; left
            rw [hB, hB2]
            exact_mod_cast congrArg (Int.cast (R := W)) h2
          · right; right
            rw [hB, hB2]
            exact_mod_cast congrArg (Int.cast (R := W)) h2
      have h0 := octile_orth sqrtTwoDouble A B B2 hsq1 hsq2 hA0 hB0 hB20
        hrelB
      rw [hAe] at h0 ⊢
      linarith [h0]
    · have hpq : p.2 = q.2 := of_not_not hd1
      have hBe : B = B2 := by rw [hB, hB2, hpq]
      have hrelA : A = A2 ∨ A = A2 + 1 ∨ A + 1 = A2 := by
        rcases hx with h | h | h
        · left; rw [hA, hA2, h]
        · have hxe : (p.1 : ℤ) = (q.1 : ℤ) + 1 := by exact_mod_cast h.symm
          rcases abs_adj_rel (e := (e.1 : ℤ)) (Or.inl hxe) with h2 | h2
          · right; left
            rw [hA, hA2]
            exact_mod_cast congrArg (Int.cast (R := W)) h2
          · right; right
            rw [hA, hA2]
            exact_mod_cast congrArg (Int.cast (R := W)) h2
        · have hxe : (q.1 : ℤ) = (p.1 : ℤ) + 1 := by exact_mod_cast h
          rcases abs_adj_rel (e := (e.1 : ℤ)) (Or.inr hxe) with h2 | h2
          · right; left
            rw [hA, hA2]
            exact_mod_cast congrArg (Int.cast (R := W)) h2
          · right; right
            rw [hA, hA2]
            exact_mod_cast congrArg (Int.cast (R := W)) h2
      have h0 := octile_orth sqrtTwoDouble B A A2 hsq1 hsq2 hB0 hA0 hA20
        hrelA
      rw [hBe] at *
      rw [min_comm A B2, min_comm A2 B2] at *
      linarith [h0, min_comm B2 A, min_comm B2 A2]

/-- On an all-ones grid the diagonal heuristic never exceeds the cost of
any valid path, when diagonal steps are charged `Math.sqrt(2)`
(`getCostSqrt`). -/
theorem diagonalHeur_le_pathCostSqrt (G : Graph)
    (hOne : ∀ r : Pos, G.hasNode r = true → G.weight r = 1) :
    ∀ (l : List Pos) (p e : Pos), ValidPath G p l e →
      diagonalHeur p e ≤ pathCostSqrt G p l := by
  intro l
  induction l with
  | nil =>
    intro p e hv
    obtain rfl : p = e := hv
    simp [diagonalHeur, pathCostSqrt]
  | cons q t ih =>
    intro p e hv
    obtain ⟨⟨hmem, _⟩, hrest⟩ := hv
    have h1 := diagonalHeur_step hOne hmem e
    have h2 := ih q e hrest
    show diagonalHeur p e ≤ G.getCostSqrt q p + pathCostSqrt G q t
    linarith

/-- C4 counterexample: on the all-ones 2×2 grid with diagonal movement,
the diagonal heuristic between the diagonally adjacent cells `(0,0)` and
`(1,1)` evaluates to `Math.sqrt(2) ≈ 1.4142135623730951`, which *exceeds*
the cost `1.41421` of the direct one-step path under `getCost` — so the
heuristic is not admissible for the code's own step costs. -/
theorem C4_counterexample :
    ValidPath c4Grid (0, 0) [(1, 1)] (1, 1) ∧
    pathCost c4Grid (0, 0) [(1, 1)] < diagonalHeur (0, 0) (1, 1) := by
  constructor
  · show ((1, 1) ∈ c4Grid.neighbors (0, 0) ∧ ¬c4Grid.isWall (1, 1)) ∧
      ValidPath c4Grid (1, 1) [] (1, 1)
    refine ⟨⟨?_, ?_⟩, rfl⟩
    · simp [Graph.neighbors, Graph.hasNode, Graph.weightOpt, c4Grid]
    · norm_num [Graph.isWall, Graph.weight, Graph.weightOpt, c4Grid]
  · show pathCost c4Grid (0, 0) [(1, 1)] < diagonalHeur (0, 0) (1, 1)
    norm_num [pathCost, Graph.getCost, Graph.weight, Graph.weightOpt,
      c4Grid, Graph.diagonalFactor, diagonalHeur, sqrtTwoDouble]

/-- C4 amended: the diagonal heuristic computes
`(d1+d2) + (sqrt(2) - 2) * min(d1,d2)` and, on every all-ones grid with
diagonal movement enabled, it never exceeds the cost of any valid path
*when diagonal steps are charged the heuristic's own constant
`Math.sqrt(2)`* (`getCostSqrt`); with the code's `getCost` constant
`1.41421 < √2` it can overestimate by up to `(√2 - 1.41421)·min(d1,d2)`. -/
theorem C4_diagonal_admissible_sqrt2 (G : Graph)
    (hdiag : G.diagonal = true)
    (hOne : ∀ r : Pos, G.hasNode r = true → G.weight r = 1)
    (p e : Pos) (l : List Pos) (hv : ValidPath G p l e) :
    diagonalHeur p e ≤ pathCostSqrt G p l :=
  diagonalHeur_le_pathCostSqrt G hOne l p e hv

/-- Witness for `C4_diagonal_admissible_sqrt2` on the concrete all-ones
2×2 diagonal grid and the one-step diagonal path. -/
theorem C4_diagonal_admissible_sqrt2_witness :
    diagonalHeur (0, 0) (1, 1) ≤ pathCostSqrt c4Grid (0, 0) [(1, 1)] :=
  C4_diagonal_admissible_sqrt2 c4Grid rfl
    (by
      intro r h
      obtain ⟨x, y⟩ := r
      rcases x with _ | _ | x <;> rcases y with _ | _ | y <;>
        simp_all [Graph.hasNode, Graph.weightOpt, Graph.weight, c4Grid,
          List.get?] )
    (0, 0) (1, 1) [(1, 1)]
    (by
      refine ⟨⟨?_, ?_⟩, rfl⟩
      · simp [Graph.neighbors, Graph.hasNode, Graph.weightOpt, c4Grid]
      · norm_num [Graph.isWall, Graph.weight, Graph.weightOpt, c4Grid])

/-! ## Basic facts about costs, paths and the cell enumeration -/

/-- Point update: reading the written point. -/
theorem updateNode_same (nodes : Pos → NodeState) (p : Pos) (v : NodeState) :
    updateNode nodes p v p = v := by
  simp [updateNode]

/-- Point update: reading any other point. -/
theorem updateNode_other (nodes : Pos → NodeState) (p : Pos) (v : NodeState)
    {q : Pos} (h : q ≠ p) : updateNode nodes p v q = nodes q := by
  simp [updateNode, h]

/-- Closing a node does not change any `f` field, hence not the heap's
score function. -/
theorem score_update_closed (nodes : Pos → NodeState) (u : Pos) :
    score (updateNode nodes u { nodes u with closed := true }) =
      score nodes := by
  funext q
  by_cases h : q = u
  · subst h; simp [score, updateNode]
  · simp [score, updateNode_other nodes _ _ h]

/-- With non-negative weights every step cost is non-negative. -/
theorem getCost_nonneg {G : Graph} (hw : NonnegWeights G) (q s : Pos) :
    0 ≤ G.getCost q s := by
  unfold Graph.getCost
  split
  · exact mul_nonneg (hw q) (by norm_num [Graph.diagonalFactor])
  · exact hw q

/-- With non-negative weights every step cost into a non-wall cell is
strictly positive. -/
theorem getCost_pos {G : Graph} (hw : NonnegWeights G) {q : Pos} (s : Pos)
    (hq : ¬G.isWall q) : 0 < G.getCost q s := by
  have hgt : 0 < G.weight q := lt_of_le_of_ne (hw q) (Ne.symm hq)
  unfold Graph.getCost
  split
  · exact mul_pos hgt (by norm_num [Graph.diagonalFactor])
  · exact hgt

/-- With non-negative weights every path cost is non-negative. -/
theorem pathCost_nonneg {G : Graph} (hw : NonnegWeights G) :
    ∀ (l : List Pos) (s : Pos), 0 ≤ pathCost G s l := by
  intro l
  induction l with
  | nil => intro s; simp [pathCost]
  | cons q t ih =>
    intro s
    have h1 := getCost_nonneg hw q s
    have h2 := ih q
    show 0 ≤ G.getCost q s + pathCost G q t
    linarith

/-- Extending a valid path by one adjacent non-wall cell. -/
theorem validPath_append_one {G : Graph} {q : Pos} :
    ∀ (l : List Pos) (s u : Pos), ValidPath G s l u →
      q ∈ G.neighbors u → ¬G.isWall q → ValidPath G s (l ++ [q]) q := by
  intro l
  induction l with
  | nil =>
    intro s u hv hmem hnw
    obtain rfl : s = u := hv
    exact ⟨⟨hmem, hnw⟩, rfl⟩
  | cons r t ih =>
    intro s u hv hmem hnw
    obtain ⟨hstep, hrest⟩ := hv
    exact ⟨hstep, ih r u hrest hmem hnw⟩

/-- Cost of a one-cell extension. -/
theorem pathCost_append_one {G : Graph} {q : Pos} :
    ∀ (l : List Pos) (s u : Pos), ValidPath G s l u →
      pathCost G s (l ++ [q]) = pathCost G s l + G.getCost q u := by
  intro l
  induction l with
  | nil =>
    intro s u hv
    obtain rfl : s = u := hv
    show G.getCost q s + pathCost G q [] = pathCost G s [] + G.getCost q s
    simp [pathCost]
  | cons r t ih =>
    intro s u hv
    obtain ⟨_, hrest⟩ := hv
    show G.getCost r s + pathCost G r (t ++ [q]) =
      G.getCost r s + pathCost G r t + G.getCost q u
    rw [ih r u hrest]
    ring

/-- Every cell entered along a valid path is a non-wall cell. -/
theorem validPath_mem_not_wall {G : Graph} {x : Pos} :
    ∀ (l : List Pos) (s u : Pos), ValidPath G s l u → x ∈ l →
      ¬G.isWall x := by
  intro l
  induction l with
  | nil => intro s u _ hx; cases hx
  | cons r t ih =>
    intro s u hv hx
    obtain ⟨⟨_, hnw⟩, hrest⟩ := hv
    rcases List.mem_cons.mp hx with rfl | hx
    · exact hnw
    · exact ih r u hrest hx

/-- A cell is never its own neighbor. -/
theorem not_self_neighbor (G : Graph) (p : Pos) : p ∉ G.neighbors p := by
  intro h
  obtain ⟨_, _, _, hne, _⟩ := mem_neighbors h
  exact hne ⟨rfl, rfl⟩

/-- Membership in `allPos` characterised by the grid accessors. -/
theorem mem_allPos_iff (G : Graph) (p : Pos) :
    p ∈ G.allPos ↔
      ∃ row, G.grid.get? p.1 = some row ∧ p.2 < row.length := by
  obtain ⟨x, y⟩ := p
  simp only [Graph.allPos, List.mem_flatMap, List.mem_map]
  constructor
  · rintro ⟨⟨i, row⟩, hmem, ⟨j, w⟩, hjw, heq⟩
    rw [List.mem_enum_iff_get?] at hmem hjw
    have heq2 : (i, j) = (x, y) := heq
    injection heq2 with h1 h2
    subst h1; subst h2
    exact ⟨row, hmem, (List.get?_eq_some.mp hjw).1⟩
  · rintro ⟨row, hrow, hy⟩
    refine ⟨(x, row), List.mem_enum_iff_get?.mpr hrow,
      ⟨(y, row.get ⟨y, hy⟩), List.mem_enum_iff_get?.mpr ?_, rfl⟩⟩
    exact List.get?_eq_get hy

/-- `hasNode` characterised the same way. -/
theorem hasNode_iff (G : Graph) (p : Pos) :
    G.hasNode p = true ↔
      ∃ row, G.grid.get? p.1 = some row ∧ p.2 < row.length := by
  unfold Graph.hasNode Graph.weightOpt
  cases hrow : G.grid.get? p.1 with
  | none => simp [Option.bind, hrow]
  | some row =>
    simp only [hrow, Option.some_bind, Option.isSome_iff_exists]
    constructor
    · rintro ⟨w, hw⟩
      exact ⟨row, rfl, (List.get?_eq_some.mp hw).1⟩
    · rintro ⟨row2, hrow2, hy⟩
      obtain rfl : row = row2 := by injection hrow2
      exact ⟨row.get ⟨p.2, hy⟩, List.get?_eq_get hy⟩

/-- A cell exists iff it is enumerated by `allPos`. -/
theorem hasNode_mem_allPos (G : Graph) (p : Pos) :
    G.hasNode p = true ↔ p ∈ G.allPos := by
  rw [hasNode_iff, mem_allPos_iff]

/-- `allPos` has exactly `size` entries. -/
theorem allPos_length (G : Graph) : G.allPos.length = G.size := by
  unfold Graph.allPos Graph.size
  rw [List.length_flatMap]
  congr 1
  have h : (List.length ∘ fun xr : Nat × List W =>
      (xr.2.enum).map fun yw => (xr.1, yw.1)) =
        List.length ∘ (Prod.snd : Nat × List W → List W) := by
    funext xr
    simp
  rw [h, ← List.map_map, List.enum_map_snd]

/-! ## One neighbor step of the search loop -/

/-- `processNeighbor` skips closed and wall neighbors. -/
theorem processNeighbor_skip {G : Graph} {heur : Pos → Pos → W}
    {endP : Pos} {closest : Bool} {u : Pos} {acc : Step} {nb : Pos}
    (h : (acc.nodes nb).closed = true ∨ G.isWall nb) :
    processNeighbor G heur endP closest u acc nb = acc := by
  show (if (acc.nodes nb).closed = true ∨ G.isWall nb then acc else _) = acc
  rw [if_pos h]

/-- `processNeighbor` leaves the state unchanged when the tentative score
does not improve on a visited neighbor. -/
theorem processNeighbor_keep {G : Graph} {heur : Pos → Pos → W}
    {endP : Pos} {closest : Bool} {u : Pos} {acc : Step} {nb : Pos}
    (h1 : ¬((acc.nodes nb).closed = true ∨ G.isWall nb))
    (h2 : ¬((acc.nodes nb).visited = false ∨
      (acc.nodes u).g + G.getCost nb u < (acc.nodes nb).g)) :
    processNeighbor G heur endP closest u acc nb = acc := by
  show (if (acc.nodes nb).closed = true ∨ G.isWall nb then acc
    else if (acc.nodes nb).visited = false ∨
        (acc.nodes u).g + G.getCost nb u < (acc.nodes nb).g then _
    else acc) = acc
  rw [if_neg h1, if_neg h2]

/-- In the remaining case `processNeighbor` performs the relaxation
described by `relaxedState`. -/
theorem processNeighbor_relax {G : Graph} {heur : Pos → Pos → W}
    {endP : Pos} {closest : Bool} {u : Pos} {acc : Step} {nb : Pos}
    (h1 : ¬((acc.nodes nb).closed = true ∨ G.isWall nb))
    (h2 : (acc.nodes nb).visited = false ∨
      (acc.nodes u).g + G.getCost nb u < (acc.nodes nb).g) :
    processNeighbor G heur endP closest u acc nb =
      relaxedState G heur endP closest u acc nb := by
  show (if (acc.nodes nb).closed = true ∨ G.isWall nb then acc
    else if (acc.nodes nb).visited = false ∨
        (acc.nodes u).g + G.getCost nb u < (acc.nodes nb).g then
      relaxedState G heur endP closest u acc nb
    else acc) = relaxedState G heur endP closest u acc nb
  rw [if_neg h1, if_pos h2]

/-- One neighbor step preserves the mid-iteration invariant, extending the
established frontier fragment of `u` by the processed neighbor. -/
theorem midInv_step {G : Graph} {heur : Pos → Pos → W} {endP start : Pos}
    {closest : Bool} {u : Pos} {processed : List Pos} {acc : Step}
    {nb : Pos} (hnb : nb ∈ G.neighbors u)
    (hI : MidInv G heur endP start closest u processed acc.nodes acc.dirty
      acc.heap acc.closestNode) :
    MidInv G heur endP start closest u (processed ++ [nb])
      (processNeighbor G heur endP closest u acc nb).nodes
      (processNeighbor G heur endP closest u acc nb).dirty
      (processNeighbor G heur endP closest u acc nb).heap
      (processNeighbor G heur endP closest u acc nb).closestNode := by
  by_cases hskip : (acc.nodes nb).closed = true ∨ G.isWall nb
  · rw [processNeighbor_skip hskip]
    refine { hI with frontierU := ?_ }
    intro y hy hynw
    rcases List.mem_append.mp hy with hy | hy
    · exact hI.frontierU y hy hynw
    · have hynb : y = nb := by simpa using hy
      subst hynb
      rcases hskip with hc | hw
      · exact ⟨hI.closed_reached y hc, Or.inl hc⟩
      · exact absurd hw hynw
  by_cases hrel : (acc.nodes nb).visited = false ∨
      (acc.nodes u).g + G.getCost nb u < (acc.nodes nb).g
  case neg =>
    rw [processNeighbor_keep hskip hrel]
    push_neg at hskip hrel
    refine { hI with frontierU := ?_ }
    intro y hy hynw
    rcases List.mem_append.mp hy with hy | hy
    · exact hI.frontierU y hy hynw
    · have hynb : y = nb := by simpa using hy
      subst hynb
      have hvis : (acc.nodes y).visited = true := by
        cases h : (acc.nodes y).visited
        · exact absurd h hrel.1
        · rfl
      exact ⟨Or.inl hvis, Or.inr hrel.2⟩
  case pos =>
    -- the relaxation case
    push_neg at hskip
    obtain ⟨hnc, hnw⟩ := hskip
    have hncf : (acc.nodes nb).closed = false := by
      cases h : (acc.nodes nb).closed
      · rfl
      · exact absurd h hnc
    have hnbs : nb ≠ start := by
      intro h
      rw [h, hI.start_closed] at hncf
      simp at hncf
    have hnbu : nb ≠ u := by
      intro h
      rw [h, hI.u_closed] at hncf
      simp at hncf
    have hnn : G.hasNode nb = true := (mem_neighbors hnb).1
    have hgle : (acc.nodes nb).visited = true →
        (acc.nodes u).g + G.getCost nb u < (acc.nodes nb).g := by
      intro hvt
      rcases hrel with h | h
      · rw [hvt] at h; cases h
      · exact h
    have hpe := @processNeighbor_relax G heur endP closest u acc nb
      (by push_neg; exact ⟨hnc, hnw⟩) hrel
    -- the value of the `h` field written by the relaxation
    have hval_eq : (if (acc.nodes nb).h = 0 then heur nb endP
        else (acc.nodes nb).h) = heur nb endP := by
      by_cases hb : (acc.nodes nb).visited = true
      · have hch := hI.hcached nb (Or.inl hb)
        split_ifs with h0
        · rfl
        · exact hch
      · have hr : ¬ReachedN acc.nodes start nb := by
          rintro (hr | hr)
          · exact hb hr
          · exact hnbs hr
        have hcl := hI.unreached_clean nb hr
        rw [hcl]
        simp [cleanNode]
    -- explicit projection equations
    have hn_eq : (processNeighbor G heur endP closest u acc nb).nodes =
        updateNode acc.nodes nb
          { f := (acc.nodes u).g + G.getCost nb u + heur nb endP,
            g := (acc.nodes u).g + G.getCost nb u, h := heur nb endP,
            visited := true, closed := false, parent := some u } := by
      rw [hpe]
      show updateNode acc.nodes nb
        { f := (acc.nodes u).g + G.getCost nb u +
            (if (acc.nodes nb).h = 0 then heur nb endP
              else (acc.nodes nb).h),
          g := (acc.nodes u).g + G.getCost nb u,
          h := (if (acc.nodes nb).h = 0 then heur nb endP
            else (acc.nodes nb).h),
          visited := true, closed := (acc.nodes nb).closed,
          parent := some u } = _
      rw [hval_eq, hncf]
    have hd_eq : (processNeighbor G heur endP closest u acc nb).dirty =
        acc.dirty ++ [nb] := by
      rw [hpe]
      rfl
    have hh_eq : (processNeighbor G heur endP closest u acc nb).heap =
        (if (acc.nodes nb).visited = false then
          heapPush (score (relaxedState G heur endP closest u acc nb).nodes)
            acc.heap nb
         else
          heapRescore
            (score (relaxedState G heur endP closest u acc nb).nodes)
            acc.heap nb) := by
      rw [hpe]
      rfl
    have hc_eq :
        (processNeighbor G heur endP closest u acc nb).closestNode =
        (if closest then
          if heur nb endP <
              ((relaxedState G heur endP closest u acc nb).nodes
                acc.closestNode).h ∨
            (heur nb endP =
                ((relaxedState G heur endP closest u acc nb).nodes
                  acc.closestNode).h ∧
              (acc.nodes u).g + G.getCost nb u <
                ((relaxedState G heur endP closest u acc nb).nodes
                  acc.closestNode).g) then nb
          else acc.closestNode
         else acc.closestNode) := by
      rw [hpe]
      show (if closest then
        if (if (acc.nodes nb).h = 0 then heur nb endP
            else (acc.nodes nb).h) <
            ((relaxedState G heur endP closest u acc nb).nodes
              acc.closestNode).h ∨
          ((if (acc.nodes nb).h = 0 then heur nb endP
              else (acc.nodes nb).h) =
              ((relaxedState G heur endP closest u acc nb).nodes
                acc.closestNode).h ∧
            (acc.nodes u).g + G.getCost nb u <
              ((relaxedState G heur endP closest u acc nb).nodes
                acc.closestNode).g) then nb
        else acc.closestNode
       else acc.closestNode) = _
      rw [hval_eq]
    have hrn_eq : (relaxedState G heur endP closest u acc nb).nodes =
        (processNeighbor G heur endP closest u acc nb).nodes := by
      rw [hpe]
    rw [hrn_eq] at hh_eq hc_eq
    rw [hn_eq] at hh_eq hc_eq
    rw [hn_eq, hd_eq, hh_eq, hc_eq]
    set nodes' := updateNode acc.nodes nb
      { f := (acc.nodes u).g + G.getCost nb u + heur nb endP,
        g := (acc.nodes u).g + G.getCost nb u, h := heur nb endP,
        visited := true, closed := false, parent := some u } with hnodes'
    -- reading the updated state
    have hread_nb : nodes' nb =
        { f := (acc.nodes u).g + G.getCost nb u + heur nb endP,
          g := (acc.nodes u).g + G.getCost nb u, h := heur nb endP,
          visited := true, closed := false, parent := some u } := by
      rw [hnodes']
      exact updateNode_same _ _ _
    have hread : ∀ p, p ≠ nb → nodes' p = acc.nodes p := by
      intro p hp
      rw [hnodes']
      exact updateNode_other _ _ _ hp
    have hreach' : ∀ p, ReachedN nodes' start p ↔
        (p = nb ∨ ReachedN acc.nodes start p) := by
      intro p
      by_cases hp : p = nb
      · subst hp
        constructor
        · intro _
          exact Or.inl rfl
        · intro _
          exact Or.inl (by rw [hread_nb])
      · show ((nodes' p).visited = true ∨ p = start) ↔ _
        rw [hread p hp]
        constructor
        · intro h
          exact Or.inr h
        · rintro (h | h)
          · exact absurd h hp
          · exact h
    have hreach_nb : ReachedN nodes' start nb := Or.inl (by rw [hread_nb])
    -- all fields except the heap and closest ones, for any suitable heap
    suffices key : ∀ H : List Pos,
        (∀ p, p ∈ H ↔ (p = nb ∨ p ∈ acc.heap)) → H.Nodup →
        HeapProp (score nodes') H →
        MidInv G heur endP start closest u (processed ++ [nb]) nodes'
          (acc.dirty ++ [nb]) H
          (if closest then
            if heur nb endP < (nodes' acc.closestNode).h ∨
              (heur nb endP = (nodes' acc.closestNode).h ∧
                (acc.nodes u).g + G.getCost nb u <
                  (nodes' acc.closestNode).g) then nb
            else acc.closestNode
           else acc.closestNode) by
      by_cases hbv : (acc.nodes nb).visited = false
      · rw [if_pos hbv]
        have hnotin : nb ∉ acc.heap := by
          intro hin
          rcases ((hI.hmem nb).1 hin).1 with hv | hv
          · rw [hv] at hbv; cases hbv
          · exact hnbs hv
        refine key _ ?_ ?_ ?_
        · intro p
          rw [(heapPush_perm (score nodes') acc.heap nb).mem_iff]
          simp
        · exact ((heapPush_perm _ _ _).nodup_iff).mpr
            (List.nodup_cons.mpr ⟨hnotin, hI.hnodup⟩)
        · apply heapPush_prop
          apply HeapProp_congr _ hI.hprop
          intro q hq
          have hqnb : q ≠ nb := fun h => hnotin (h ▸ hq)
          simp [score, hread q hqnb]
      · rw [if_neg hbv]
        have hvis : (acc.nodes nb).visited = true := by
          cases h : (acc.nodes nb).visited
          · exact absurd h hbv
          · rfl
        have hin : nb ∈ acc.heap := (hI.hmem nb).2 ⟨Or.inl hvis, hncf⟩
        refine key _ ?_ ?_ ?_
        · intro p
          rw [(heapRescore_perm (score nodes') acc.heap nb).mem_iff]
          constructor
          · intro h
            exact Or.inr h
          · rintro (rfl | h)
            exacts [hin, h]
        · exact ((heapRescore_perm _ _ _).nodup_iff).mpr hI.hnodup
        · apply heapRescore_prop hI.hnodup hI.hprop
          · intro q hq
            simp [score, hread q hq]
          · show score nodes' nb ≤ score acc.nodes nb
            have hlt := hgle hvis
            have hfe := hI.f_eq nb hvis
            have hhe := hI.hcached nb (Or.inl hvis)
            simp only [score, hread_nb]
            rw [hfe, hhe]
            have : (acc.nodes u).g + G.getCost nb u ≤ (acc.nodes nb).g :=
              le_of_lt hlt
            linarith
    intro H hHmem hHnd hHp
    refine
      { hmem := ?_, hnodup := hHnd, hbound := ?_,
        wall_unvisited := ?_, unreached_clean := ?_, start_closed := ?_,
        start_g := ?_, start_parent := ?_, start_unvisited := ?_,
        start_dirty := ?_, hcached := ?_, f_eq := ?_, dirty_covers := ?_,
        dirty_bound := ?_, parent_inv := ?_, parent_none := ?_,
        closed_reached := ?_, end_open := ?_, gpath := ?_, u_closed := ?_,
        frontierA := ?_, frontierU := ?_, hprop := hHp, cl_reached := ?_,
        cl_min := ?_ }
    -- hmem
    · intro p
      rw [hHmem p, hreach' p]
      by_cases hp : p = nb
      · subst hp
        constructor
        · intro _
          exact ⟨Or.inl rfl, by rw [hread_nb]⟩
        · intro _
          exact Or.inl rfl
      · rw [hread p hp]
        constructor
        · rintro (rfl | hin)
          · exact absurd rfl hp
          · obtain ⟨hr, hc⟩ := (hI.hmem p).1 hin
            exact ⟨Or.inr hr, hc⟩
        · rintro ⟨hr | hr, hc⟩
          · exact absurd hr hp
          · exact Or.inr ((hI.hmem p).2 ⟨hr, hc⟩)
    -- hbound
    · intro p hr
      rcases (hreach' p).1 hr with rfl | hr
      · exact hnn
      · exact hI.hbound p hr
    -- wall_unvisited
    · intro p hw
      have hp : p ≠ nb := by
        rintro rfl
        exact hnw hw
      rw [hread p hp]
      exact hI.wall_unvisited p hw
    -- unreached_clean
    · intro p hr
      have hp : p ≠ nb := by
        rintro rfl
        exact hr hreach_nb
      rw [hread p hp]
      exact hI.unreached_clean p fun h => hr ((hreach' p).2 (Or.inr h))
    -- start_closed
    · rw [hread start (Ne.symm hnbs)]
      exact hI.start_closed
    -- start_g
    · rw [hread start (Ne.symm hnbs)]
      exact hI.start_g
    -- start_parent
    · rw [hread start (Ne.symm hnbs)]
      exact hI.start_parent
    -- start_unvisited
    · rw [hread start (Ne.symm hnbs)]
      exact hI.start_unvisited
    -- start_dirty
    · exact List.mem_append.mpr (Or.inl hI.start_dirty)
    -- hcached
    · intro p hr
      by_cases hp : p = nb
      · subst hp
        rw [hread_nb]
      · rw [hread p hp]
        rcases (hreach' p).1 hr with h | h
        · exact absurd h hp
        · exact hI.hcached p h
    -- f_eq
    · intro p hv
      by_cases hp : p = nb
      · subst hp
        rw [hread_nb]
      · rw [hread p hp] at hv ⊢
        exact hI.f_eq p hv
    -- dirty_covers
    · intro p hp
      by_cases hpn : p = nb
      · subst hpn
        exact List.mem_append.mpr (Or.inr (by simp))
      · rw [hread p hpn] at hp
        exact List.mem_append.mpr (Or.inl (hI.dirty_covers p hp))
    -- dirty_bound
    · intro p hp
      rcases List.mem_append.mp hp with hp | hp
      · exact hI.dirty_bound p hp
      · have : p = nb := by simpa using hp
        subst this
        exact hnn
    -- parent_inv
    · intro p q hpq
      by_cases hp : p = nb
      · subst hp
        rw [hread_nb] at hpq ⊢
        obtain rfl : u = q := by
          simpa using hpq
        refine ⟨hnb, hnw, ?_, ?_, rfl⟩
        · rw [hread u (Ne.symm hnbu)]
          exact hI.u_closed
        · rw [hread u (Ne.symm hnbu)]
      · rw [hread p hp] at hpq
        obtain ⟨h1, h2, h3, h4, h5⟩ := hI.parent_inv p q hpq
        have hq : q ≠ nb := by
          rintro rfl
          rw [hncf] at h3
          cases h3
        rw [hread p hp, hread q hq]
        exact ⟨h1, h2, h3, h4, h5⟩
    -- parent_none
    · intro p hr hp
      by_cases hpn : p = nb
      · subst hpn
        rw [hread_nb] at hp
        exact Option.noConfusion hp
      · rw [hread p hpn] at hp
        rcases (hreach' p).1 hr with h | h
        · exact absurd h hpn
        · exact hI.parent_none p h hp
    -- closed_reached
    · intro p hc
      by_cases hp : p = nb
      · subst hp
        rw [hread_nb] at hc
        exact Bool.noConfusion hc
      · rw [hread p hp] at hc
        exact (hreach' p).2 (Or.inr (hI.closed_reached p hc))
    -- end_open
    · by_cases hp : endP = nb
      · rw [hp, hread_nb]
      · rw [hread endP hp]
        exact hI.end_open
    -- gpath
    · intro p hr
      by_cases hpn : p = nb
      · subst hpn
        obtain ⟨L, hL, hLc⟩ :=
          hI.gpath u (hI.closed_reached u hI.u_closed)
        refine ⟨L ++ [p], validPath_append_one L start u hL hnb hnw, ?_⟩
        rw [pathCost_append_one L start u hL, hLc, hread_nb]
      · have hracc : ReachedN acc.nodes start p := by
          rcases (hreach' p).1 hr with h | h
          · exact absurd h hpn
          · exact h
        obtain ⟨L, hL, hLc⟩ := hI.gpath p hracc
        rw [hread p hpn]
        exact ⟨L, hL, hLc⟩
    -- u_closed
    · rw [hread u (Ne.symm hnbu)]
      exact hI.u_closed
    -- frontierA
    · intro v hvc hvu y hy hynw
      have hv : v ≠ nb := by
        rintro rfl
        rw [hread_nb] at hvc
        exact Bool.noConfusion hvc
      rw [hread v hv] at hvc ⊢
      by_cases hyn : y = nb
      · subst hyn
        obtain ⟨hrold, hdold⟩ := hI.frontierA v hvc hvu y hy hynw
        have hvisy : (acc.nodes y).visited = true := by
          rcases hrold with h | h
          · exact h
          · exact absurd h hnbs
        have hlt := hgle hvisy
        refine ⟨hreach_nb, Or.inr ?_⟩
        rw [hread_nb]
        rcases hdold with h | h
        · rw [hncf] at h; cases h
        · exact le_trans (le_of_lt hlt) h
      · obtain ⟨hrold, hdold⟩ := hI.frontierA v hvc hvu y hy hynw
        rw [hread y hyn]
        exact ⟨(hreach' y).2 (Or.inr hrold), hdold⟩
    -- frontierU
    · intro y hy hynw
      have hbase : y = nb ∨ y ∈ processed := by
        rcases List.mem_append.mp hy with h | h
        · exact Or.inr h
        · exact Or.inl (by simpa using h)
      by_cases hyn : y = nb
      · subst hyn
        refine ⟨hreach_nb, Or.inr ?_⟩
        rw [hread_nb, hread u (Ne.symm hnbu)]
      · rcases hbase with h | h
        · exact absurd h hyn
        · obtain ⟨hrold, hdold⟩ := hI.frontierU y h hynw
          rw [hread y hyn, hread u (Ne.symm hnbu)]
          exact ⟨(hreach' y).2 (Or.inr hrold), hdold⟩
    -- cl_reached
    · intro hc
      rw [if_pos hc]
      split_ifs with hcond
      · exact hreach_nb
      · exact (hreach' acc.closestNode).2 (Or.inr (hI.cl_reached hc))
    -- cl_min
    · intro hc p hp
      rw [if_pos hc]
      have hZr := hI.cl_reached hc
      split_ifs with hcond
      · -- the closest node moves to nb
        by_cases hpn : p = nb
        · subst hpn
          exact Or.inr ⟨rfl, le_refl _⟩
        · have hracc : ReachedN acc.nodes start p := by
            rcases (hreach' p).1 hp with h | h
            · exact absurd h hpn
            · exact h
          rw [hread p hpn]
          by_cases hZn : acc.closestNode = nb
          · rw [hZn, hread_nb] at hcond
            rcases hcond with h | ⟨h1, h2⟩
            · exact absurd h (lt_irrefl _)
            · exact absurd h2 (lt_irrefl _)
          · rw [hread acc.closestNode hZn] at hcond
            rcases hcond with h1 | ⟨h1, h2⟩ <;>
              rcases hI.cl_min hc p hracc with h3 | ⟨h3, h4⟩
            · exact Or.inl (by rw [hread_nb]; exact lt_trans h1 h3)
            · exact Or.inl (by rw [hread_nb]; rw [← h3]; exact h1)
            · exact Or.inl (by rw [hread_nb]; rw [h1]; exact h3)
            · refine Or.inr ⟨by rw [hread_nb]; rw [h1]; exact h3, ?_⟩
              rw [hread_nb]
              exact le_trans (le_of_lt h2) h4
      · -- the closest node stays
        push_neg at hcond
        by_cases hZn : acc.closestNode = nb
        · -- it was already nb: its h is unchanged, its g only decreased
          have hvisnb : (acc.nodes nb).visited = true := by
            rcases hZr with h | h
            · rw [hZn] at h; exact h
            · rw [hZn] at h; exact absurd h hnbs
          have hhnb := hI.hcached nb (Or.inl hvisnb)
          have hlt := hgle hvisnb
          rw [hZn]
          by_cases hpn : p = nb
          · subst hpn
            exact Or.inr ⟨rfl, le_refl _⟩
          · have hracc : ReachedN acc.nodes start p := by
              rcases (hreach' p).1 hp with h | h
              · exact absurd h hpn
              · exact h
            rw [hread p hpn, hread_nb]
            have hold := hI.cl_min hc p hracc
            rw [hZn, hhnb] at hold
            rcases hold with h3 | ⟨h3, h4⟩
            · exact Or.inl h3
            · exact Or.inr ⟨h3, le_trans (le_of_lt hlt) h4⟩
        · rw [hread acc.closestNode hZn] at hcond ⊢
          obtain ⟨hc1, hc2⟩ := hcond
          by_cases hpn : p = nb
          · subst hpn
            rw [hread_nb]
            rcases lt_or_eq_of_le hc1 with h | h
            · exact Or.inl h
            · exact Or.inr ⟨h, hc2 h.symm⟩
          · have hracc : ReachedN acc.nodes start p := by
              rcases (hreach' p).1 hp with h | h
              · exact absurd h hpn
              · exact h
            rw [hread p hpn]
            exact hI.cl_min hc p hracc

/-- Folding `processNeighbor` over any sublist of `u`'s neighbors
preserves the mid-iteration invariant. -/
theorem midInv_fold {G : Graph} {heur : Pos → Pos → W} {endP start : Pos}
    {closest : Bool} {u : Pos} :
    ∀ (rest processed : List Pos) (acc : Step),
      (∀ y ∈ rest, y ∈ G.neighbors u) →
      MidInv G heur endP start closest u processed acc.nodes acc.dirty
        acc.heap acc.closestNode →
      MidInv G heur endP start closest u (processed ++ rest)
        (rest.foldl (processNeighbor G heur endP closest u) acc).nodes
        (rest.foldl (processNeighbor G heur endP closest u) acc).dirty
        (rest.foldl (processNeighbor G heur endP closest u) acc).heap
        (rest.foldl (processNeighbor G heur endP closest u) acc).closestNode
    := by
  intro rest
  induction rest with
  | nil =>
    intro processed acc _ hI
    simpa using hI
  | cons nb t ih =>
    intro processed acc hsub hI
    have h1 := midInv_step (hsub nb (List.mem_cons_self nb t)) hI
    have h2 := ih (processed ++ [nb])
      (processNeighbor G heur endP closest u acc nb)
      (fun y hy => hsub y (List.mem_cons_of_mem nb hy)) h1
    simpa [List.append_assoc] using h2

/-- Popping the heap head `u ≠ end` and closing it turns the loop-head
invariant into the mid-iteration invariant with no neighbor processed
yet. -/
theorem midInv_init {G : Graph} {heur : Pos → Pos → W} {endP start : Pos}
    {closest : Bool} {nodes : Pos → NodeState} {dirty : List Pos}
    {h₀ : Pos} {t₀ : List Pos} {closestNode : Pos}
    (hI : InvL G heur endP start closest nodes dirty (h₀ :: t₀)
      closestNode) (hne : h₀ ≠ endP) :
    MidInv G heur endP start closest h₀ []
      (updateNode nodes h₀ { nodes h₀ with closed := true }) dirty
      (heapPop (score nodes) (h₀ :: t₀)).2 closestNode := by
  obtain ⟨hr0, hc0⟩ := (hI.hmem h₀).1 (List.mem_cons_self h₀ t₀)
  set nodes₁ := updateNode nodes h₀ { nodes h₀ with closed := true }
    with hn1
  have hread0 : nodes₁ h₀ = { nodes h₀ with closed := true } := by
    rw [hn1]
    exact updateNode_same _ _ _
  have hread : ∀ p, p ≠ h₀ → nodes₁ p = nodes p := by
    intro p hp
    rw [hn1]
    exact updateNode_other _ _ _ hp
  have hgp : ∀ p, (nodes₁ p).g = (nodes p).g := by
    intro p
    by_cases hp : p = h₀
    · subst hp; rw [hread0]
    · rw [hread p hp]
  have hhp : ∀ p, (nodes₁ p).h = (nodes p).h := by
    intro p
    by_cases hp : p = h₀
    · subst hp; rw [hread0]
    · rw [hread p hp]
  have hfp : ∀ p, (nodes₁ p).f = (nodes p).f := by
    intro p
    by_cases hp : p = h₀
    · subst hp; rw [hread0]
    · rw [hread p hp]
  have hvp : ∀ p, (nodes₁ p).visited = (nodes p).visited := by
    intro p
    by_cases hp : p = h₀
    · subst hp; rw [hread0]
    · rw [hread p hp]
  have hpp : ∀ p, (nodes₁ p).parent = (nodes p).parent := by
    intro p
    by_cases hp : p = h₀
    · subst hp; rw [hread0]
    · rw [hread p hp]
  have hreach1 : ∀ p, ReachedN nodes₁ start p ↔ ReachedN nodes start p := by
    intro p
    unfold ReachedN
    rw [hvp p]
  have hclmono : ∀ p, (nodes p).closed = true → (nodes₁ p).closed = true := by
    intro p hc
    by_cases hp : p = h₀
    · subst hp; rw [hread0]
    · rw [hread p hp]; exact hc
  have hstc : (nodes₁ start).closed = true := by
    by_cases hs : start = h₀
    · rw [hs, hread0]
    · rw [hread start hs]
      by_cases hc : (nodes start).closed = true
      · exact hc
      · have hcf : (nodes start).closed = false := by
          cases h : (nodes start).closed
          · rfl
          · exact absurd h hc
        obtain ⟨hh, _⟩ := hI.start_fresh hcf
        injection hh with h1 _
        exact absurd h1.symm hs
  obtain ⟨hnin, hndt⟩ := List.nodup_cons.mp hI.hnodup
  have hperm := heapPop_snd_perm (score nodes) h₀ t₀
  have hmem1 : ∀ p, p ∈ (heapPop (score nodes) (h₀ :: t₀)).2 ↔ p ∈ t₀ :=
    fun p => hperm.mem_iff
  refine
    { hmem := ?_, hnodup := hperm.nodup_iff.mpr hndt, hbound := ?_,
      wall_unvisited := ?_, unreached_clean := ?_, start_closed := hstc,
      start_g := ?_, start_parent := ?_, start_unvisited := ?_,
      start_dirty := hI.start_dirty, hcached := ?_, f_eq := ?_,
      dirty_covers := ?_, dirty_bound := hI.dirty_bound,
      parent_inv := ?_, parent_none := ?_, closed_reached := ?_,
      end_open := ?_, gpath := ?_, u_closed := ?_, frontierA := ?_,
      frontierU := ?_, hprop := ?_, cl_reached := ?_, cl_min := ?_ }
  -- hmem
  · intro p
    rw [hmem1 p]
    by_cases hp : p = h₀
    · subst hp
      constructor
      · intro h
        exact absurd h hnin
      · rintro ⟨_, hc⟩
        rw [hread0] at hc
        exact Bool.noConfusion hc
    · constructor
      · intro h
        obtain ⟨hr, hc⟩ := (hI.hmem p).1 (List.mem_cons_of_mem h₀ h)
        rw [hreach1 p]
        rw [hread p hp]
        exact ⟨hr, hc⟩
      · rintro ⟨hr, hc⟩
        rw [hreach1 p] at hr
        rw [hread p hp] at hc
        rcases List.mem_cons.mp ((hI.hmem p).2 ⟨hr, hc⟩) with h | h
        · exact absurd h hp
        · exact h
  -- hbound
  · intro p hr
    exact hI.hbound p ((hreach1 p).1 hr)
  -- wall_unvisited
  · intro p hw
    rw [hvp p]
    exact hI.wall_unvisited p hw
  -- unreached_clean
  · intro p hr
    have hp : p ≠ h₀ := by
      rintro rfl
      exact hr ((hreach1 p).2 hr0)
    rw [hread p hp]
    exact hI.unreached_clean p fun h => hr ((hreach1 p).2 h)
  -- start_g
  · rw [hgp start]
    exact hI.start_g
  -- start_parent
  · rw [hpp start]
    exact hI.start_parent
  -- start_unvisited
  · rw [hvp start]
    exact hI.start_unvisited
  -- hcached
  · intro p hr
    rw [hhp p]
    exact hI.hcached p ((hreach1 p).1 hr)
  -- f_eq
  · intro p hv
    rw [hvp p] at hv
    rw [hfp p, hgp p, hhp p]
    exact hI.f_eq p hv
  -- dirty_covers
  · intro p hp
    by_cases hph : p = h₀
    · subst hph
      rcases hr0 with hv | hs
      · refine hI.dirty_covers p ?_
        intro hc
        rw [hc] at hv
        exact Bool.noConfusion hv
      · rw [hs]
        exact hI.start_dirty
    · rw [hread p hph] at hp
      exact hI.dirty_covers p hp
  -- parent_inv
  · intro p q hpq
    rw [hpp p] at hpq
    obtain ⟨h1, h2, h3, h4, h5⟩ := hI.parent_inv p q hpq
    refine ⟨h1, h2, hclmono q h3, ?_, ?_⟩
    · rw [hgp p, hgp q]
      exact h4
    · rw [hvp p]
      exact h5
  -- parent_none
  · intro p hr hp
    rw [hpp p] at hp
    exact hI.parent_none p ((hreach1 p).1 hr) hp
  -- closed_reached
  · intro p hc
    by_cases hp : p = h₀
    · subst hp
      exact (hreach1 p).2 hr0
    · rw [hread p hp] at hc
      exact (hreach1 p).2 (hI.closed_reached p hc)
  -- end_open
  · rw [hread endP (Ne.symm hne)]
    exact hI.end_open
  -- gpath
  · intro p hr
    rw [hgp p]
    exact hI.gpath p ((hreach1 p).1 hr)
  -- u_closed
  · rw [hread0]
  -- frontierA
  · intro v hvc hvu y hy hnw
    rw [hread v hvu] at hvc
    obtain ⟨hr, hd⟩ := hI.frontier v hvc y hy hnw
    refine ⟨(hreach1 y).2 hr, ?_⟩
    rcases hd with h | h
    · exact Or.inl (hclmono y h)
    · refine Or.inr ?_
      rw [hgp y, hread v hvu]
      exact h
  -- frontierU
  · intro y hy
    exact absurd hy (List.not_mem_nil y)
  -- hprop
  · rw [hn1, score_update_closed]
    exact heapPop_prop hI.hprop
  -- cl_reached
  · intro hc
    exact (hreach1 _).2 (hI.cl_reached hc)
  -- cl_min
  · intro hc p hp
    rw [hhp closestNode, hhp p, hgp closestNode, hgp p]
    exact hI.cl_min hc p ((hreach1 p).1 hp)

/-- Once every neighbor of `u` has been processed, the mid-iteration
invariant yields the loop-head invariant again. -/
theorem midInv_to_invL {G : Graph} {heur : Pos → Pos → W}
    {endP start : Pos} {closest : Bool} {u : Pos}
    {nodes : Pos → NodeState} {dirty heap : List Pos} {closestNode : Pos}
    (hM : MidInv G heur endP start closest u (G.neighbors u) nodes dirty
      heap closestNode) :
    InvL G heur endP start closest nodes dirty heap closestNode := by
  refine
    { hmem := hM.hmem, hnodup := hM.hnodup, hbound := hM.hbound,
      wall_unvisited := hM.wall_unvisited,
      unreached_clean := hM.unreached_clean, start_fresh := ?_,
      start_g := hM.start_g, start_parent := hM.start_parent,
      start_unvisited := hM.start_unvisited,
      start_dirty := hM.start_dirty, hcached := hM.hcached,
      f_eq := hM.f_eq, dirty_covers := hM.dirty_covers,
      dirty_bound := hM.dirty_bound, parent_inv := hM.parent_inv,
      parent_none := hM.parent_none, closed_reached := hM.closed_reached,
      end_open := hM.end_open, gpath := hM.gpath, frontier := ?_,
      hprop := hM.hprop, cl_reached := hM.cl_reached,
      cl_min := hM.cl_min }
  · intro h
    rw [hM.start_closed] at h
    exact Bool.noConfusion h
  · intro v hvc y hy hnw
    by_cases hvu : v = u
    · subst hvu
      exact hM.frontierU y hy hnw
    · exact hM.frontierA v hvc hvu y hy hnw

/-- One full iteration of the search loop (pop a non-end head, close it,
process all its neighbors) preserves the loop-head invariant. -/
theorem invL_iterate {G : Graph} {heur : Pos → Pos → W} {endP start : Pos}
    {closest : Bool} {nodes : Pos → NodeState} {dirty : List Pos}
    {h₀ : Pos} {t₀ : List Pos} {closestNode : Pos}
    (hI : InvL G heur endP start closest nodes dirty (h₀ :: t₀)
      closestNode) (hne : h₀ ≠ endP) :
    InvL G heur endP start closest
      ((G.neighbors h₀).foldl (processNeighbor G heur endP closest h₀)
        ⟨updateNode nodes h₀ { nodes h₀ with closed := true }, dirty,
          (heapPop (score nodes) (h₀ :: t₀)).2, closestNode⟩).nodes
      ((G.neighbors h₀).foldl (processNeighbor G heur endP closest h₀)
        ⟨updateNode nodes h₀ { nodes h₀ with closed := true }, dirty,
          (heapPop (score nodes) (h₀ :: t₀)).2, closestNode⟩).dirty
      ((G.neighbors h₀).foldl (processNeighbor G heur endP closest h₀)
        ⟨updateNode nodes h₀ { nodes h₀ with closed := true }, dirty,
          (heapPop (score nodes) (h₀ :: t₀)).2, closestNode⟩).heap
      ((G.neighbors h₀).foldl (processNeighbor G heur endP closest h₀)
        ⟨updateNode nodes h₀ { nodes h₀ with closed := true }, dirty,
          (heapPop (score nodes) (h₀ :: t₀)).2, closestNode⟩).closestNode
    := by
  have h1 := midInv_init hI hne
  have h2 := midInv_fold (G.neighbors h₀) []
    ⟨updateNode nodes h₀ { nodes h₀ with closed := true }, dirty,
      (heapPop (score nodes) (h₀ :: t₀)).2, closestNode⟩
    (fun y hy => hy) h1
  rw [List.nil_append] at h2
  exact midInv_to_invL h2

/-- The search loop preserves the loop-head invariant and, whenever it
returns, the returned path is computed by `pathTo` at the exit state: at
the end node when the loop exits by popping `end`, at `closestNode` when
the heap empties in `closest` mode, and `[]` otherwise. -/
theorem searchLoop_light {G : Graph} {heur : Pos → Pos → W}
    {endP start : Pos} {closest : Bool} :
    ∀ (fuel : Nat) (nodes : Pos → NodeState) (dirty heap : List Pos)
      (closestNode : Pos),
      InvL G heur endP start closest nodes dirty heap closestNode →
      ∀ path nodes' dirty',
        searchLoop G heur endP closest fuel nodes dirty heap closestNode =
          some (path, nodes', dirty') →
        ∃ heap' closest',
          InvL G heur endP start closest nodes' dirty' heap' closest' ∧
          ((∃ t', heap' = endP :: t' ∧
              path = pathTo nodes' G.pathFuel endP) ∨
           (heap' = [] ∧ closest = false ∧ path = []) ∨
           (heap' = [] ∧ closest = true ∧
              path = pathTo nodes' G.pathFuel closest')) := by
  intro fuel
  induction fuel with
  | zero =>
    intro nodes dirty heap closestNode _ path nodes' dirty' heq
    exact absurd heq (by simp [searchLoop])
  | succ fuel ih =>
    intro nodes dirty heap closestNode hI path nodes' dirty' heq
    match heap with
    | [] =>
      cases hcl : closest with
      | true =>
        rw [searchLoop, hcl] at heq
        simp only [if_pos, Option.some.injEq, Prod.mk.injEq] at heq
        obtain ⟨h1, h2, h3⟩ := heq
        subst h2; subst h3
        refine ⟨[], closestNode, ?_, ?_⟩
        · rw [← hcl]
          exact hI
        · right; right
          exact ⟨rfl, rfl, h1.symm⟩
      | false =>
        rw [searchLoop, hcl] at heq
        simp only [Bool.false_eq_true, if_false, Option.some.injEq,
          Prod.mk.injEq] at heq
        obtain ⟨h1, h2, h3⟩ := heq
        subst h2; subst h3
        refine ⟨[], closestNode, ?_, ?_⟩
        · rw [← hcl]
          exact hI
        · right; left
          exact ⟨rfl, rfl, h1.symm⟩
    | h₀ :: t₀ =>
      rw [searchLoop] at heq
      simp only at heq
      rw [heapPop_fst] at heq
      by_cases hend : h₀ = endP
      · rw [if_pos hend] at heq
        simp only [Option.some.injEq, Prod.mk.injEq] at heq
        obtain ⟨h1, h2, h3⟩ := heq
        subst h2; subst h3
        refine ⟨h₀ :: t₀, closestNode, hI, ?_⟩
        left
        refine ⟨t₀, by rw [hend], ?_⟩
        rw [← h1, hend]
      · rw [if_neg hend] at heq
        exact ih _ _ _ _ (invL_iterate hI hend) path nodes' dirty' heq

/-! ## Fuel sufficiency and the initial invariant -/

/-- `cleanDirty` pointwise: dirty entries are reset, others untouched. -/
theorem cleanDirty_eq :
    ∀ (dirty : List Pos) (nodes : Pos → NodeState) (p : Pos),
      cleanDirty nodes dirty p =
        if p ∈ dirty then cleanNode else nodes p := by
  intro dirty
  induction dirty with
  | nil => simp [cleanDirty]
  | cons d ds ih =>
    intro nodes p
    show cleanDirty (updateNode nodes d cleanNode) ds p = _
    rw [ih]
    by_cases hds : p ∈ ds
    · simp [hds, List.mem_cons]
    · by_cases hpd : p = d
      · subst hpd
        simp [hds, updateNode_same]
      · simp [hds, hpd, updateNode_other _ _ _ hpd]

/-- On a well-formed state `cleanDirty` resets every node. -/
theorem cleanDirty_of_wf {nodes : Pos → NodeState} {dirty : List Pos}
    (h : WellFormed nodes dirty) :
    cleanDirty nodes dirty = fun _ => cleanNode := by
  funext p
  rw [cleanDirty_eq]
  split_ifs with hp
  · rfl
  · by_cases hc : nodes p = cleanNode
    · exact hc
    · exact absurd (h p hc) hp

/-- Pushing onto the empty heap. -/
theorem heapPush_nil (sc : Pos → W) (e : Pos) :
    heapPush sc [] e = [e] := by
  unfold heapPush
  rw [List.nil_append]
  rw [sinkDown]
  simp

/-- Filtering with a pointwise-smaller predicate gives at most as many
elements. -/
theorem filter_length_mono :
    ∀ (l : List Pos) (p1 p2 : Pos → Bool),
      (∀ x ∈ l, p2 x = true → p1 x = true) →
      (l.filter p2).length ≤ (l.filter p1).length := by
  intro l
  induction l with
  | nil => intro p1 p2 _; simp
  | cons a t ih =>
    intro p1 p2 hmono
    have ht := ih p1 p2 fun x hx => hmono x (List.mem_cons_of_mem a hx)
    cases h2 : p2 a
    · cases h1 : p1 a
      · simp only [List.filter_cons, h1, h2, Bool.false_eq_true, if_false]
        exact ht
      · simp only [List.filter_cons, h1, h2, Bool.false_eq_true, if_false,
          if_true, List.length_cons]
        omega
    · have h1 : p1 a = true := hmono a (List.mem_cons_self a t) h2
      simp only [List.filter_cons, h1, h2, if_true, List.length_cons]
      omega

/-- Strict version: some element stops satisfying the predicate. -/
theorem filter_length_lt :
    ∀ (l : List Pos) (p1 p2 : Pos → Bool),
      (∀ x ∈ l, p2 x = true → p1 x = true) →
      ∀ nb, nb ∈ l → p1 nb = true → p2 nb = false →
      (l.filter p2).length < (l.filter p1).length := by
  intro l
  induction l with
  | nil =>
    intro _ _ _ nb h
    cases h
  | cons a t ih =>
    intro p1 p2 hmono nb hnb h1 h2
    have hmt : ∀ x ∈ t, p2 x = true → p1 x = true :=
      fun x hx => hmono x (List.mem_cons_of_mem a hx)
    rcases List.mem_cons.mp hnb with rfl | hnbt
    · simp only [List.filter_cons, h1, h2, Bool.false_eq_true, if_false,
        if_true, List.length_cons]
      have := filter_length_mono t p1 p2 hmt
      omega
    · cases h2a : p2 a
      · cases h1a : p1 a
        · simp only [List.filter_cons, h1a, h2a, Bool.false_eq_true,
            if_false]
          exact ih p1 p2 hmt nb hnbt h1 h2
        · simp only [List.filter_cons, h1a, h2a, Bool.false_eq_true,
            if_false, if_true, List.length_cons]
          have := ih p1 p2 hmt nb hnbt h1 h2
          omega
      · have h1a : p1 a = true := hmono a (List.mem_cons_self a t) h2a
        simp only [List.filter_cons, h1a, h2a, if_true, List.length_cons]
        have := ih p1 p2 hmt nb hnbt h1 h2
        omega

/-- Marking a node visited never increases the unvisited count. -/
theorem unvisitedCount_update_le (G : Graph) (nodes : Pos → NodeState)
    (nb : Pos) (v : NodeState) (hv : v.visited = true) :
    unvisitedCount G (updateNode nodes nb v) ≤ unvisitedCount G nodes := by
  apply filter_length_mono
  intro x _ h2
  by_cases hxnb : x = nb
  · subst hxnb
    rw [updateNode_same, hv] at h2
    cases h2
  · rw [updateNode_other _ _ _ hxnb] at h2
    exact h2

/-- Marking a previously unvisited grid cell visited strictly decreases
the unvisited count. -/
theorem unvisitedCount_update_lt (G : Graph) (nodes : Pos → NodeState)
    (nb : Pos) (v : NodeState) (hv : v.visited = true)
    (hnb : G.hasNode nb = true) (hold : (nodes nb).visited = false) :
    unvisitedCount G (updateNode nodes nb v) < unvisitedCount G nodes := by
  refine filter_length_lt _ _ _ ?_ nb ((hasNode_mem_allPos G nb).1 hnb)
    ?_ ?_
  · intro x _ h2
    by_cases hxnb : x = nb
    · subst hxnb
      rw [updateNode_same, hv] at h2
      cases h2
    · rw [updateNode_other _ _ _ hxnb] at h2
      exact h2
  · rw [hold]
    rfl
  · rw [updateNode_same, hv]
    rfl

/-- Closing a node does not change the unvisited count. -/
theorem unvisitedCount_closed (G : Graph) (nodes : Pos → NodeState)
    (u : Pos) :
    unvisitedCount G
      (updateNode nodes u { nodes u with closed := true }) =
      unvisitedCount G nodes := by
  unfold unvisitedCount
  congr 1
  apply List.filter_congr
  intro x _
  by_cases hxu : x = u
  · subst hxu
    rw [updateNode_same]
  · rw [updateNode_other _ _ _ hxu]

/-- One neighbor step never increases the loop termination measure. -/
theorem processNeighbor_measure (G : Graph) (heur : Pos → Pos → W)
    (endP : Pos) (closest : Bool) (u : Pos) (acc : Step) (nb : Pos)
    (hnb : nb ∈ G.neighbors u) :
    (processNeighbor G heur endP closest u acc nb).heap.length +
      unvisitedCount G (processNeighbor G heur endP closest u acc nb).nodes
      ≤ acc.heap.length + unvisitedCount G acc.nodes := by
  by_cases hskip : (acc.nodes nb).closed = true ∨ G.isWall nb
  · rw [processNeighbor_skip hskip]
  by_cases hrel : (acc.nodes nb).visited = false ∨
      (acc.nodes u).g + G.getCost nb u < (acc.nodes nb).g
  case neg =>
    rw [processNeighbor_keep hskip hrel]
  case pos =>
    rw [processNeighbor_relax hskip hrel]
    have hn_eq : (relaxedState G heur endP closest u acc nb).nodes =
        updateNode acc.nodes nb
          { f := (acc.nodes u).g + G.getCost nb u +
              (if (acc.nodes nb).h = 0 then heur nb endP
                else (acc.nodes nb).h),
            g := (acc.nodes u).g + G.getCost nb u,
            h := (if (acc.nodes nb).h = 0 then heur nb endP
              else (acc.nodes nb).h),
            visited := true, closed := (acc.nodes nb).closed,
            parent := some u } := rfl
    have hh_eq : (relaxedState G heur endP closest u acc nb).heap =
        (if (acc.nodes nb).visited = false then
          heapPush (score (relaxedState G heur endP closest u acc nb).nodes)
            acc.heap nb
         else
          heapRescore
            (score (relaxedState G heur endP closest u acc nb).nodes)
            acc.heap nb) := rfl
    rw [hh_eq, hn_eq]
    by_cases hbv : (acc.nodes nb).visited = false
    · rw [if_pos hbv]
      have hlen : (heapPush
          (score (updateNode acc.nodes nb
            { f := (acc.nodes u).g + G.getCost nb u +
                (if (acc.nodes nb).h = 0 then heur nb endP
                  else (acc.nodes nb).h),
              g := (acc.nodes u).g + G.getCost nb u,
              h := (if (acc.nodes nb).h = 0 then heur nb endP
                else (acc.nodes nb).h),
              visited := true, closed := (acc.nodes nb).closed,
              parent := some u })) acc.heap nb).length =
          acc.heap.length + 1 := by
        rw [(heapPush_perm _ acc.heap nb).length_eq]
        simp
      have hcnt := unvisitedCount_update_lt G acc.nodes nb
        { f := (acc.nodes u).g + G.getCost nb u +
            (if (acc.nodes nb).h = 0 then heur nb endP
              else (acc.nodes nb).h),
          g := (acc.nodes u).g + G.getCost nb u,
          h := (if (acc.nodes nb).h = 0 then heur nb endP
            else (acc.nodes nb).h),
          visited := true, closed := (acc.nodes nb).closed,
          parent := some u } rfl (mem_neighbors hnb).1 hbv
      rw [hlen]
      omega
    · rw [if_neg hbv]
      have hlen : (heapRescore
          (score (updateNode acc.nodes nb
            { f := (acc.nodes u).g + G.getCost nb u +
                (if (acc.nodes nb).h = 0 then heur nb endP
                  else (acc.nodes nb).h),
              g := (acc.nodes u).g + G.getCost nb u,
              h := (if (acc.nodes nb).h = 0 then heur nb endP
                else (acc.nodes nb).h),
              visited := true, closed := (acc.nodes nb).closed,
              parent := some u })) acc.heap nb).length =
          acc.heap.length := (heapRescore_perm _ acc.heap nb).length_eq
      have hcnt := unvisitedCount_update_le G acc.nodes nb
        { f := (acc.nodes u).g + G.getCost nb u +
            (if (acc.nodes nb).h = 0 then heur nb endP
              else (acc.nodes nb).h),
          g := (acc.nodes u).g + G.getCost nb u,
          h := (if (acc.nodes nb).h = 0 then heur nb endP
            else (acc.nodes nb).h),
          visited := true, closed := (acc.nodes nb).closed,
          parent := some u } rfl
      rw [hlen]
      omega

/-- Folding a whole neighbor list never increases the measure. -/
theorem foldl_measure {G : Graph} {heur : Pos → Pos → W} {endP : Pos}
    {closest : Bool} {u : Pos} :
    ∀ (rest : List Pos) (acc : Step),
      (∀ y ∈ rest, y ∈ G.neighbors u) →
      (rest.foldl (processNeighbor G heur endP closest u) acc).heap.length +
        unvisitedCount G
          (rest.foldl (processNeighbor G heur endP closest u) acc).nodes ≤
        acc.heap.length + unvisitedCount G acc.nodes := by
  intro rest
  induction rest with
  | nil =>
    intro acc _
    exact le_refl _
  | cons nb t ih =>
    intro acc hsub
    have h1 := processNeighbor_measure G heur endP closest u acc nb
      (hsub nb (List.mem_cons_self nb t))
    have h2 := ih (processNeighbor G heur endP closest u acc nb)
      fun y hy => hsub y (List.mem_cons_of_mem nb hy)
    exact le_trans h2 h1

/-- With fuel exceeding `|heap| + |unvisited cells|` the loop cannot run
out of fuel. -/
theorem searchLoop_ne_none {G : Graph} {heur : Pos → Pos → W}
    {endP : Pos} {closest : Bool} :
    ∀ (fuel : Nat) (nodes : Pos → NodeState) (dirty heap : List Pos)
      (closestNode : Pos),
      heap.length + unvisitedCount G nodes < fuel →
      searchLoop G heur endP closest fuel nodes dirty heap closestNode ≠
        none := by
  intro fuel
  induction fuel with
  | zero =>
    intro _ _ _ _ hm
    exact absurd hm (Nat.not_lt_zero _)
  | succ fuel ih =>
    intro nodes dirty heap closestNode hm
    match heap with
    | [] =>
      rw [searchLoop]
      split_ifs <;> simp
    | h₀ :: t₀ =>
      rw [searchLoop]
      simp only
      rw [heapPop_fst]
      by_cases hend : h₀ = endP
      · rw [if_pos hend]
        simp
      · rw [if_neg hend]
        apply ih
        have hfold :
            (((G.neighbors h₀).foldl
                (processNeighbor G heur endP closest h₀)
                ⟨updateNode nodes h₀
                  { f := (nodes h₀).f, g := (nodes h₀).g,
                    h := (nodes h₀).h, visited := (nodes h₀).visited,
                    closed := true, parent := (nodes h₀).parent },
                  dirty, (heapPop (score nodes) (h₀ :: t₀)).2,
                  closestNode⟩).heap.length +
              unvisitedCount G
                ((G.neighbors h₀).foldl
                  (processNeighbor G heur endP closest h₀)
                  ⟨updateNode nodes h₀
                    { f := (nodes h₀).f, g := (nodes h₀).g,
                      h := (nodes h₀).h, visited := (nodes h₀).visited,
                      closed := true, parent := (nodes h₀).parent },
                    dirty, (heapPop (score nodes) (h₀ :: t₀)).2,
                    closestNode⟩).nodes) ≤
            (heapPop (score nodes) (h₀ :: t₀)).2.length +
              unvisitedCount G
                (updateNode nodes h₀
                  { f := (nodes h₀).f, g := (nodes h₀).g,
                    h := (nodes h₀).h, visited := (nodes h₀).visited,
                    closed := true, parent := (nodes h₀).parent }) :=
          foldl_measure (G.neighbors h₀) _ fun y hy => hy
        have hlen : (heapPop (score nodes) (h₀ :: t₀)).2.length =
            t₀.length := (heapPop_snd_perm (score nodes) h₀ t₀).length_eq
        have hcnt : unvisitedCount G
            (updateNode nodes h₀
              { f := (nodes h₀).f, g := (nodes h₀).g, h := (nodes h₀).h,
                visited := (nodes h₀).visited, closed := true,
                parent := (nodes h₀).parent }) =
            unvisitedCount G nodes := unvisitedCount_closed G nodes h₀
        rw [List.length_cons] at hm
        omega

/-- At the loop entry of `astar.search` (on a well-formed graph state
with an in-bounds start) the loop-head invariant holds. -/
theorem invL_init {G : Graph} (heur : Pos → Pos → W) (endP start : Pos)
    (closest : Bool) {nodes₀ : Pos → NodeState} {dirty₀ : List Pos}
    (hs : G.hasNode start = true) (hwf : WellFormed nodes₀ dirty₀) :
    InvL G heur endP start closest
      (searchInit G heur start endP nodes₀ dirty₀) [start]
      (heapPush (score (searchInit G heur start endP nodes₀ dirty₀)) []
        start) start := by
  have hsi : searchInit G heur start endP nodes₀ dirty₀ =
      updateNode (fun _ => cleanNode) start
        { cleanNode with h := heur start endP } := by
    unfold searchInit
    rw [cleanDirty_of_wf hwf]
  rw [hsi, heapPush_nil]
  have hNs : updateNode (fun _ => cleanNode) start
      { cleanNode with h := heur start endP } start =
      { cleanNode with h := heur start endP } := updateNode_same _ _ _
  have hNo : ∀ p, p ≠ start → updateNode (fun _ => cleanNode) start
      { cleanNode with h := heur start endP } p = cleanNode :=
    fun p hp => updateNode_other _ _ _ hp
  have hv2 : ∀ p, (updateNode (fun _ => cleanNode) start
      { cleanNode with h := heur start endP } p).visited = false := by
    intro p
    by_cases hp : p = start
    · subst hp; rw [hNs]; rfl
    · rw [hNo p hp]; rfl
  have hc2 : ∀ p, (updateNode (fun _ => cleanNode) start
      { cleanNode with h := heur start endP } p).closed = false := by
    intro p
    by_cases hp : p = start
    · subst hp; rw [hNs]; rfl
    · rw [hNo p hp]; rfl
  have hrs : ∀ p, ReachedN (updateNode (fun _ => cleanNode) start
      { cleanNode with h := heur start endP }) start p → p = start := by
    intro p hr
    rcases hr with hv | h
    · rw [hv2 p] at hv
      cases hv
    · exact h
  refine
    { hmem := ?_, hnodup := List.nodup_singleton start, hbound := ?_,
      wall_unvisited := fun p _ => hv2 p, unreached_clean := ?_,
      start_fresh := fun _ => ⟨rfl, hv2⟩, start_g := ?_,
      start_parent := ?_, start_unvisited := hv2 start,
      start_dirty := List.mem_singleton.mpr rfl, hcached := ?_,
      f_eq := ?_, dirty_covers := ?_, dirty_bound := ?_,
      parent_inv := ?_, parent_none := fun p hr _ => hrs p hr,
      closed_reached := ?_, end_open := hc2 endP, gpath := ?_,
      frontier := ?_, hprop := ?_,
      cl_reached := fun _ => Or.inr rfl, cl_min := ?_ }
  -- hmem
  · intro p
    constructor
    · intro hp
      have : p = start := List.mem_singleton.mp hp
      subst this
      exact ⟨Or.inr rfl, hc2 p⟩
    · rintro ⟨hr, _⟩
      rw [List.mem_singleton]
      exact hrs p hr
  -- hbound
  · intro p hr
    rw [hrs p hr]
    exact hs
  -- unreached_clean
  · intro p hr
    refine hNo p ?_
    intro hp
    exact hr (Or.inr hp)
  -- start_g
  · rw [hNs]
    rfl
  -- start_parent
  · rw [hNs]
    rfl
  -- hcached
  · intro p hr
    rw [hrs p hr, hNs]
  -- f_eq
  · intro p hv
    rw [hv2 p] at hv
    cases hv
  -- dirty_covers
  · intro p hp
    rw [List.mem_singleton]
    by_contra hps
    exact hp (hNo p hps)
  -- dirty_bound
  · intro p hp
    rw [List.mem_singleton.mp hp]
    exact hs
  -- parent_inv
  · intro p q hpq
    exfalso
    by_cases hp : p = start
    · subst hp
      rw [hNs] at hpq
      exact Option.noConfusion hpq
    · rw [hNo p hp] at hpq
      exact Option.noConfusion hpq
  -- closed_reached
  · intro p hc
    rw [hc2 p] at hc
    cases hc
  -- gpath
  · intro p hr
    rw [hrs p hr]
    refine ⟨[], rfl, ?_⟩
    rw [hNs]
    rfl
  -- frontier
  · intro v hvc
    rw [hc2 v] at hvc
    cases hvc
  -- hprop
  · intro i hi hil
    simp at hil
    omega
  -- cl_min
  · intro _ p hp
    rw [hrs p hp]
    exact Or.inr ⟨rfl, le_refl _⟩

/-- The master exit theorem for `astar.search` on a well-formed state:
the loop-head invariant holds of the final node states and dirty list,
and the returned path is `pathTo` at the corresponding exit node. -/
theorem astarSearch_spec {G : Graph} {start endP : Pos}
    {options : SearchOptions} {nodes₀ : Pos → NodeState}
    {dirty₀ : List Pos} (hs : G.hasNode start = true)
    (hwf : WellFormed nodes₀ dirty₀) :
    ∃ heap' closest',
      InvL G (options.heuristic.getD manhattan) endP start options.closest
        (astarSearch G start endP options nodes₀ dirty₀).nodes
        (astarSearch G start endP options nodes₀ dirty₀).dirty heap'
        closest' ∧
      ((∃ t', heap' = endP :: t' ∧
          (astarSearch G start endP options nodes₀ dirty₀).path =
            pathTo (astarSearch G start endP options nodes₀ dirty₀).nodes
              G.pathFuel endP) ∨
       (heap' = [] ∧ options.closest = false ∧
          (astarSearch G start endP options nodes₀ dirty₀).path = []) ∨
       (heap' = [] ∧ options.closest = true ∧
          (astarSearch G start endP options nodes₀ dirty₀).path =
            pathTo (astarSearch G start endP options nodes₀ dirty₀).nodes
              G.pathFuel closest')) := by
  have hne : searchLoop G (options.heuristic.getD manhattan) endP
      options.closest (G.size + 2)
      (searchInit G (options.heuristic.getD manhattan) start endP nodes₀
        dirty₀) [start]
      (heapPush (score (searchInit G (options.heuristic.getD manhattan)
        start endP nodes₀ dirty₀)) [] start) start ≠ none := by
    apply searchLoop_ne_none
    rw [heapPush_nil]
    have h1 : unvisitedCount G (searchInit G
        (options.heuristic.getD manhattan) start endP nodes₀ dirty₀) ≤
        G.size := by
      unfold unvisitedCount
      calc (G.allPos.filter _).length ≤ G.allPos.length :=
            List.length_filter_le _ _
        _ = G.size := allPos_length G
    rw [List.length_singleton]
    omega
  obtain ⟨r, hr⟩ := Option.ne_none_iff_exists'.mp hne
  obtain ⟨p, ns, d⟩ := r
  have hast : astarSearch G start endP options nodes₀ dirty₀ =
      ⟨p, ns, d⟩ := by
    have h0 : astarSearch G start endP options nodes₀ dirty₀ =
        (match searchLoop G (options.heuristic.getD manhattan) endP
            options.closest (G.size + 2)
            (searchInit G (options.heuristic.getD manhattan) start endP
              nodes₀ dirty₀) [start]
            (heapPush (score (searchInit G
              (options.heuristic.getD manhattan) start endP nodes₀
              dirty₀)) [] start) start with
         | some (a, b, c) => SearchResult.mk a b c
         | none => ⟨[], searchInit G (options.heuristic.getD manhattan)
             start endP nodes₀ dirty₀, [start]⟩) := rfl
    rw [h0, hr]
  have hlight := searchLoop_light (G.size + 2)
    (searchInit G (options.heuristic.getD manhattan) start endP nodes₀
      dirty₀) [start]
    (heapPush (score (searchInit G (options.heuristic.getD manhattan)
      start endP nodes₀ dirty₀)) [] start) start
    (invL_init (options.heuristic.getD manhattan) endP start
      options.closest hs hwf) p ns d hr
  rw [hast]
  exact hlight

/-- Every cell listed by `pathTo` has its `parent` link set. -/
theorem pathTo_members (nodes : Pos → NodeState) :
    ∀ (k : Nat) (p x : Pos), x ∈ pathTo nodes k p →
      ∃ q, (nodes x).parent = some q := by
  intro k
  induction k with
  | zero =>
    intro p x hx
    cases hx
  | succ k ih =>
    intro p x hx
    rw [pathTo] at hx
    cases hpar : (nodes p).parent with
    | none =>
      rw [hpar] at hx
      cases hx
    | some q =>
      rw [hpar] at hx
      simp only at hx
      rcases List.mem_append.mp hx with h | h
      · exact ih q x h
      · have hxp : x = p := by simpa using h
        subst hxp
        exact ⟨q, hpar⟩

/-! ## C10: searching from a cell to itself -/

/-- C10: for every graph and in-bounds cell `s` (on a well-formed graph
state, with `closest` unset), `astar.search` with start and end both `s`
returns the empty sequence — the same value that signals "no path". -/
theorem C10_search_self (G : Graph) (s : Pos) (options : SearchOptions)
    (hcl : options.closest = false) (nodes₀ : Pos → NodeState)
    (dirty₀ : List Pos) (hs : G.hasNode s = true)
    (hwf : WellFormed nodes₀ dirty₀) :
    (astarSearch G s s options nodes₀ dirty₀).path = [] := by
  obtain ⟨heap', closest', hI, hexit⟩ :=
    @astarSearch_spec G s s options nodes₀ dirty₀ hs hwf
  rcases hexit with ⟨t', _, hp⟩ | ⟨_, _, hp⟩ | ⟨_, hcl2, _⟩
  · rw [hp]
    have hpar := hI.start_parent
    rw [Graph.pathFuel, pathTo, hpar]
  · exact hp
  · rw [hcl] at hcl2
    cases hcl2

/-- Witness: a concrete self-search on the open 2×2 grid. -/
theorem C10_search_self_witness :
    (astarSearch openGrid2 (0, 0) (0, 0) ⟨none, false⟩ freshNodes
      []).path = [] :=
  C10_search_self openGrid2 (0, 0) ⟨none, false⟩ rfl freshNodes []
    (by rfl) (fun p hp => absurd rfl hp)

/-! ## C2: walls are never traversed nor expanded -/

/-- C2: on a well-formed state with in-bounds start, no wall cell ever
appears in the returned path, and no wall cell is ever expanded: a wall's
`visited` flag (set by the neighbor relaxation, and only by it) is still
false after the search. -/
theorem C2_no_walls (G : Graph) (start endP : Pos)
    (options : SearchOptions) (nodes₀ : Pos → NodeState)
    (dirty₀ : List Pos) (hs : G.hasNode start = true)
    (hwf : WellFormed nodes₀ dirty₀) :
    (∀ x ∈ (astarSearch G start endP options nodes₀ dirty₀).path,
      ¬G.isWall x) ∧
    (∀ p, G.isWall p →
      ((astarSearch G start endP options nodes₀ dirty₀).nodes p).visited
        = false) := by
  obtain ⟨heap', closest', hI, hexit⟩ :=
    @astarSearch_spec G start endP options nodes₀ dirty₀ hs hwf
  constructor
  · intro x hx
    have hpar : ∃ q,
        ((astarSearch G start endP options nodes₀ dirty₀).nodes x).parent
          = some q := by
      rcases hexit with ⟨t', _, hp⟩ | ⟨_, _, hp⟩ | ⟨_, _, hp⟩
      · rw [hp] at hx
        exact pathTo_members _ _ _ _ hx
      · rw [hp] at hx
        cases hx
      · rw [hp] at hx
        exact pathTo_members _ _ _ _ hx
    obtain ⟨q, hq⟩ := hpar
    exact (hI.parent_inv x q hq).2.1
  · intro p hp
    exact hI.wall_unvisited p hp

/-- Witness: the wall grid `c5Grid` with a concrete search. -/
theorem C2_no_walls_witness :
    (∀ x ∈ (astarSearch c5Grid (0, 0) (1, 1) ⟨none, false⟩ freshNodes
        []).path, ¬c5Grid.isWall x) ∧
    (∀ p, c5Grid.isWall p →
      ((astarSearch c5Grid (0, 0) (1, 1) ⟨none, false⟩ freshNodes
        []).nodes p).visited = false) :=
  C2_no_walls c5Grid (0, 0) (1, 1) ⟨none, false⟩ freshNodes []
    (by rfl) (fun p hp => absurd rfl hp)

/-! ## C6: idempotence of repeated searches -/

/-- C6: running the same search twice in sequence (weights and diagonal
flag unmodified; well-formed initial state, in-bounds start) returns the
same path both times: the entry `cleanDirty` resets exactly the state the
first run left dirty. -/
theorem C6_idempotent (G : Graph) (start endP : Pos)
    (options : SearchOptions) (nodes₀ : Pos → NodeState)
    (dirty₀ : List Pos) (hs : G.hasNode start = true)
    (hwf : WellFormed nodes₀ dirty₀) :
    (astarSearch G start endP options
        (astarSearch G start endP options nodes₀ dirty₀).nodes
        (astarSearch G start endP options nodes₀ dirty₀).dirty).path =
      (astarSearch G start endP options nodes₀ dirty₀).path := by
  obtain ⟨heap', closest', hI, _⟩ :=
    @astarSearch_spec G start endP options nodes₀ dirty₀ hs hwf
  have hwf1 : WellFormed
      (astarSearch G start endP options nodes₀ dirty₀).nodes
      (astarSearch G start endP options nodes₀ dirty₀).dirty :=
    hI.dirty_covers
  have e1 : searchInit G (options.heuristic.getD manhattan) start endP
      (astarSearch G start endP options nodes₀ dirty₀).nodes
      (astarSearch G start endP options nodes₀ dirty₀).dirty =
      searchInit G (options.heuristic.getD manhattan) start endP nodes₀
        dirty₀ := by
    unfold searchInit
    rw [cleanDirty_of_wf hwf, cleanDirty_of_wf hwf1]
  have hall : astarSearch G start endP options
      (astarSearch G start endP options nodes₀ dirty₀).nodes
      (astarSearch G start endP options nodes₀ dirty₀).dirty =
      astarSearch G start endP options nodes₀ dirty₀ := by
    have h0 : astarSearch G start endP options nodes₀ dirty₀ =
        (match searchLoop G (options.heuristic.getD manhattan) endP
            options.closest (G.size + 2)
            (searchInit G (options.heuristic.getD manhattan) start endP
              nodes₀ dirty₀) [start]
            (heapPush (score (searchInit G
              (options.heuristic.getD manhattan) start endP nodes₀
              dirty₀)) [] start) start with
         | some (a, b, c) => SearchResult.mk a b c
         | none => ⟨[], searchInit G (options.heuristic.getD manhattan)
             start endP nodes₀ dirty₀, [start]⟩) := rfl
    have h1 : astarSearch G start endP options
        (astarSearch G start endP options nodes₀ dirty₀).nodes
        (astarSearch G start endP options nodes₀ dirty₀).dirty =
        (match searchLoop G (options.heuristic.getD manhattan) endP
            options.closest (G.size + 2)
            (searchInit G (options.heuristic.getD manhattan) start endP
              (astarSearch G start endP options nodes₀ dirty₀).nodes
              (astarSearch G start endP options nodes₀ dirty₀).dirty)
            [start]
            (heapPush (score (searchInit G
              (options.heuristic.getD manhattan) start endP
              (astarSearch G start endP options nodes₀ dirty₀).nodes
              (astarSearch G start endP options nodes₀ dirty₀).dirty))
              [] start) start with
         | some (a, b, c) => SearchResult.mk a b c
         | none => ⟨[], searchInit G (options.heuristic.getD manhattan)
             start endP
             (astarSearch G start endP options nodes₀ dirty₀).nodes
             (astarSearch G start endP options nodes₀ dirty₀).dirty,
             [start]⟩) := rfl
    rw [h1, e1, ← h0]
  rw [hall]

/-- Witness: a concrete double search on the open 2×2 grid. -/
theorem C6_idempotent_witness :
    (astarSearch openGrid2 (0, 0) (1, 1) ⟨none, false⟩
        (astarSearch openGrid2 (0, 0) (1, 1) ⟨none, false⟩ freshNodes
          []).nodes
        (astarSearch openGrid2 (0, 0) (1, 1) ⟨none, false⟩ freshNodes
          []).dirty).path =
      (astarSearch openGrid2 (0, 0) (1, 1) ⟨none, false⟩ freshNodes
        []).path :=
  C6_idempotent openGrid2 (0, 0) (1, 1) ⟨none, false⟩ freshNodes []
    (by rfl) (fun p hp => absurd rfl hp)

/-! ## Walking parent chains: `pathTo` reconstructs an optimal-cost path -/

/-- The gauge strictly decreases towards smaller `g` values. -/
theorem gGauge_lt {G : Graph} {nodes : Pos → NodeState} {p q : Pos}
    (hq : G.hasNode q = true) (hlt : (nodes q).g < (nodes p).g) :
    gGauge G nodes q < gGauge G nodes p := by
  apply Finset.card_lt_card
  rw [Finset.ssubset_def]
  constructor
  · intro r hr
    rw [Finset.mem_filter] at hr ⊢
    exact ⟨hr.1, lt_trans hr.2 hlt⟩
  · intro hts
    have hqmem : q ∈ G.allPos.toFinset.filter
        (fun r => (nodes r).g < (nodes p).g) := by
      rw [Finset.mem_filter, List.mem_toFinset]
      exact ⟨(hasNode_mem_allPos G q).1 hq, hlt⟩
    have := hts hqmem
    rw [Finset.mem_filter] at this
    exact absurd this.2 (lt_irrefl _)

/-- The gauge is bounded by the grid size. -/
theorem gGauge_le_size (G : Graph) (nodes : Pos → NodeState) (p : Pos) :
    gGauge G nodes p ≤ G.size := by
  unfold gGauge
  calc (G.allPos.toFinset.filter _).card
      ≤ G.allPos.toFinset.card := Finset.card_filter_le _ _
    _ ≤ G.allPos.length := List.toFinset_card_le _
    _ = G.size := allPos_length G

/-- Under the loop invariant and non-negative weights, `pathTo` with
sufficient fuel reconstructs a valid path from the start whose cost is
exactly the node's `g`. -/
theorem pathTo_g {G : Graph} {heur : Pos → Pos → W} {endP start : Pos}
    {closest : Bool} {nodes : Pos → NodeState} {dirty heap : List Pos}
    {closestNode : Pos}
    (hI : InvL G heur endP start closest nodes dirty heap closestNode)
    (hw : NonnegWeights G) :
    ∀ (k : Nat) (p : Pos), ReachedN nodes start p → gGauge G nodes p < k →
      ValidPath G start (pathTo nodes k p) p ∧
      pathCost G start (pathTo nodes k p) = (nodes p).g := by
  intro k
  induction k with
  | zero =>
    intro p _ hg
    exact absurd hg (Nat.not_lt_zero _)
  | succ k ih =>
    intro p hr hg
    cases hpar : (nodes p).parent with
    | none =>
      have hps : p = start := hI.parent_none p hr hpar
      subst hps
      simp only [pathTo, hpar]
      refine ⟨rfl, ?_⟩
      rw [hI.start_g]
      rfl
    | some q =>
      obtain ⟨hnb, hnw, hqcl, hgeq, _⟩ := hI.parent_inv p q hpar
      have hqr : ReachedN nodes start q := hI.closed_reached q hqcl
      have hcost : 0 < G.getCost p q := getCost_pos hw q hnw
      have hglt : (nodes q).g < (nodes p).g := by
        rw [hgeq]
        linarith
      have hhq : G.hasNode q = true := hI.hbound q hqr
      have hgq : gGauge G nodes q < k :=
        lt_of_lt_of_le (gGauge_lt hhq hglt) (Nat.lt_succ_iff.mp hg)
      obtain ⟨hv, hc⟩ := ih q hqr hgq
      simp only [pathTo, hpar]
      constructor
      · exact validPath_append_one _ start q hv hnb hnw
      · rw [pathCost_append_one _ start q hv, hc, hgeq]

/-- When the heap has emptied, reachability propagates along valid paths:
every neighbor of a reached (hence closed) node has been reached. -/
theorem reached_of_empty_heap {G : Graph} {heur : Pos → Pos → W}
    {endP start : Pos} {closest : Bool} {nodes : Pos → NodeState}
    {dirty : List Pos} {closestNode : Pos}
    (hI : InvL G heur endP start closest nodes dirty [] closestNode) :
    ∀ (l : List Pos) (p q : Pos), ValidPath G p l q →
      ReachedN nodes start p → ReachedN nodes start q := by
  intro l
  induction l with
  | nil =>
    intro p q hv hp
    obtain rfl : p = q := hv
    exact hp
  | cons r t ih =>
    intro p q hv hp
    obtain ⟨⟨hmem, hnw⟩, hrest⟩ := hv
    have hpcl : (nodes p).closed = true := by
      cases hcl : (nodes p).closed
      · exact absurd ((hI.hmem p).2 ⟨hp, hcl⟩) (List.not_mem_nil p)
      · rfl
    exact ih r q hrest (hI.frontier p hpcl r hmem hnw).1

/-! ## C5: `closest` mode with an unreachable target -/

/-- The start cell of `c5Grid` is isolated: both of its in-grid neighbors
are walls, so nothing besides the start itself is reachable. -/
theorem c5Grid_isolated : ∀ (l : List Pos) (e : Pos),
    ValidPath c5Grid (0, 0) l e → l = [] ∧ e = (0, 0) := by
  intro l e hv
  cases l with
  | nil =>
    obtain rfl : (0, 0) = e := hv
    exact ⟨rfl, rfl⟩
  | cons q t =>
    exfalso
    obtain ⟨⟨hmem, hnw⟩, _⟩ := hv
    have hq : q = (1, 0) ∨ q = (0, 1) := by
      simpa [Graph.neighbors, Graph.hasNode, Graph.weightOpt, c5Grid,
        -Prod.mk_zero_zero, -Prod.mk_one_one] using hmem
    rcases hq with rfl | rfl
    · exact hnw (by norm_num [Graph.isWall, Graph.weight, Graph.weightOpt,
        c5Grid])
    · exact hnw (by norm_num [Graph.isWall, Graph.weight, Graph.weightOpt,
        c5Grid])

/-- The end cell `(1,1)` of `c5Grid` is unreachable from `(0,0)`. -/
theorem c5Grid_unreachable : ¬Reachable c5Grid (0, 0) (1, 1) := by
  rintro ⟨l, hv⟩
  obtain ⟨_, he⟩ := c5Grid_isolated l (1, 1) hv
  exact absurd he (by decide)

/-- All weights of `c5Grid` are non-negative. -/
theorem c5Grid_nonneg : NonnegWeights c5Grid := by
  rintro ⟨x, y⟩
  rcases x with _ | _ | x <;> rcases y with _ | _ | y <;>
    norm_num [Graph.weight, Graph.weightOpt, c5Grid, List.get?]

/-- C5 counterexample: on `c5Grid` (end fully enclosed by walls) the
`closest` search returns the *empty* path — the reachable cell closest to
the target is the start itself, whose `pathTo` is empty — refuting the
claim that the returned path is non-empty. -/
theorem C5_counterexample :
    ¬Reachable c5Grid (0, 0) (1, 1) ∧
    (astarSearch c5Grid (0, 0) (1, 1) ⟨none, true⟩ freshNodes []).path =
      [] := by
  refine ⟨c5Grid_unreachable, ?_⟩
  obtain ⟨heap', closest', hI, hexit⟩ :=
    @astarSearch_spec c5Grid (0, 0) (1, 1) ⟨none, true⟩ freshNodes []
      (by rfl) (fun p hp => absurd rfl hp)
  rcases hexit with ⟨t', hh, hp⟩ | ⟨_, hcf, _⟩ | ⟨hh, _, hp⟩
  · exfalso
    have hmem : (1, 1) ∈ heap' := by
      rw [hh]
      exact List.mem_cons_self _ _
    have hr := ((hI.hmem (1, 1)).1 hmem).1
    obtain ⟨L, hL, _⟩ := hI.gpath (1, 1) hr
    obtain ⟨_, he⟩ := c5Grid_isolated L (1, 1) hL
    exact absurd he (by decide)
  · cases hcf
  · rw [hp]
    have hcr := hI.cl_reached rfl
    obtain ⟨L, hL, _⟩ := hI.gpath closest' hcr
    obtain ⟨_, he⟩ := c5Grid_isolated L closest' hL
    subst he
    have hpar := hI.start_parent
    rw [Graph.pathFuel, pathTo, hpar]

/-- C5 amended: with an unreachable end (well-formed state, in-bounds
start, non-negative weights), the `closest` search returns `pathTo` of a
cell `c` that is reachable from the start and minimizes the heuristic
distance to the end over all reachable cells, ties broken by the minimal
final `g`; the returned path is a valid path from the start to `c` — and
it is *empty* exactly when `c` is the start itself (claiming a non-empty
path is wrong). -/
theorem C5_closest_characterization (G : Graph) (start endP : Pos)
    (options : SearchOptions) (hcl : options.closest = true)
    (nodes₀ : Pos → NodeState) (dirty₀ : List Pos)
    (hs : G.hasNode start = true) (hwf : WellFormed nodes₀ dirty₀)
    (hw : NonnegWeights G) (hnr : ¬Reachable G start endP) :
    ∃ c : Pos,
      ValidPath G start
        (astarSearch G start endP options nodes₀ dirty₀).path c ∧
      Reachable G start c ∧
      ∀ p, Reachable G start p →
        (options.heuristic.getD manhattan) c endP <
            (options.heuristic.getD manhattan) p endP ∨
        ((options.heuristic.getD manhattan) c endP =
            (options.heuristic.getD manhattan) p endP ∧
          ((astarSearch G start endP options nodes₀ dirty₀).nodes c).g ≤
            ((astarSearch G start endP options nodes₀ dirty₀).nodes p).g)
    := by
  obtain ⟨heap', closest', hI, hexit⟩ :=
    @astarSearch_spec G start endP options nodes₀ dirty₀ hs hwf
  rcases hexit with ⟨t', hh, hp⟩ | ⟨_, hcf, _⟩ | ⟨hh, _, hp⟩
  · exfalso
    have hmem : endP ∈ heap' := by
      rw [hh]
      exact List.mem_cons_self _ _
    have hr := ((hI.hmem endP).1 hmem).1
    obtain ⟨L, hL, _⟩ := hI.gpath endP hr
    exact hnr ⟨L, hL⟩
  · rw [hcl] at hcf
    cases hcf
  · subst hh
    have hcr := hI.cl_reached hcl
    refine ⟨closest', ?_, ?_, ?_⟩
    · rw [hp]
      refine (pathTo_g hI hw G.pathFuel closest' hcr ?_).1
      rw [Graph.pathFuel]
      exact Nat.lt_succ_of_le (gGauge_le_size G _ closest')
    · obtain ⟨L, hL, _⟩ := hI.gpath closest' hcr
      exact ⟨L, hL⟩
    · intro p hpreach
      obtain ⟨L, hL⟩ := hpreach
      have hpr := reached_of_empty_heap hI L start p hL (Or.inr rfl)
      have hcm := hI.cl_min hcl p hpr
      have hc1 := hI.hcached closest' hcr
      have hc2 := hI.hcached p hpr
      rw [hc1, hc2] at hcm
      exact hcm

/-- Witness for the amended C5 on the concrete walled grid. -/
theorem C5_closest_characterization_witness :
    ∃ c : Pos,
      ValidPath c5Grid (0, 0)
        (astarSearch c5Grid (0, 0) (1, 1) ⟨none, true⟩ freshNodes
          []).path c ∧
      Reachable c5Grid (0, 0) c ∧
      ∀ p, Reachable c5Grid (0, 0) p →
        manhattan c (1, 1) < manhattan p (1, 1) ∨
        (manhattan c (1, 1) = manhattan p (1, 1) ∧
          ((astarSearch c5Grid (0, 0) (1, 1) ⟨none, true⟩ freshNodes
            []).nodes c).g ≤
            ((astarSearch c5Grid (0, 0) (1, 1) ⟨none, true⟩ freshNodes
              []).nodes p).g) :=
  C5_closest_characterization c5Grid (0, 0) (1, 1) ⟨none, true⟩ rfl
    freshNodes [] (by rfl) (fun p hp => absurd rfl hp) c5Grid_nonneg
    c5Grid_unreachable

/-! ## Optimality under a consistent heuristic (C1 machinery) -/

/-- Along any valid path from a closed node to an open node there is a
first open node `y`, and (given `closed_g` for the already-closed nodes)
`y`'s `g` plus the cost of the remaining path segment is bounded by the
full path cost offset by the initial node's `g`. -/
theorem frontier_on_path {G : Graph} {heur : Pos → Pos → W}
    {endP start : Pos} {closest : Bool} {nodes : Pos → NodeState}
    {dirty heap : List Pos} {closestNode : Pos}
    (hI : InvL G heur endP start closest nodes dirty heap closestNode)
    (hCG : ClosedG G start nodes) :
    ∀ (l : List Pos) (x u : Pos), (nodes x).closed = true →
      ValidPath G x l u → (nodes u).closed = false →
      ∃ (y : Pos) (l₂ : List Pos), ReachedN nodes start y ∧
        (nodes y).closed = false ∧ ValidPath G y l₂ u ∧
        (nodes y).g + pathCost G y l₂ ≤ (nodes x).g + pathCost G x l := by
  intro l
  induction l with
  | nil =>
    intro x u hx hv hu
    obtain rfl : x = u := hv
    rw [hx] at hu
    cases hu
  | cons q t ih =>
    intro x u hx hv hu
    obtain ⟨⟨hmem, hnw⟩, hrest⟩ := hv
    by_cases hqc : (nodes q).closed = true
    · have hxr : ReachedN nodes start x := hI.closed_reached x hx
      obtain ⟨Lx, hLx, hLxc⟩ := hI.gpath x hxr
      have hvq : ValidPath G start (Lx ++ [q]) q :=
        validPath_append_one Lx start x hLx hmem hnw
      have hgq : (nodes q).g ≤ (nodes x).g + G.getCost q x := by
        have hb := hCG q hqc (Lx ++ [q]) hvq
        rw [pathCost_append_one Lx start x hLx, hLxc] at hb
        exact hb
      obtain ⟨y, l₂, h1, h2, h3, h4⟩ := ih q u hqc hrest hu
      refine ⟨y, l₂, h1, h2, h3, ?_⟩
      show _ ≤ (nodes x).g + (G.getCost q x + pathCost G q t)
      linarith
    · have hqf := hI.frontier x hx q hmem hnw
      have hqcf : (nodes q).closed = false := by
        cases h : (nodes q).closed
        · rfl
        · exact absurd h hqc
      have hgb : (nodes q).g ≤ (nodes x).g + G.getCost q x := by
        rcases hqf.2 with h | h
        · exact absurd h hqc
        · exact h
      refine ⟨q, t, hqf.1, hqcf, hrest, ?_⟩
      show _ ≤ (nodes x).g + (G.getCost q x + pathCost G q t)
      linarith

/-- A consistent heuristic telescopes along valid paths. -/
theorem consistent_telescope {G : Graph} {heur : Pos → Pos → W}
    {endP : Pos} (hcons : Consistent G heur endP) :
    ∀ (l : List Pos) (y u : Pos), ValidPath G y l u →
      heur y endP ≤ pathCost G y l + heur u endP := by
  intro l
  induction l with
  | nil =>
    intro y u hv
    obtain rfl : y = u := hv
    simp [pathCost]
  | cons q t ih =>
    intro y u hv
    obtain ⟨⟨hmem, hnw⟩, hrest⟩ := hv
    have h1 := hcons y q hmem hnw
    have h2 := ih q u hrest
    show heur y endP ≤ (G.getCost q y + pathCost G q t) + heur u endP
    linarith

/-- The heap head popped by the loop has optimal `g`: no valid path from
the start can reach it more cheaply (consistent heuristic, non-negative
weights). -/
theorem pop_min_g {G : Graph} {heur : Pos → Pos → W} {endP start : Pos}
    {closest : Bool} {nodes : Pos → NodeState} {dirty : List Pos}
    {h₀ : Pos} {t₀ : List Pos} {closestNode : Pos}
    (hI : InvL G heur endP start closest nodes dirty (h₀ :: t₀)
      closestNode)
    (hCG : ClosedG G start nodes) (hw : NonnegWeights G)
    (hcons : Consistent G heur endP) :
    ∀ l, ValidPath G start l h₀ → (nodes h₀).g ≤ pathCost G start l := by
  intro l hv
  by_cases hse : h₀ = start
  · subst hse
    rw [hI.start_g]
    exact pathCost_nonneg hw l _
  · have hstc : (nodes start).closed = true := by
      cases hc : (nodes start).closed
      · obtain ⟨hh, _⟩ := hI.start_fresh hc
        injection hh with h1 _
        exact absurd h1 hse
      · rfl
    have hu_open : (nodes h₀).closed = false :=
      ((hI.hmem h₀).1 (List.mem_cons_self h₀ t₀)).2
    obtain ⟨y, l₂, hyr, hyc, hyv, hyb⟩ :=
      frontier_on_path hI hCG l start h₀ hstc hv hu_open
    rw [hI.start_g, zero_add] at hyb
    have hymem : y ∈ h₀ :: t₀ := (hI.hmem y).2 ⟨hyr, hyc⟩
    have hmin := heapProp_head_le_mem hI.hprop y hymem
    have hyne : y ≠ start := by
      rintro rfl
      rw [hstc] at hyc
      cases hyc
    have hyvis : (nodes y).visited = true := by
      rcases hyr with h | h
      · exact h
      · exact absurd h hyne
    have huvis : (nodes h₀).visited = true := by
      rcases ((hI.hmem h₀).1 (List.mem_cons_self h₀ t₀)).1 with h | h
      · exact h
      · exact absurd h hse
    have hfy := hI.f_eq y hyvis
    have hfu := hI.f_eq h₀ huvis
    have hhy := hI.hcached y hyr
    have hhu := hI.hcached h₀ (Or.inl huvis)
    have htel := consistent_telescope hcons l₂ y h₀ hyv
    simp only [score] at hmin
    rw [hfy, hfu, hhy, hhu] at hmin
    linarith

/-- `processNeighbor` never changes any `closed` flag. -/
theorem processNeighbor_closed_flag {G : Graph} {heur : Pos → Pos → W}
    {endP : Pos} {closest : Bool} {u : Pos} {acc : Step} {nb : Pos} :
    ∀ p, ((processNeighbor G heur endP closest u acc nb).nodes p).closed =
      (acc.nodes p).closed := by
  intro p
  by_cases hskip : (acc.nodes nb).closed = true ∨ G.isWall nb
  · rw [processNeighbor_skip hskip]
  by_cases hrel : (acc.nodes nb).visited = false ∨
      (acc.nodes u).g + G.getCost nb u < (acc.nodes nb).g
  case neg =>
    rw [processNeighbor_keep hskip hrel]
  case pos =>
    rw [processNeighbor_relax hskip hrel]
    by_cases hp : p = nb
    · subst hp
      show (updateNode acc.nodes p _ p).closed = _
      rw [updateNode_same]
    · show (updateNode acc.nodes nb _ p).closed = _
      rw [updateNode_other _ _ _ hp]

/-- `processNeighbor` leaves closed nodes entirely untouched. -/
theorem processNeighbor_closed_stable {G : Graph} {heur : Pos → Pos → W}
    {endP : Pos} {closest : Bool} {u : Pos} {acc : Step} {nb : Pos} :
    ∀ p, (acc.nodes p).closed = true →
      (processNeighbor G heur endP closest u acc nb).nodes p =
        acc.nodes p := by
  intro p hp
  by_cases hskip : (acc.nodes nb).closed = true ∨ G.isWall nb
  · rw [processNeighbor_skip hskip]
  by_cases hrel : (acc.nodes nb).visited = false ∨
      (acc.nodes u).g + G.getCost nb u < (acc.nodes nb).g
  case neg =>
    rw [processNeighbor_keep hskip hrel]
  case pos =>
    rw [processNeighbor_relax hskip hrel]
    have hncf : (acc.nodes nb).closed = false := by
      push_neg at hskip
      cases h : (acc.nodes nb).closed
      · rfl
      · exact absurd h hskip.1
    have hpn : p ≠ nb := by
      rintro rfl
      rw [hncf] at hp
      cases hp
    show updateNode acc.nodes nb _ p = _
    rw [updateNode_other _ _ _ hpn]

/-- Closed flags through a whole neighbor fold. -/
theorem foldl_closed_flag {G : Graph} {heur : Pos → Pos → W} {endP : Pos}
    {closest : Bool} {u : Pos} :
    ∀ (rest : List Pos) (acc : Step) (p : Pos),
      (((rest.foldl (processNeighbor G heur endP closest u)
        acc).nodes) p).closed = (acc.nodes p).closed := by
  intro rest
  induction rest with
  | nil =>
    intro acc p
    rfl
  | cons nb t ih =>
    intro acc p
    rw [List.foldl_cons, ih, processNeighbor_closed_flag]

/-- Closed nodes through a whole neighbor fold. -/
theorem foldl_closed_stable {G : Graph} {heur : Pos → Pos → W}
    {endP : Pos} {closest : Bool} {u : Pos} :
    ∀ (rest : List Pos) (acc : Step) (p : Pos),
      (acc.nodes p).closed = true →
      ((rest.foldl (processNeighbor G heur endP closest u) acc).nodes) p =
        acc.nodes p := by
  intro rest
  induction rest with
  | nil =>
    intro acc p _
    rfl
  | cons nb t ih =>
    intro acc p hp
    rw [List.foldl_cons, ih, processNeighbor_closed_stable p hp]
    rw [processNeighbor_closed_flag]
    exact hp

/-- One iteration of the loop preserves `closed_g` optimality: the only
freshly closed node is the popped head, whose `g` is optimal by
`pop_min_g`. -/
theorem closedG_iterate {G : Graph} {heur : Pos → Pos → W}
    {endP start : Pos} {closest : Bool} {nodes : Pos → NodeState}
    {dirty : List Pos} {h₀ : Pos} {t₀ : List Pos} {closestNode : Pos}
    (hI : InvL G heur endP start closest nodes dirty (h₀ :: t₀)
      closestNode)
    (hCG : ClosedG G start nodes) (hw : NonnegWeights G)
    (hcons : Consistent G heur endP) :
    ClosedG G start
      ((G.neighbors h₀).foldl (processNeighbor G heur endP closest h₀)
        ⟨updateNode nodes h₀ { nodes h₀ with closed := true }, dirty,
          (heapPop (score nodes) (h₀ :: t₀)).2, closestNode⟩).nodes := by
  intro p hpc l hv
  have hpc1 : ((updateNode nodes h₀ { nodes h₀ with closed := true })
      p).closed = true := by
    rw [← @foldl_closed_flag G heur endP closest h₀ (G.neighbors h₀)
      ⟨updateNode nodes h₀ { nodes h₀ with closed := true }, dirty,
        (heapPop (score nodes) (h₀ :: t₀)).2, closestNode⟩ p]
    exact hpc
  have heq := @foldl_closed_stable G heur endP closest h₀ (G.neighbors h₀)
    ⟨updateNode nodes h₀ { nodes h₀ with closed := true }, dirty,
      (heapPop (score nodes) (h₀ :: t₀)).2, closestNode⟩ p hpc1
  rw [heq]
  by_cases hph : p = h₀
  · subst hph
    show (updateNode nodes p { nodes p with closed := true } p).g ≤ _
    rw [updateNode_same]
    show (nodes p).g ≤ _
    exact pop_min_g hI hCG hw hcons l hv
  · show (updateNode nodes h₀ { nodes h₀ with closed := true } p).g ≤ _
    rw [updateNode_other _ _ _ hph]
    rw [updateNode_other _ _ _ hph] at hpc1
    exact hCG p hpc1 l hv

/-- The heavy loop theorem: whenever the loop returns and the end node
was reached in the final state, the end node's `g` is a lower bound on
the cost of every valid path from the start to the end. -/
theorem searchLoop_heavy {G : Graph} {heur : Pos → Pos → W}
    {endP start : Pos} {closest : Bool} (hw : NonnegWeights G)
    (hcons : Consistent G heur endP) :
    ∀ (fuel : Nat) (nodes : Pos → NodeState) (dirty heap : List Pos)
      (closestNode : Pos),
      InvL G heur endP start closest nodes dirty heap closestNode →
      ClosedG G start nodes →
      ∀ path nodes' dirty',
        searchLoop G heur endP closest fuel nodes dirty heap closestNode =
          some (path, nodes', dirty') →
        ReachedN nodes' start endP →
        ∀ l, ValidPath G start l endP →
          (nodes' endP).g ≤ pathCost G start l := by
  intro fuel
  induction fuel with
  | zero =>
    intro nodes dirty heap closestNode _ _ path nodes' dirty' heq
    exact absurd heq (by simp [searchLoop])
  | succ fuel ih =>
    intro nodes dirty heap closestNode hI hCG path nodes' dirty' heq
    match heap with
    | [] =>
      have hns : nodes' = nodes := by
        rw [searchLoop] at heq
        split_ifs at heq <;>
          simp only [Option.some.injEq, Prod.mk.injEq] at heq <;>
          exact heq.2.1.symm
      subst hns
      intro hr _ _
      exact absurd ((hI.hmem endP).2 ⟨hr, hI.end_open⟩)
        (List.not_mem_nil endP)
    | h₀ :: t₀ =>
      rw [searchLoop] at heq
      simp only at heq
      rw [heapPop_fst] at heq
      by_cases hend : h₀ = endP
      · rw [if_pos hend] at heq
        simp only [Option.some.injEq, Prod.mk.injEq] at heq
        obtain ⟨_, h2, _⟩ := heq
        subst h2
        intro _ l hv
        subst hend
        exact pop_min_g hI hCG hw hcons l hv
      · rw [if_neg hend] at heq
        exact ih _ _ _ _ (invL_iterate hI hend)
          (closedG_iterate hI hCG hw hcons) path nodes' dirty' heq

/-- At the loop entry no node is closed, so `closed_g` holds vacuously. -/
theorem closedG_init {G : Graph} (heur : Pos → Pos → W)
    (endP start : Pos) {nodes₀ : Pos → NodeState} {dirty₀ : List Pos}
    (hwf : WellFormed nodes₀ dirty₀) :
    ClosedG G start (searchInit G heur start endP nodes₀ dirty₀) := by
  intro p hpc
  exfalso
  have hcf : (searchInit G heur start endP nodes₀ dirty₀ p).closed =
      false := by
    unfold searchInit
    rw [cleanDirty_of_wf hwf]
    by_cases hp : p = start
    · subst hp
      rw [updateNode_same]
      rfl
    · rw [updateNode_other _ _ _ hp]
      rfl
  rw [hcf] at hpc
  cases hpc

/-- The heavy exit bound at the `astar.search` level: whenever the final
state has reached the end node, its `g` value is a lower bound on the
cost of every valid path from the start to the end (consistent heuristic,
non-negative weights). -/
theorem astarSearch_heavy {G : Graph} {start endP : Pos}
    {options : SearchOptions} {nodes₀ : Pos → NodeState}
    {dirty₀ : List Pos} (hs : G.hasNode start = true)
    (hwf : WellFormed nodes₀ dirty₀) (hw : NonnegWeights G)
    (hcons : Consistent G (options.heuristic.getD manhattan) endP) :
    ReachedN (astarSearch G start endP options nodes₀ dirty₀).nodes start
      endP →
    ∀ l, ValidPath G start l endP →
      ((astarSearch G start endP options nodes₀ dirty₀).nodes endP).g ≤
        pathCost G start l := by
  have hne : searchLoop G (options.heuristic.getD manhattan) endP
      options.closest (G.size + 2)
      (searchInit G (options.heuristic.getD manhattan) start endP nodes₀
        dirty₀) [start]
      (heapPush (score (searchInit G (options.heuristic.getD manhattan)
        start endP nodes₀ dirty₀)) [] start) start ≠ none := by
    apply searchLoop_ne_none
    rw [heapPush_nil]
    have h1 : unvisitedCount G (searchInit G
        (options.heuristic.getD manhattan) start endP nodes₀ dirty₀) ≤
        G.size := by
      unfold unvisitedCount
      calc (G.allPos.filter _).length ≤ G.allPos.length :=
            List.length_filter_le _ _
        _ = G.size := allPos_length G
    rw [List.length_singleton]
    omega
  obtain ⟨r, hr⟩ := Option.ne_none_iff_exists'.mp hne
  obtain ⟨p, ns, d⟩ := r
  have hast : astarSearch G start endP options nodes₀ dirty₀ =
      ⟨p, ns, d⟩ := by
    have h0 : astarSearch G start endP options nodes₀ dirty₀ =
        (match searchLoop G (options.heuristic.getD manhattan) endP
            options.closest (G.size + 2)
            (searchInit G (options.heuristic.getD manhattan) start endP
              nodes₀ dirty₀) [start]
            (heapPush (score (searchInit G
              (options.heuristic.getD manhattan) start endP nodes₀
              dirty₀)) [] start) start with
         | some (a, b, c) => SearchResult.mk a b c
         | none => ⟨[], searchInit G (options.heuristic.getD manhattan)
             start endP nodes₀ dirty₀, [start]⟩) := rfl
    rw [h0, hr]
  have hheavy := searchLoop_heavy hw hcons (G.size + 2)
    (searchInit G (options.heuristic.getD manhattan) start endP nodes₀
      dirty₀) [start]
    (heapPush (score (searchInit G (options.heuristic.getD manhattan)
      start endP nodes₀ dirty₀)) [] start) start
    (invL_init (options.heuristic.getD manhattan) endP start
      options.closest hs hwf)
    (closedG_init (options.heuristic.getD manhattan) endP start hwf)
    p ns d hr
  rw [hast]
  exact hheavy

/-! ## C1: optimality of the returned path -/

/-- C1 amended: under a *consistent* heuristic (non-negative weights,
well-formed state, in-bounds start, end reachable), the returned path is
a valid path from start to end and its cost (sum of per-step `getCost`)
is minimal among all valid paths.  Mere admissibility is *not* enough:
the closed-set skip (line 83) never reopens a node, which is only sound
for consistent heuristics — `C1_counterexample` exhibits an admissible
heuristic with a suboptimal result. -/
theorem C1_optimal_consistent (G : Graph) (start endP : Pos)
    (options : SearchOptions) (nodes₀ : Pos → NodeState)
    (dirty₀ : List Pos) (hs : G.hasNode start = true)
    (hwf : WellFormed nodes₀ dirty₀) (hw : NonnegWeights G)
    (hcons : Consistent G (options.heuristic.getD manhattan) endP)
    (hreach : Reachable G start endP) :
    ValidPath G start
      (astarSearch G start endP options nodes₀ dirty₀).path endP ∧
    ∀ l, ValidPath G start l endP →
      pathCost G start
        (astarSearch G start endP options nodes₀ dirty₀).path ≤
        pathCost G start l := by
  obtain ⟨heap', closest', hI, hexit⟩ :=
    @astarSearch_spec G start endP options nodes₀ dirty₀ hs hwf
  have hempty : heap' = [] → False := by
    intro hh
    subst hh
    obtain ⟨L, hL⟩ := hreach
    have hre := reached_of_empty_heap hI L start endP hL (Or.inr rfl)
    exact absurd ((hI.hmem endP).2 ⟨hre, hI.end_open⟩)
      (List.not_mem_nil endP)
  rcases hexit with ⟨t', hh, hp⟩ | ⟨hh, _, _⟩ | ⟨hh, _, _⟩
  · have hrEnd : ReachedN
        (astarSearch G start endP options nodes₀ dirty₀).nodes start
        endP := by
      have hmem : endP ∈ heap' := by
        rw [hh]
        exact List.mem_cons_self _ _
      exact ((hI.hmem endP).1 hmem).1
    have hgb : gGauge G
        (astarSearch G start endP options nodes₀ dirty₀).nodes endP <
        G.pathFuel := by
      rw [Graph.pathFuel]
      exact Nat.lt_succ_of_le (gGauge_le_size G _ endP)
    obtain ⟨hvalid, hcost⟩ := pathTo_g hI hw G.pathFuel endP hrEnd hgb
    constructor
    · rw [hp]
      exact hvalid
    · intro l hv
      rw [hp, hcost]
      exact astarSearch_heavy hs hwf hw hcons hrEnd l hv
  · exact absurd hh hempty
  · exact absurd hh hempty

/-- Witness for the amended C1: a concrete search on the open 2×2 grid
with the (trivially consistent) zero heuristic. -/
theorem C1_optimal_consistent_witness :
    ValidPath openGrid2 (0, 0)
      (astarSearch openGrid2 (0, 0) (1, 1) ⟨some zeroHeur, false⟩
        freshNodes []).path (1, 1) ∧
    ∀ l, ValidPath openGrid2 (0, 0) l (1, 1) →
      pathCost openGrid2 (0, 0)
        (astarSearch openGrid2 (0, 0) (1, 1) ⟨some zeroHeur, false⟩
          freshNodes []).path ≤
        pathCost openGrid2 (0, 0) l :=
  C1_optimal_consistent openGrid2 (0, 0) (1, 1) ⟨some zeroHeur, false⟩
    freshNodes [] (by rfl) (fun p hp => absurd rfl hp)
    (by
      rintro ⟨x, y⟩
      rcases x with _ | _ | x <;> rcases y with _ | _ | y <;>
        norm_num [Graph.weight, Graph.weightOpt, openGrid2, List.get?])
    (by
      intro p q _ _
      have h1 : (0 : W) ≤ openGrid2.getCost q p := by
        apply getCost_nonneg
        rintro ⟨x, y⟩
        rcases x with _ | _ | x <;> rcases y with _ | _ | y <;>
          norm_num [Graph.weight, Graph.weightOpt, openGrid2, List.get?]
      show zeroHeur p (1, 1) ≤ openGrid2.getCost q p + zeroHeur q (1, 1)
      simp [zeroHeur]
      linarith)
    (by
      refine ⟨[(0, 1), (1, 1)], ⟨?_, ?_⟩, ⟨?_, ?_⟩, rfl⟩
      · simp [Graph.neighbors, Graph.hasNode, Graph.weightOpt, openGrid2,
          -Prod.mk_zero_zero, -Prod.mk_one_one]
      · norm_num [Graph.isWall, Graph.weight, Graph.weightOpt, openGrid2]
      · simp [Graph.neighbors, Graph.hasNode, Graph.weightOpt, openGrid2,
          -Prod.mk_zero_zero, -Prod.mk_one_one]
      · norm_num [Graph.isWall, Graph.weight, Graph.weightOpt, openGrid2])

/-- All weights of `ceGrid` are non-negative. -/
theorem ceGrid_nonneg : NonnegWeights ceGrid := by
  rintro ⟨x, y⟩
  rcases x with _ | _ | _ | x <;> rcases y with _ | _ | y <;>
    norm_num [Graph.weight, Graph.weightOpt, ceGrid, List.get?]

/-- Every traversable step in `ceGrid` costs at least 1. -/
theorem ceGrid_step_ge_one {q s : Pos} (hq : q ∈ ceGrid.neighbors s)
    (hnw : ¬ceGrid.isWall q) : 1 ≤ ceGrid.getCost q s := by
  obtain ⟨hn, _, _, _, hdg⟩ := mem_neighbors hq
  have horth : ¬(s.1 ≠ q.1 ∧ s.2 ≠ q.2) := by
    intro hd
    have hdiag := hdg ⟨Ne.symm hd.1, Ne.symm hd.2⟩
    exact absurd hdiag (by decide)
  rw [Graph.getCost, if_neg horth]
  obtain ⟨x, y⟩ := q
  rcases x with _ | _ | _ | x <;> rcases y with _ | _ | y <;>
    first
      | (norm_num [Graph.weight, Graph.weightOpt, ceGrid, List.get?];
          done)
      | (norm_num [Graph.isWall, Graph.weight, Graph.weightOpt, ceGrid,
          List.get?] at hnw; done)

/-- In `ceGrid` a path's cost dominates its length. -/
theorem ceGrid_cost_ge_length :
    ∀ (l : List Pos) (p e : Pos), ValidPath ceGrid p l e →
      (l.length : W) ≤ pathCost ceGrid p l := by
  intro l
  induction l with
  | nil =>
    intro p e _
    simp [pathCost]
  | cons q t ih =>
    intro p e hv
    obtain ⟨⟨hmem, hnw⟩, hrest⟩ := hv
    have h1 := ceGrid_step_ge_one hmem hnw
    have h2 := ih q e hrest
    show ((t.length + 1 : Nat) : W) ≤
      ceGrid.getCost q p + pathCost ceGrid q t
    push_cast
    linarith

/-- `ceHeur` is admissible for `ceGrid` towards `(2,1)`: it is 0 except
at `(1,0)`, where every valid path to `(2,1)` needs at least two unit-or-
more steps, so 2 is a lower bound. -/
theorem ceHeur_admissible : Admissible ceGrid ceHeur (2, 1) := by
  intro p l hv
  by_cases hp : p = (1, 0)
  · subst hp
    have hh : ceHeur (1, 0) (2, 1) = 2 := by simp [ceHeur]
    rw [hh]
    rcases l with _ | ⟨q, _ | ⟨q2, t⟩⟩
    · exact absurd hv (by decide)
    · exfalso
      obtain ⟨⟨hmem, _⟩, hq⟩ := hv
      obtain rfl : q = (2, 1) := hq
      obtain ⟨_, _, _, _, hdg⟩ := mem_neighbors hmem
      have hdiag := hdg (by decide)
      exact absurd hdiag (by decide)
    · have hlen := ceGrid_cost_ge_length (q :: q2 :: t) (1, 0) (2, 1) hv
      have hnn : (0 : W) ≤ (t.length : W) := Nat.cast_nonneg _
      rw [List.length_cons, List.length_cons] at hlen
      push_cast at hlen
      linarith
  · have hh : ceHeur p (2, 1) = 0 := by simp [ceHeur, hp]
    rw [hh]
    exact pathCost_nonneg ceGrid_nonneg l p

/-- C1 counterexample: `ceHeur` is admissible for `ceGrid` towards
`(2,1)` (but not consistent), yet the search returns the path through
`(0,1)` of cost 4, while the valid path through `(1,0)` costs only 7/2.
The closed-set skip (line 83) never reopens a node, which loses
optimality for admissible-but-inconsistent heuristics. -/
theorem C1_counterexample :
    Admissible ceGrid ceHeur (2, 1) ∧
    (astarSearch ceGrid (0, 0) (2, 1) ⟨some ceHeur, false⟩ freshNodes
      []).path = [(0, 1), (1, 1), (2, 1)] ∧
    ValidPath ceGrid (0, 0) [(1, 0), (1, 1), (2, 1)] (2, 1) ∧
    pathCost ceGrid (0, 0) [(1, 0), (1, 1), (2, 1)] <
      pathCost ceGrid (0, 0)
        (astarSearch ceGrid (0, 0) (2, 1) ⟨some ceHeur, false⟩ freshNodes
          []).path := by
  have hpath : (astarSearch ceGrid (0, 0) (2, 1) ⟨some ceHeur, false⟩
      freshNodes []).path = [(0, 1), (1, 1), (2, 1)] := by
    simp only [astarSearch]
    norm_num [Graph.size, ceGrid, cleanDirty, List.foldl_nil, cleanNode,
      freshNodes, Option.getD, ceHeur, manhattan, heapPush,
      updateNode_same, updateNode_other, Prod.mk.injEq,
      -Prod.mk_zero_zero, -Prod.mk_one_one]
    repeat first
      | (rw [bubbleUp]
         norm_num [processNeighbor, heapPush, heapPop, heapRescore, swapAt,
            score, Graph.neighbors, Graph.hasNode, Graph.weightOpt,
            Graph.weight, Graph.isWall, Graph.getCost,
            Graph.diagonalFactor, Graph.pathFuel, Graph.size, manhattan,
            cleanNode, freshNodes, ceGrid, ceHeur, Option.getD, List.foldl_cons,
            List.foldl_nil, updateNode_same, updateNode_other, cleanDirty,
            Prod.mk.injEq, List.findIdx?_cons, -Prod.mk_zero_zero,
            -Prod.mk_one_one])
      | (rw [sinkDown]
         norm_num [processNeighbor, heapPush, heapPop, heapRescore, swapAt,
            score, Graph.neighbors, Graph.hasNode, Graph.weightOpt,
            Graph.weight, Graph.isWall, Graph.getCost,
            Graph.diagonalFactor, Graph.pathFuel, Graph.size, manhattan,
            cleanNode, freshNodes, ceGrid, ceHeur, Option.getD, List.foldl_cons,
            List.foldl_nil, updateNode_same, updateNode_other, cleanDirty,
            Prod.mk.injEq, List.findIdx?_cons, -Prod.mk_zero_zero,
            -Prod.mk_one_one])
      | (rw [searchLoop]
         norm_num [processNeighbor, heapPush, heapPop, heapRescore, swapAt,
            score, Graph.neighbors, Graph.hasNode, Graph.weightOpt,
            Graph.weight, Graph.isWall, Graph.getCost,
            Graph.diagonalFactor, Graph.pathFuel, Graph.size, manhattan,
            cleanNode, freshNodes, ceGrid, ceHeur, Option.getD, List.foldl_cons,
            List.foldl_nil, updateNode_same, updateNode_other, cleanDirty,
            Prod.mk.injEq, List.findIdx?_cons, -Prod.mk_zero_zero,
            -Prod.mk_one_one])
      | (rw [pathTo]
         norm_num [processNeighbor, heapPush, heapPop, heapRescore, swapAt,
            score, Graph.neighbors, Graph.hasNode, Graph.weightOpt,
            Graph.weight, Graph.isWall, Graph.getCost,
            Graph.diagonalFactor, Graph.pathFuel, Graph.size, manhattan,
            cleanNode, freshNodes, ceGrid, ceHeur, Option.getD, List.foldl_cons,
            List.foldl_nil, updateNode_same, updateNode_other, cleanDirty,
            Prod.mk.injEq, List.findIdx?_cons, -Prod.mk_zero_zero,
            -Prod.mk_one_one])
  refine ⟨ceHeur_admissible, hpath, ?_, ?_⟩
  · refine ⟨⟨?_, ?_⟩, ⟨?_, ?_⟩, ⟨?_, ?_⟩, rfl⟩
    · simp [Graph.neighbors, Graph.hasNode, Graph.weightOpt, ceGrid,
        -Prod.mk_zero_zero, -Prod.mk_one_one]
    · norm_num [Graph.isWall, Graph.weight, Graph.weightOpt, ceGrid]
    · simp [Graph.neighbors, Graph.hasNode, Graph.weightOpt, ceGrid,
        -Prod.mk_zero_zero, -Prod.mk_one_one]
    · norm_num [Graph.isWall, Graph.weight, Graph.weightOpt, ceGrid]
    · simp [Graph.neighbors, Graph.hasNode, Graph.weightOpt, ceGrid,
        -Prod.mk_zero_zero, -Prod.mk_one_one]
    · norm_num [Graph.isWall, Graph.weight, Graph.weightOpt, ceGrid]
  · rw [hpath]
    norm_num [pathCost, Graph.getCost, Graph.weight, Graph.weightOpt,
      ceGrid, Graph.diagonalFactor]

/-! ## C8: the dirty list -/

/-- C8 counterexample: on `c8Grid` with heuristic `c8Heur` the cell
`(1,1)` is relaxed twice (the expensive route through `(0,1)` first, the
cheaper route through `(1,0)` later), and `markDirty` pushes
unconditionally (line 190), so `(1,1)` appears twice in the dirty list
after the search. -/
theorem C8_counterexample :
    ¬(astarSearch c8Grid (0, 0) (1, 1) ⟨some c8Heur, false⟩ freshNodes
      []).dirty.Nodup := by
  have h : (astarSearch c8Grid (0, 0) (1, 1) ⟨some c8Heur, false⟩
      freshNodes []).dirty =
      [(0, 0), (1, 0), (0, 1), (1, 1), (1, 1)] := by
    simp only [astarSearch]
    norm_num [Graph.size, c8Grid, cleanDirty, List.foldl_nil, cleanNode,
      freshNodes, Option.getD, c8Heur, manhattan, heapPush,
      updateNode_same, updateNode_other, Prod.mk.injEq,
      -Prod.mk_zero_zero, -Prod.mk_one_one]
    repeat first
      | (rw [bubbleUp]
         norm_num [processNeighbor, heapPush, heapPop, heapRescore, swapAt,
            score, Graph.neighbors, Graph.hasNode, Graph.weightOpt,
            Graph.weight, Graph.isWall, Graph.getCost,
            Graph.diagonalFactor, Graph.pathFuel, Graph.size, manhattan,
            cleanNode, freshNodes, c8Grid, c8Heur, Option.getD, List.foldl_cons,
            List.foldl_nil, updateNode_same, updateNode_other, cleanDirty,
            Prod.mk.injEq, List.findIdx?_cons, -Prod.mk_zero_zero,
            -Prod.mk_one_one])
      | (rw [sinkDown]
         norm_num [processNeighbor, heapPush, heapPop, heapRescore, swapAt,
            score, Graph.neighbors, Graph.hasNode, Graph.weightOpt,
            Graph.weight, Graph.isWall, Graph.getCost,
            Graph.diagonalFactor, Graph.pathFuel, Graph.size, manhattan,
            cleanNode, freshNodes, c8Grid, c8Heur, Option.getD, List.foldl_cons,
            List.foldl_nil, updateNode_same, updateNode_other, cleanDirty,
            Prod.mk.injEq, List.findIdx?_cons, -Prod.mk_zero_zero,
            -Prod.mk_one_one])
      | (rw [searchLoop]
         norm_num [processNeighbor, heapPush, heapPop, heapRescore, swapAt,
            score, Graph.neighbors, Graph.hasNode, Graph.weightOpt,
            Graph.weight, Graph.isWall, Graph.getCost,
            Graph.diagonalFactor, Graph.pathFuel, Graph.size, manhattan,
            cleanNode, freshNodes, c8Grid, c8Heur, Option.getD, List.foldl_cons,
            List.foldl_nil, updateNode_same, updateNode_other, cleanDirty,
            Prod.mk.injEq, List.findIdx?_cons, -Prod.mk_zero_zero,
            -Prod.mk_one_one])
      | (rw [pathTo]
         norm_num [processNeighbor, heapPush, heapPop, heapRescore, swapAt,
            score, Graph.neighbors, Graph.hasNode, Graph.weightOpt,
            Graph.weight, Graph.isWall, Graph.getCost,
            Graph.diagonalFactor, Graph.pathFuel, Graph.size, manhattan,
            cleanNode, freshNodes, c8Grid, c8Heur, Option.getD, List.foldl_cons,
            List.foldl_nil, updateNode_same, updateNode_other, cleanDirty,
            Prod.mk.injEq, List.findIdx?_cons, -Prod.mk_zero_zero,
            -Prod.mk_one_one])
  rw [h]
  decide

/-- C8 amended: every cell recorded in the dirty list belongs to the
graph (it is an in-bounds cell), but a cell may appear *several* times
before cleanup: `markDirty` appends on every relaxation without
deduplication. -/
theorem C8_dirty_in_graph (G : Graph) (start endP : Pos)
    (options : SearchOptions) (nodes₀ : Pos → NodeState)
    (dirty₀ : List Pos) (hs : G.hasNode start = true)
    (hwf : WellFormed nodes₀ dirty₀) :
    ∀ p ∈ (astarSearch G start endP options nodes₀ dirty₀).dirty,
      G.hasNode p = true := by
  obtain ⟨heap', closest', hI, _⟩ :=
    @astarSearch_spec G start endP options nodes₀ dirty₀ hs hwf
  exact hI.dirty_bound

/-- Witness: the start cell is in the dirty list of the concrete `c8Grid`
run, and the amended theorem applied to it confirms it is in-bounds. -/
theorem C8_dirty_in_graph_witness : c8Grid.hasNode (0, 0) = true := by
  obtain ⟨heap', closest', hI, _⟩ :=
    @astarSearch_spec c8Grid (0, 0) (1, 1) ⟨some c8Heur, false⟩
      freshNodes [] (by rfl) (fun p hp => absurd rfl hp)
  exact C8_dirty_in_graph c8Grid (0, 0) (1, 1) ⟨some c8Heur, false⟩
    freshNodes [] (by rfl) (fun p hp => absurd rfl hp) (0, 0)
    hI.start_dirty

end PathFinding
